import Mathlib

/-!
Shallow embedding of the SEO text-optimizer server core
(`src/server/routes.ts`, final definitions: `estimateSyllables`,
`extractCommonPhrases`, `generateContextualKeywords`, `analyzeSEOContent`
score computations, `insertKeywordIntelligently` and its helpers,
`cleanupRepetitions`, and the single/bulk insertion handlers).

Strings are modelled as `List Char`.  JavaScript string/regex primitives are
embedded for the ASCII fragment the server manipulates: `\w` is
`[A-Za-z0-9_]`, `\s` is the ASCII whitespace set, and `toLowerCase` /
`toUpperCase` act on ASCII letters.  All regexes the code builds from user
keywords first escape regex metacharacters, so they are literal-string
searches; the embedding implements them as literal scanners with the same
leftmost, non-overlapping, case-insensitive `\b`-delimited semantics.
`Math.random() > 0.7` draws are modelled by an explicit `coin : Bool`
parameter (`true` = the draw exceeded 0.7).  JavaScript floating point is
modelled with exact rationals; every claim proved here depends only on
clamping/rounding structure that is insensitive to double rounding error
(noted where used).
-/

set_option linter.unusedVariables false
set_option maxRecDepth 100000

namespace Seo

/-- Strings as character lists. -/
abbrev Str := List Char

/-- Coerce a Lean string literal to the character-list model. -/
def str (s : String) : Str := s.data

/-- JavaScript `\w` (ASCII word character). -/
def isWordChar (c : Char) : Bool :=
  ('a' ≤ c && c ≤ 'z') || ('A' ≤ c && c ≤ 'Z') || ('0' ≤ c && c ≤ '9') || c = '_'

/-- JavaScript `\s` restricted to ASCII whitespace. -/
def isWsChar (c : Char) : Bool :=
  c = ' ' || c = '\t' || c = '\n' || c = '\r' || c = '\x0b' || c = '\x0c'

/-- Sentence-terminal punctuation `[.!?]`. -/
def isTermChar (c : Char) : Bool :=
  c = '.' || c = '!' || c = '?'

/-- ASCII `toLowerCase` on one character. -/
def toLowerChar (c : Char) : Char :=
  if 'A' ≤ c && c ≤ 'Z' then Char.ofNat (c.toNat + 32) else c

/-- ASCII `toUpperCase` on one character. -/
def toUpperChar (c : Char) : Char :=
  if 'a' ≤ c && c ≤ 'z' then Char.ofNat (c.toNat - 32) else c

/-- `s.toLowerCase()`. -/
def lowerStr (s : Str) : Str := s.map toLowerChar

/-- `s.split(' ')` (single-character separator, empty pieces kept). -/
def splitOnSpace : Str → List Str
  | [] => [[]]
  | c :: cs =>
    if c = ' ' then [] :: splitOnSpace cs
    else
      match splitOnSpace cs with
      | [] => [[c]]
      | p :: ps => (c :: p) :: ps

/-- `arr.join(' ')`. -/
def joinSp : List Str → Str
  | [] => []
  | [w] => w
  | w :: x :: ws => w ++ ' ' :: joinSp (x :: ws)

/-- `s.replace(/\s+/g, ' ')`: every maximal whitespace run becomes one space. -/
def collapseWs : Str → Str
  | [] => []
  | c :: cs =>
    if isWsChar c then
      match cs with
      | [] => [' ']
      | d :: _ => if isWsChar d then collapseWs cs else ' ' :: collapseWs cs
    else c :: collapseWs cs

/-- `s.trim()` (ASCII whitespace). -/
def trimStr (s : Str) : Str :=
  ((s.dropWhile isWsChar).reverse.dropWhile isWsChar).reverse

/-- Prepend a character to the first piece of a split-in-progress. -/
def consHead (c : Char) : List Str → List Str
  | [] => [[c]]
  | p :: ps => (c :: p) :: ps

/-- Case-insensitive (ASCII) prefix match of a literal pattern. -/
def litMatchCI : Str → Str → Bool
  | [], _ => true
  | _ :: _, [] => false
  | p :: ps, c :: cs => toLowerChar p = toLowerChar c && litMatchCI ps cs

/-- Word-ness of an optional character (`\b` treats out-of-range as non-word). -/
def optIsWord : Option Char → Bool
  | none => false
  | some c => isWordChar c

/-- Match of the regex `\b L \b` (with `L` an escaped literal, flags `gi`) at
the head of `s`, where `prev` is the character just before this position in
the whole subject string.  A case-insensitive character match never changes
word-ness, so the boundary tests may inspect the pattern's own edge
characters.  The empty literal is modelled as never matching (the server
never builds one from the validated non-empty request fields). -/
def bMatchAt (pat : Str) (prev : Option Char) (s : Str) : Bool :=
  match pat with
  | [] => false
  | p :: _ =>
    litMatchCI pat s &&
    (isWordChar p != optIsWord prev) &&
    (isWordChar (pat.getLastD ' ') != optIsWord (s.drop pat.length).head?)

/-- Scanner for `content.match(regex).length` with `regex = \b L \b` and
flags `gi`: leftmost, non-overlapping matches.  The first argument counts
characters still covered by the previous match. -/
def countBGo (pat : Str) : Nat → Option Char → Str → Nat
  | _, _, [] => 0
  | Nat.succ k, _, c :: cs => countBGo pat k (some c) cs
  | 0, prev, c :: cs =>
    if bMatchAt pat prev (c :: cs) then
      Nat.succ (countBGo pat (pat.length - 1) (some c) cs)
    else countBGo pat 0 (some c) cs

/-- Number of `\b literal \b` matches (case-insensitive) in `s`. -/
def countBoundary (pat s : Str) : Nat := countBGo pat 0 none s

/-- `regex.test(s)` for the same word-boundary literal regex. -/
def testBoundary (pat s : Str) : Bool := countBoundary pat s != 0

/-- `hay.includes(pat)` (substring containment). -/
def strContains : Str → Str → Bool
  | [], pat => pat.isEmpty
  | c :: cs, pat => pat.isPrefixOf (c :: cs) || strContains cs pat

/-- The sentence split `content.split(/(?<=[.!?])\s+/)`: a separator is a
maximal whitespace run whose first character is immediately preceded by
sentence-terminal punctuation.  First flag: currently inside a separator
run. -/
def sentSplitGo : Bool → Option Char → Str → List Str
  | _, _, [] => [[]]
  | true, _, c :: cs =>
    if isWsChar c then sentSplitGo true (some c) cs
    else consHead c (sentSplitGo false (some c) cs)
  | false, prev, c :: cs =>
    if isWsChar c && (match prev with | some p => isTermChar p | none => false) then
      [] :: sentSplitGo true (some c) cs
    else consHead c (sentSplitGo false (some c) cs)

/-- `content.split(/(?<=[.!?])\s+/).filter(s => s.trim().length > 0)`. -/
def sentSplit (s : Str) : List Str :=
  (sentSplitGo false none s).filter fun p => !(trimStr p).isEmpty

/-- Generic split on maximal runs of separator characters, keeping empty
pieces at the edges (JavaScript `String.split` with a `class+` regex). -/
def splitSepGo (sep : Char → Bool) : Option Char → Str → List Str
  | _, [] => [[]]
  | prev, c :: cs =>
    if sep c then
      match prev with
      | some p =>
        if sep p then splitSepGo sep (some c) cs
        else [] :: splitSepGo sep (some c) cs
      | none => [] :: splitSepGo sep (some c) cs
    else consHead c (splitSepGo sep (some c) cs)

/-- `s.split(/\W+/)` (empty pieces at the edges kept, as in JavaScript). -/
def splitNW (s : Str) : List Str := splitSepGo (fun c => !isWordChar c) none s

/-- `s.split(/\s+/)` with empty edge pieces kept (used for the raw
word-count averages in the scorer). -/
def splitWsRaw (s : Str) : List Str := splitSepGo isWsChar none s

/-- `s.split(/[.!?]+/)` with empty pieces kept. -/
def splitTermRaw (s : Str) : List Str := splitSepGo isTermChar none s

/-- `w.toLowerCase().replace(/[^\w]/g, '')`. -/
def stripNonWord (w : Str) : Str := (lowerStr w).filter isWordChar

/-- Maximal runs of characters satisfying `p`. -/
def runsBy (p : Char → Bool) : Str → List Str
  | [] => []
  | c :: cs =>
    let ts := runsBy p cs
    if p c then
      match cs with
      | [] => [[c]]
      | d :: _ =>
        if p d then
          match ts with
          | [] => [[c]]
          | t :: ts' => (c :: t) :: ts'
        else [c] :: ts
    else ts

/-- Maximal whitespace-free chunks: the pieces of
`content.trim().split(/\s+/).filter(w => w.length > 0)`. -/
def wsTokens (s : Str) : List Str := runsBy (fun c => !isWsChar c) s

/-- The vowel set `[aeiouy]` of the syllable estimator. -/
def isVowelY (c : Char) : Bool :=
  c = 'a' || c = 'e' || c = 'i' || c = 'o' || c = 'u' || c = 'y'

/-- The character class `[^laeiouy]` (complement, note the `l`). -/
def inLVowelSet (c : Char) : Bool := c = 'l' || isVowelY c

/-- `word.replace(/(?:[^laeiouy]es|ed|[^laeiouy]e)$/, '')`: alternatives are
tried at the leftmost possible start position (length 3 first, then the two
length-2 alternatives in written order); the matched consonant is consumed. -/
def stripSilent (w : Str) : Str :=
  match w.reverse with
  | 's' :: 'e' :: c :: rest => if inLVowelSet c then w else rest.reverse
  | 'd' :: 'e' :: rest => rest.reverse
  | 'e' :: c :: rest => if inLVowelSet c then w else rest.reverse
  | _ => w

/-- `word.replace(/^y/, '')`. -/
def stripLeadY : Str → Str
  | 'y' :: rest => rest
  | w => w

/-- `word.match(/[aeiouy]{1,2}/g)` match count: the greedy global scan takes
up to two vowels per match. -/
def vowelChunks : Str → Nat
  | [] => 0
  | c :: cs =>
    if isVowelY c then
      match cs with
      | [] => 1
      | d :: ds =>
        if isVowelY d then Nat.succ (vowelChunks ds)
        else Nat.succ (vowelChunks (d :: ds))
    else vowelChunks cs

/-- `estimateSyllables` (routes.ts:1107). -/
def estimateSyllables (w : Str) : Nat :=
  let wl := lowerStr w
  if wl.length ≤ 3 then 1
  else
    let s := stripLeadY (stripSilent wl)
    let n := vowelChunks s
    if n = 0 then 1 else n

/-- Lengths of the maximal vowel runs of a word. -/
def vowelRunLens (s : Str) : List Nat := (runsBy isVowelY s).map List.length

/-- Spec-side syllable count of the claim: one syllable per maximal vowel
run, floored at 1.  (The code actually counts greedy chunks of at most two
vowels; see the amended characterization `syllableChunkSpec`.) -/
def syllableRunSpec (s : Str) : Nat :=
  let n := (vowelRunLens s).length
  if n = 0 then 1 else n

/-- Amended mathematical characterization: each maximal vowel run of length
`L` contributes `⌈L/2⌉` chunks, floored at 1. -/
def syllableChunkSpec (s : Str) : Nat :=
  let n := ((vowelRunLens s).map fun L => (L + 1) / 2).sum
  if n = 0 then 1 else n

/-- Stop-word list of the final `extractCommonPhrases` (routes.ts:1126). -/
def stopWords : List Str :=
  [str "the", str "a", str "an", str "and", str "or", str "but", str "in",
   str "on", str "at", str "to", str "for", str "of", str "with", str "by",
   str "is", str "are", str "was", str "were", str "be", str "been",
   str "being", str "have", str "has", str "had", str "do", str "does",
   str "did", str "will", str "would", str "could", str "should", str "may",
   str "might", str "can", str "this", str "that", str "these", str "those",
   str "i", str "you", str "he", str "she", str "it", str "we", str "they",
   str "me", str "him", str "her", str "us", str "them", str "my",
   str "your", str "his", str "her", str "its", str "our", str "their",
   str "mine", str "yours", str "ours", str "theirs", str "what",
   str "which", str "who", str "when", str "where", str "why", str "how",
   str "all", str "any", str "both", str "each", str "few", str "more",
   str "most", str "other", str "some", str "such", str "no", str "nor",
   str "not", str "only", str "own", str "same", str "so", str "than",
   str "too", str "very", str "just", str "now", str "also", str "then",
   str "first", str "get", str "make", str "go", str "see", str "come",
   str "take", str "know", str "time", str "year", str "work", str "well",
   str "way", str "day", str "man", str "new", str "want", str "use",
   str "good", str "look", str "right", str "old", str "still", str "big",
   str "great", str "long", str "own", str "say", str "here", str "out",
   str "up", str "about", str "into", str "over", str "think"]

/-- Membership in the stop-word set. -/
def isStop (w : Str) : Bool := stopWords.contains w

/-- `content.toLowerCase().match(/\b\w+\b/g) || []`: the lowercased word
tokens (maximal `\w` runs). -/
def wordTokens (content : Str) : List Str := runsBy isWordChar (lowerStr content)

/-- Insertion-ordered counting map: `map.set(k, (map.get(k) || 0) + 1)`. -/
def bump : List (Str × Nat) → Str → List (Str × Nat)
  | [], k => [(k, 1)]
  | (k', n) :: rest, k =>
    if k' = k then (k', n + 1) :: rest else (k', n) :: bump rest k

/-- Stable insertion step of the descending count sort. -/
def insDesc (x : Str × Nat) : List (Str × Nat) → List (Str × Nat)
  | [] => [x]
  | y :: ys => if x.2 < y.2 then y :: insDesc x ys else x :: y :: ys

/-- `.sort((a, b) => b[1] - a[1])`: stable sort by count descending. -/
def sortDesc : List (Str × Nat) → List (Str × Nat)
  | [] => []
  | x :: xs => insDesc x (sortDesc xs)

/-- The single-word frequency pass of `extractCommonPhrases`. -/
def singleWordCounts (ws : List Str) : List (Str × Nat) :=
  ws.foldl (fun m w => if w.length > 3 && !isStop w then bump m w else m) []

/-- Guard for a counted 2-word phrase (routes.ts:1137-1143). -/
def phrase2OK (w1 w2 : Str) : Bool :=
  w1.length > 3 && w2.length > 3 && !isStop w1 && !isStop w2 &&
  (let p := w1 ++ ' ' :: w2
   !strContains p (str "will") && !strContains p (str "get") &&
   !strContains p (str "make"))

/-- Guard for a counted 3-word phrase (routes.ts:1147-1152). -/
def phrase3OK (w1 w2 w3 : Str) : Bool :=
  w1.length > 3 && w2.length > 3 && w3.length > 3 &&
  !isStop w1 && !isStop w2 && !isStop w3 &&
  (let p := w1 ++ ' ' :: w2 ++ ' ' :: w3
   p.length > 10 && !strContains p (str "will") && !strContains p (str "get"))

/-- The phrase-counting loop of `extractCommonPhrases` (routes.ts:1136-1154). -/
def phraseLoop : List Str → List (Str × Nat) → List (Str × Nat)
  | w1 :: w2 :: rest, m =>
    let m1 := if phrase2OK w1 w2 then bump m (w1 ++ ' ' :: w2) else m
    let m2 :=
      match rest with
      | w3 :: _ =>
        if phrase3OK w1 w2 w3 then bump m1 (w1 ++ ' ' :: w2 ++ ' ' :: w3) else m1
      | [] => m1
    phraseLoop (w2 :: rest) m2
  | _, m => m

/-- The top-5 phrase suggestions (routes.ts:1157-1161). -/
def phraseSuggestions (content : Str) : List Str :=
  let m := phraseLoop (wordTokens content) []
  (((sortDesc (m.filter fun e => e.1.length > 8 && e.1.length < 35)).map
    Prod.fst).take 5)

/-- The top-3 distinctive single-word suggestions (routes.ts:1164-1168). -/
def wordSuggestions (content : Str) : List Str :=
  let m := singleWordCounts (wordTokens content)
  (((sortDesc (m.filter fun e =>
      e.2 ≥ 1 && e.1.length > 5 && e.1.length < 15)).map Prod.fst).take 3)

/-- `generateContextualKeywords` (routes.ts:1179). -/
def generateContextualKeywords (content : Str) : List Str :=
  let cl := lowerStr content
  let l1 :=
    if strContains cl (str "software") || strContains cl (str "digital") ||
        strContains cl (str "technology") then
      [str "digital solutions", str "technology innovation"] else []
  let l2 :=
    if strContains cl (str "business") || strContains cl (str "company") ||
        strContains cl (str "management") then
      [str "business strategy", str "growth opportunities"] else []
  let l3 :=
    if strContains cl (str "health") || strContains cl (str "fitness") ||
        strContains cl (str "nutrition") then
      [str "healthy lifestyle", str "wellness solutions"] else []
  let l4 :=
    if strContains cl (str "learn") || strContains cl (str "education") ||
        strContains cl (str "training") then
      [str "learning experience", str "educational resources"] else []
  let l5 :=
    if strContains cl (str "marketing") || strContains cl (str "brand") ||
        strContains cl (str "customer") then
      [str "brand awareness", str "customer engagement"] else []
  (l1 ++ l2 ++ l3 ++ l4 ++ l5).take 3

/-- The frequency-derived part `[...phraseSuggestions, ...wordSuggestions]`
of the extractor's output. -/
def freqSuggestions (content : Str) : List Str :=
  phraseSuggestions content ++ wordSuggestions content

/-- `extractCommonPhrases` (routes.ts:1120). -/
def extractCommonPhrases (content : Str) : List Str :=
  (freqSuggestions content ++ generateContextualKeywords content).take 8

/-- `getTopicWords` (routes.ts:1525): first topic row (in object order) whose
name or related words occur in the lowercased keyword. -/
def topicRows : List (Str × List Str) :=
  [(str "business",
    [str "company", str "strategy", str "management", str "professional",
     str "corporate", str "enterprise"]),
   (str "technology",
    [str "digital", str "innovation", str "software", str "tech",
     str "solution", str "system"]),
   (str "marketing",
    [str "brand", str "advertising", str "promotion", str "campaign",
     str "content", str "audience"]),
   (str "health",
    [str "wellness", str "medical", str "fitness", str "nutrition",
     str "healthcare", str "treatment"]),
   (str "education",
    [str "learning", str "teaching", str "training", str "knowledge",
     str "skill", str "academic"]),
   (str "finance",
    [str "money", str "investment", str "financial", str "banking",
     str "economic", str "revenue"])]

/-- `getTopicWords` (routes.ts:1525). -/
def getTopicWords (keyword : Str) : List Str :=
  let kl := lowerStr keyword
  match topicRows.find? fun row =>
      strContains kl row.1 || row.2.any fun w => strContains kl w with
  | some row => row.2
  | none => []

/-- Context score of one sentence in `findOptimalInsertionPosition`
(routes.ts:1451-1502).  `sw.substring(-3)` in JavaScript clamps the negative
start to 0, so the "suffix" comparison is whole-token equality. -/
def sentenceContextScore (keywordWords : List Str) (keyword : Str)
    (sentence : Str) (index total : Nat) : Nat :=
  let sentenceWords := splitNW (lowerStr sentence)
  let pairScore := fun (kw sw : Str) =>
    (if strContains sw kw || strContains kw sw then 3 else 0) +
    (if sw.length > 3 && kw.length > 3 then
      (if sw.take 3 = kw.take 3 then 2 else 0) + (if sw = kw then 1 else 0)
    else 0)
  let base :=
    (keywordWords.map fun kw => (sentenceWords.map fun sw => pairScore kw sw).sum).sum
  let topic :=
    ((getTopicWords keyword).map fun t =>
      if strContains (lowerStr sentence) t then 2 else 0).sum
  let pos := if 0 < index && 10 * index < 7 * total then 1 else 0
  let sLen := (splitOnSpace sentence).length
  let lenB := if 8 < sLen && sLen < 25 then 1 else 0
  let comma :=
    if strContains sentence (str ",") && !strContains sentence (str ";") &&
        !strContains sentence (str ":") then 1 else 0
  base + topic + pos + lenB + comma

/-- `findOptimalInsertionPosition` (routes.ts:1446). -/
def findOptimalInsertionPosition (sentences : List Str) (keyword content : Str) :
    Nat :=
  let keywordWords := splitOnSpace (lowerStr keyword)
  let n := sentences.length
  let best : Int × Nat :=
    sentences.enum.foldl
      (fun best p =>
        let sc : Int := sentenceContextScore keywordWords keyword p.2 p.1 n
        if sc > best.1 then (sc, p.1) else best)
      (-1, 0)
  if best.1 ≤ 0 then
    let mStart := n / 5
    let mEnd := 4 * n / 5
    ((List.range' mStart (mEnd - mStart)).foldl
      (fun acc i =>
        let L := (splitOnSpace (sentences.getD i [])).length
        if L > acc.2 && L > 6 then (i, L) else acc)
      (mStart, 0)).1
  else best.2

/-- Word lists used by `findBestWordPosition`. -/
def conjunctionWords : List Str :=
  [str "and", str "or", str "but", str "yet", str "so"]

/-- Transition adverbs of priority 2. -/
def transitionWords : List Str :=
  [str "however", str "moreover", str "furthermore", str "additionally",
   str "therefore", str "consequently", str "meanwhile"]

/-- Relative/subordinating words of priority 3. -/
def relativeWords : List Str :=
  [str "which", str "that", str "who", str "where", str "when",
   str "because", str "since", str "while", str "although"]

/-- Determiners avoided by the fallback position bump. -/
def avoidWords : List Str :=
  [str "the", str "a", str "an", str "this", str "that", str "these",
   str "those", str "his", str "her", str "its", str "our", str "their"]

/-- `words[i]?.toLowerCase().replace(/[^\w]/g, '')` as an `Option`. -/
def optStrip (words : List Str) (i : Nat) : Option Str :=
  (words.get? i).map stripNonWord

/-- Membership test against an optional stripped word
(`list.includes(undefined)` is `false`). -/
def optMem (l : List Str) : Option Str → Bool
  | some w => l.contains w
  | none => false

/-- The determiner-skipping loop of the fallback position. -/
def bumpAvoid (words : List Str) : Nat → Nat → Nat
  | 0, pos => pos
  | Nat.succ fuel, pos =>
    if pos + 1 < words.length &&
        optMem avoidWords (optStrip words pos) then
      bumpAvoid words fuel (pos + 1)
    else pos

/-- Semantic-flow score of one candidate position (priority 5,
routes.ts:1602-1623). -/
def semanticScoreAt (words keywordWords : List Str) (i : Nat) : Nat :=
  let before := lowerStr (joinSp ((words.drop (i - 2)).take (i - (i - 2))))
  let after := lowerStr (joinSp ((words.drop i).take 3))
  ((keywordWords.map fun kw =>
      if strContains before (kw.take 3) || strContains after (kw.take 3) then 2
      else 0).sum) +
  (if 2 < i && i + 2 < words.length then 1 else 0)

/-- `findBestWordPosition` (routes.ts:1559). -/
def findBestWordPosition (words : List Str) (keyword : Str) : Nat :=
  let minPos := 1
  let maxPos := max (words.length - 2) 1
  let idxs := List.range' minPos maxPos
  match idxs.find? fun i => optMem conjunctionWords (optStrip words i) with
  | some i => i
  | none =>
  match idxs.find? fun i => optMem transitionWords (optStrip words i) with
  | some i => i
  | none =>
  match idxs.find? fun i => optMem relativeWords (optStrip words i) with
  | some i => i
  | none =>
  match idxs.find? fun i =>
      match words.get? i with
      | some w => strContains w (str ",") && !strContains w (str "\x22")
      | none => false with
  | some i => i + 1
  | none =>
  let keywordWords := splitOnSpace (lowerStr keyword)
  let bestSem : Nat × Option Nat :=
    idxs.foldl
      (fun best i =>
        let sc := semanticScoreAt words keywordWords i
        if sc > best.1 then (sc, some i) else best)
      (0, none)
  match bestSem.2 with
  | some p => p
  | none =>
    let fp := bumpAvoid words words.length (2 * words.length / 5)
    max minPos (min fp maxPos)

/-- Flow words of the random-connector guard in the final
`createNaturalInsertion` (routes.ts:1651). -/
def flowWords : List Str := [str "and", str "or", str "but", str "so"]

/-- Capitalize the first character of a word. -/
def capWord : Str → Str
  | [] => []
  | c :: cs => toUpperChar c :: cs

/-- Capitalize the first word of the insertion. -/
def capFirstList : List Str → List Str
  | [] => []
  | w :: ws => capWord w :: ws

/-- Guard of the random `'and'` connector: the previous word exists, strips
to a non-empty token, and is neither a flow word nor an article
(routes.ts:1652). -/
def randGuard (words : List Str) (insertPos : Nat) : Bool :=
  if insertPos = 0 then false
  else
    match optStrip words (insertPos - 1) with
    | some w =>
      !w.isEmpty && !flowWords.contains w &&
      !([str "the", str "a", str "an"].contains w)
    | none => false

/-- The word list spliced in by `createNaturalInsertion` (routes.ts:1648-1681):
the keyword words, possibly prefixed by the random `'and'` connector and
possibly with the first word capitalized.  `coin = true` models
`Math.random() > 0.7`. -/
def spliceCore (words : List Str) (keyword : Str) (insertPos : Nat)
    (coin : Bool) : List Str :=
  if randGuard words insertPos then
    (if coin then str "and" :: splitOnSpace keyword else splitOnSpace keyword)
  else if optMem [str "for", str "with", str "about", str "through"]
      ((if insertPos = 0 then none else words.get? (insertPos - 1)).map
        stripNonWord) then
    splitOnSpace keyword
  else if insertPos = 0 ||
      (match (if insertPos = 0 then none else words.get? (insertPos - 1)) with
       | some w => match w.getLast? with
         | some c => isTermChar c
         | none => false
       | none => false) then
    capFirstList (splitOnSpace keyword)
  else if optMem [str "however", str "moreover", str "furthermore",
      str "additionally"]
      ((if insertPos = 0 then none else words.get? (insertPos - 1)).map
        stripNonWord) then
    splitOnSpace keyword
  else splitOnSpace keyword

/-- The capitalization guard on the whole insertion (routes.ts:1684-1688). -/
def spliceBlock (words : List Str) (keyword : Str) (insertPos : Nat)
    (coin : Bool) : List Str :=
  if insertPos = 0 ||
      (insertPos = 1 &&
        (let w0 := words.getD 0 []
         !w0.isEmpty && w0.all fun c => !isWordChar c)) then
    capFirstList (spliceCore words keyword insertPos coin)
  else spliceCore words keyword insertPos coin

/-- `createNaturalInsertion` (routes.ts:1642, the final simplified version):
splice the block into the word list, rejoin, collapse spacing, trim. -/
def createNaturalInsertion (words : List Str) (keyword : Str) (insertPos : Nat)
    (coin : Bool) : Str :=
  trimStr (collapseWs (joinSp (words.take insertPos ++
    spliceBlock words keyword insertPos coin ++ words.drop insertPos)))

/-- `insertKeywordInSentence` (routes.ts:1545). -/
def insertKeywordInSentence (sentences : List Str) (sentenceIndex : Nat)
    (keyword : Str) (coin : Bool) : Str :=
  let words := splitOnSpace (sentences.getD sentenceIndex [])
  let insertPos := findBestWordPosition words keyword
  let newSentence := createNaturalInsertion words keyword insertPos coin
  joinSp (sentences.set sentenceIndex newSentence)

/-- The duplicate gate of `insertKeywordIntelligently` (routes.ts:1397-1430):
`true` means the keyword is rejected and the content returned unchanged. -/
def gateSkip (content keyword : Str) : Bool :=
  let kl := lowerStr (trimStr keyword)
  let cl := lowerStr content
  if keyword.contains ' ' then
    strContains cl kl ||
    (splitOnSpace kl).any fun w => w.length > 3 && countBoundary w content ≥ 2
  else
    testBoundary keyword content

/-- Automatic-position insertion path. -/
def insertAuto (sentences : List Str) (keyword content : Str) (coin : Bool) : Str :=
  insertKeywordInSentence sentences
    (findOptimalInsertionPosition sentences keyword content) keyword coin

/-- `insertKeywordIntelligently` (routes.ts:1397). -/
def insertKeywordIntelligently (content keyword : Str) (position : Option Int)
    (coin : Bool) : Str :=
  if gateSkip content keyword then content
  else
    let sentences := sentSplit content
    if sentences.isEmpty then keyword ++ '.' :: ' ' :: content
    else
      match position with
      | some p =>
        if 0 ≤ p && p < sentences.length then
          insertKeywordInSentence sentences p.toNat keyword coin
        else insertAuto sentences keyword content coin
      | none => insertAuto sentences keyword content coin

/-- Maximal `\w+` prefix and the remainder. -/
def takeWord : Str → Str × Str
  | [] => ([], [])
  | c :: cs =>
    if isWordChar c then
      let p := takeWord cs
      (c :: p.1, p.2)
    else ([], c :: cs)

/-- Maximal `\s+` prefix and the remainder. -/
def takeWs : Str → Str × Str
  | [] => ([], [])
  | c :: cs =>
    if isWsChar c then
      let p := takeWs cs
      (c :: p.1, p.2)
    else ([], c :: cs)

/-- Maximal `,+` prefix and the remainder. -/
def takeCommas : Str → Str × Str
  | [] => ([], [])
  | c :: cs =>
    if c = ',' then
      let p := takeCommas cs
      (c :: p.1, p.2)
    else ([], c :: cs)

/-- Case-insensitive literal consumption: remainder after matching `pat`. -/
def litCIRest : Str → Str → Option Str
  | [], s => some s
  | _ :: _, [] => none
  | p :: ps, c :: cs =>
    if toLowerChar p = toLowerChar c then litCIRest ps cs else none

/-- A pattern matcher returns the match length and the replacement text. -/
abbrev Matcher := Option Char → Str → Option (Nat × Str)

/-- `/\b(\w+)\s+\1\b/gi` at the current position.  The greedy `\w+` group is
forced to the full word by the following `\s+`, and the back-reference is
forced to a full word by the trailing `\b`. -/
def p1Match : Matcher := fun prev s =>
  if optIsWord prev then none
  else
    let (w1, r1) := takeWord s
    if w1.isEmpty then none
    else
      let (ws1, r2) := takeWs r1
      if ws1.isEmpty then none
      else
        match litCIRest w1 r2 with
        | none => none
        | some r3 =>
          if optIsWord r3.head? then none
          else some (w1.length + ws1.length + w1.length, w1)

/-- `/\b(\w+\s+\w+)\s+\1\b/gi`: the back-reference repeats the captured text
(including its exact inner whitespace) case-insensitively. -/
def p2Match : Matcher := fun prev s =>
  if optIsWord prev then none
  else
    let (w1, r1) := takeWord s
    if w1.isEmpty then none
    else
      let (ws1, r2) := takeWs r1
      if ws1.isEmpty then none
      else
        let (w2, r3) := takeWord r2
        if w2.isEmpty then none
        else
          let (ws2, r4) := takeWs r3
          if ws2.isEmpty then none
          else
            let g := w1 ++ ws1 ++ w2
            match litCIRest g r4 with
            | none => none
            | some r5 =>
              if optIsWord r5.head? then none
              else some (g.length + ws2.length + g.length, g)

/-- `/\b(\w+)\s+\1\s+\1\b/gi`. -/
def p3Match : Matcher := fun prev s =>
  if optIsWord prev then none
  else
    let (w1, r1) := takeWord s
    if w1.isEmpty then none
    else
      let (ws1, r2) := takeWs r1
      if ws1.isEmpty then none
      else
        match litCIRest w1 r2 with
        | none => none
        | some r3 =>
          let (ws2, r4) := takeWs r3
          if ws2.isEmpty then none
          else
            match litCIRest w1 r4 with
            | none => none
            | some r5 =>
              if optIsWord r5.head? then none
              else some (3 * w1.length + ws1.length + ws2.length, w1)

/-- `/\b(\w+),\s*\1\s+(\w+)\s+after\s+\1\s+\2\s+\2\b/gi` → `'$1 $2'`. -/
def p4Match : Matcher := fun prev s =>
  if optIsWord prev then none
  else
    let (w1, r1) := takeWord s
    if w1.isEmpty then none
    else
      match r1 with
      | ',' :: r1' =>
        let (ws0, r2) := takeWs r1'
        match litCIRest w1 r2 with
        | none => none
        | some r3 =>
          let (ws1, r4) := takeWs r3
          if ws1.isEmpty then none
          else
            let (w2, r5) := takeWord r4
            if w2.isEmpty then none
            else
              let (ws2, r6) := takeWs r5
              if ws2.isEmpty then none
              else
                match litCIRest (str "after") r6 with
                | none => none
                | some r7 =>
                  let (ws3, r8) := takeWs r7
                  if ws3.isEmpty then none
                  else
                    match litCIRest w1 r8 with
                    | none => none
                    | some r9 =>
                      let (ws4, r10) := takeWs r9
                      if ws4.isEmpty then none
                      else
                        match litCIRest w2 r10 with
                        | none => none
                        | some r11 =>
                          let (ws5, r12) := takeWs r11
                          if ws5.isEmpty then none
                          else
                            match litCIRest w2 r12 with
                            | none => none
                            | some r13 =>
                              if optIsWord r13.head? then none
                              else
                                some (3 * w1.length + 3 * w2.length + 1 +
                                  ws0.length + ws1.length + ws2.length + 5 +
                                  ws3.length + ws4.length + ws5.length,
                                  w1 ++ ' ' :: w2)
      | _ => none

/-- Discourse markers of pattern 5. -/
def markerWords : List Str :=
  [str "especially", str "particularly", str "specifically", str "generally",
   str "after", str "before", str "during"]

/-- `/\b(especially|…|during)\s+\1\b/gi`.  No marker is a prefix of another,
so at most one alternative can start a match at a given position. -/
def p5Match : Matcher := fun prev s =>
  if optIsWord prev then none
  else
    match markerWords.find? fun m => (litCIRest m s).isSome with
    | none => none
    | some m =>
      match litCIRest m s with
      | none => none
      | some r1 =>
        let (ws1, r2) := takeWs r1
        if ws1.isEmpty then none
        else
          match litCIRest m r2 with
          | none => none
          | some r3 =>
            if optIsWord r3.head? then none
            else some (2 * m.length + ws1.length, s.take m.length)

/-- `/,\s*,+/g` → `','`. -/
def commaMatch : Matcher := fun _ s =>
  match s with
  | ',' :: r1 =>
    let (ws, r2) := takeWs r1
    let (cr, _) := takeCommas r2
    if cr.isEmpty then none else some (1 + ws.length + cr.length, [','])
  | _ => none

/-- `/\b(\w+),\s*\1\s+(\w+)\s+after\s+\1\s+\2/gi` → `'$1 $2'` (pattern 7:
no trailing `\b`, so the final back-reference may match a word prefix). -/
def p7Match : Matcher := fun prev s =>
  if optIsWord prev then none
  else
    let (w1, r1) := takeWord s
    if w1.isEmpty then none
    else
      match r1 with
      | ',' :: r1' =>
        let (ws0, r2) := takeWs r1'
        match litCIRest w1 r2 with
        | none => none
        | some r3 =>
          let (ws1, r4) := takeWs r3
          if ws1.isEmpty then none
          else
            let (w2, r5) := takeWord r4
            if w2.isEmpty then none
            else
              let (ws2, r6) := takeWs r5
              if ws2.isEmpty then none
              else
                match litCIRest (str "after") r6 with
                | none => none
                | some r7 =>
                  let (ws3, r8) := takeWs r7
                  if ws3.isEmpty then none
                  else
                    match litCIRest w1 r8 with
                    | none => none
                    | some r9 =>
                      let (ws4, r10) := takeWs r9
                      if ws4.isEmpty then none
                      else
                        match litCIRest w2 r10 with
                        | none => none
                        | some _ =>
                          some (3 * w1.length + 2 * w2.length + 1 +
                            ws0.length + ws1.length + ws2.length + 5 +
                            ws3.length + ws4.length,
                            w1 ++ ' ' :: w2)
      | _ => none

/-- Driver of `String.replace` with a global regex: scan left to right,
replace leftmost matches, continue after each match.  The counter holds the
number of input characters still covered by the previous match. -/
def replGo (m : Matcher) : Nat → Option Char → Str → Str
  | _, _, [] => []
  | Nat.succ k, _, c :: cs => replGo m k (some c) cs
  | 0, prev, c :: cs =>
    match m prev (c :: cs) with
    | some (len, repl) => repl ++ replGo m (len - 1) (some c) cs
    | none => c :: replGo m 0 (some c) cs

/-- One global replace pass over a whole string. -/
def replAll (m : Matcher) (s : Str) : Str := replGo m 0 none s

/-- `cleanupRepetitions` (routes.ts:1368): the seven passes in source order,
then `trim`. -/
def cleanupRepetitions (content : Str) : Str :=
  trimStr (replAll p7Match (collapseWs (replAll commaMatch (replAll p5Match
    (replAll p4Match (replAll p3Match (replAll p2Match
      (replAll p1Match content))))))))

/-- The single-insert endpoint body (routes.ts:1243-1246): intelligent
insertion followed by the cleanup pass. -/
def insertKeywordHandler (content keyword : Str) (coin : Bool) : Str :=
  cleanupRepetitions (insertKeywordIntelligently content keyword none coin)

/-- The bulk duplicate gate (routes.ts:1287-1313).  Identical to the single
gate except that the single-word regex is built from the lowercased trimmed
keyword. -/
def bulkGateSkip (current keyword : Str) : Bool :=
  let kl := lowerStr (trimStr keyword)
  let cl := lowerStr current
  if keyword.contains ' ' then
    strContains cl kl ||
    (splitOnSpace kl).any fun w => w.length > 3 && countBoundary w current ≥ 2
  else
    testBoundary kl current

/-- Match of `\b first \s+ first \b` at one position. -/
def repAt (first : Str) (prev : Option Char) (s : Str) : Bool :=
  match first with
  | [] => false
  | f :: _ =>
    (isWordChar f != optIsWord prev) &&
    (match litCIRest first s with
     | none => false
     | some r1 =>
       let (ws1, r2) := takeWs r1
       !ws1.isEmpty &&
       (match litCIRest first r2 with
        | none => false
        | some r3 =>
          isWordChar (first.getLastD ' ') != optIsWord r3.head?))

/-- Existence scan for the bulk repetition check
`new RegExp(`\b${first}\s+${first}\b`, 'gi').test(newContent)` *inside the
literal regex fragment*: when the interpolated first word is non-empty and
free of regex metacharacters (`rxLiteralWord`), the pattern compiles and
denotes exactly this case-insensitive literal scan.  Outside that fragment
the unescaped interpolation leaves the literal reading behind — the
constructor can even throw — and the loop is modelled by `bulkGoE`
instead, which makes that exception path explicit. -/
def repTest (first : Str) : Option Char → Str → Bool
  | _, [] => false
  | prev, c :: cs => repAt first prev (c :: cs) || repTest first (some c) cs

/-- The bulk repetition guard on the whole candidate content (literal
fragment only; see `repTest` and `bulkGoE`). -/
def hasImmediateRep (first s : Str) : Bool := repTest first none s

/-- The bulk insertion loop (routes.ts:1282-1337) inside the literal regex
fragment (every reached repetition check has a `rxLiteralWord` first word;
`bulkGoE` adds the constructor's exception path).  `coins i` is the random
draw consumed by the `i`-th iteration's splice. -/
def bulkGo (coins : Nat → Bool) : Nat → Str → List Str →
    Str × List Str × List Str
  | _, current, [] => (current, [], [])
  | i, current, kw :: rest =>
    if bulkGateSkip current kw then
      let r := bulkGo coins (i + 1) current rest
      (r.1, r.2.1, kw :: r.2.2)
    else
      let newC := insertKeywordIntelligently current kw none (coins i)
      if newC.length > current.length then
        let first := (splitOnSpace (lowerStr (trimStr kw))).headD []
        if !hasImmediateRep first newC then
          let r := bulkGo coins (i + 1) newC rest
          (r.1, kw :: r.2.1, r.2.2)
        else
          let r := bulkGo coins (i + 1) current rest
          (r.1, r.2.1, kw :: r.2.2)
      else
        let r := bulkGo coins (i + 1) current rest
        (r.1, r.2.1, kw :: r.2.2)

/-- The bulk-insert endpoint body (routes.ts:1276-1351): the loop, then one
cleanup pass on the final content.  Returns (content, inserted, skipped).
Literal fragment only — `bulkInsertE` adds the exception path. -/
def bulkInsert (content : Str) (keywords : List Str) (coins : Nat → Bool) :
    Str × List Str × List Str :=
  let r := bulkGo coins 0 content keywords
  (cleanupRepetitions r.1, r.2.1, r.2.2)

/-- One bulk iteration's acceptance criterion, spelled out: the duplicate
gate is re-run against the *current* content, then the candidate must grow
the length and introduce no immediate repetition of the keyword's first
word. -/
def bulkAccept (cur kw : Str) (coin : Bool) : Bool :=
  !bulkGateSkip cur kw &&
    ((insertKeywordIntelligently cur kw none coin).length > cur.length &&
     !hasImmediateRep ((splitOnSpace (lowerStr (trimStr kw))).headD [])
       (insertKeywordIntelligently cur kw none coin))

/-- The content carried into the next bulk iteration. -/
def bulkNext (cur kw : Str) (coin : Bool) : Str :=
  if bulkAccept cur kw coin then insertKeywordIntelligently cur kw none coin
  else cur

/-- Characters with syntactic meaning in a JavaScript regular expression
(the set the endpoint's *other* regex builds escape, plus the escape
character itself). -/
def rxMeta (c : Char) : Bool :=
  c = '\\' || c = '^' || c = '$' || c = '.' || c = '|' || c = '?' ||
  c = '*' || c = '+' || c = '(' || c = ')' || c = '[' || c = ']' ||
  c = '{' || c = '}'

/-- The bulk repetition check interpolates the keyword's first word into
`\b${first}\s+${first}\b` *without* escaping (routes.ts:1326).  Only a
non-empty, metacharacter-free first word keeps that pattern inside the
literal fragment, where the `RegExp` compiles and means the literal scan
`hasImmediateRep`.  Outside it the constructor can throw a `SyntaxError` —
e.g. `first = "c++"` gives `\bc++\s+c++\b`, a quantifier with nothing to
repeat — which the handler's `catch` turns into an HTTP 500 with no
keyword lists. -/
def rxLiteralWord (w : Str) : Bool := !w.isEmpty && w.all fun c => !rxMeta c

/-- The bulk insertion loop with the repetition check's `RegExp`
construction modelled (routes.ts:1282-1337): an iteration that reaches the
repetition check (gate passed, candidate longer) with a first word outside
the literal fragment is the endpoint's exception path, `none` — the whole
request fails with no inserted/skipped lists. -/
def bulkGoE (coins : Nat → Bool) : Nat → Str → List Str →
    Option (Str × List Str × List Str)
  | _, current, [] => some (current, [], [])
  | i, current, kw :: rest =>
    if bulkGateSkip current kw then
      (bulkGoE coins (i + 1) current rest).map fun r =>
        (r.1, r.2.1, kw :: r.2.2)
    else
      let newC := insertKeywordIntelligently current kw none (coins i)
      if newC.length > current.length then
        let first := (splitOnSpace (lowerStr (trimStr kw))).headD []
        if rxLiteralWord first then
          if !hasImmediateRep first newC then
            (bulkGoE coins (i + 1) newC rest).map fun r =>
              (r.1, kw :: r.2.1, r.2.2)
          else
            (bulkGoE coins (i + 1) current rest).map fun r =>
              (r.1, r.2.1, kw :: r.2.2)
        else none
      else
        (bulkGoE coins (i + 1) current rest).map fun r =>
          (r.1, r.2.1, kw :: r.2.2)

/-- The bulk-insert endpoint body with the exception path
(routes.ts:1276-1360): `none` is the handler's `catch` answer — an HTTP
500 carrying no `insertedKeywords`/`skippedKeywords` lists. -/
def bulkInsertE (content : Str) (keywords : List Str) (coins : Nat → Bool) :
    Option (Str × List Str × List Str) :=
  (bulkGoE coins 0 content keywords).map fun r =>
    (cleanupRepetitions r.1, r.2.1, r.2.2)

/-- JavaScript `Math.round` on an exact rational (ties toward `+∞`). -/
def roundQ (q : ℚ) : ℤ := ⌊q + 1 / 2⌋

/-- `content.trim().split(/\s+/).filter(w => w.length > 0)` (routes.ts:707). -/
def wordsOf (content : Str) : List Str := wsTokens content

/-- `content.split(/[.!?]+/).filter(s => s.trim().length > 0)`
(routes.ts:708). -/
def sentencesOfA (content : Str) : List Str :=
  (splitTermRaw content).filter fun s => !(trimStr s).isEmpty

/-- The paragraph split `content.split(/\n\s*\n/)`: a separator is a newline
followed by the longest whitespace run that still ends in a newline.  The
counter skips characters already consumed by a separator. -/
def paraGo : Nat → Str → List Str
  | _, [] => [[]]
  | Nat.succ k, _ :: cs => paraGo k cs
  | 0, c :: cs =>
    if c = '\n' then
      let w := (takeWs cs).1
      match (w.enum.filter fun p => p.2 = '\n').getLast? with
      | some p => [] :: paraGo (p.1 + 1) cs
      | none => consHead c (paraGo 0 cs)
    else consHead c (paraGo 0 cs)

/-- `content.split(/\n\s*\n/).filter(p => p.trim().length > 0)`
(routes.ts:709). -/
def paragraphsOf (content : Str) : List Str :=
  (paraGo 0 content).filter fun p => !(trimStr p).isEmpty

/-- Transition words checked by the readability bonus (routes.ts:734). -/
def transitionWords9 : List Str :=
  [str "however", str "moreover", str "furthermore", str "additionally",
   str "therefore", str "consequently", str "meanwhile", str "similarly",
   str "likewise"]

/-- The readability score of the normal analysis path (routes.ts:711-742):
Flesch base, short-content floor, sentence-variety and transition bonuses,
`Math.round`, clamp to [0,100].  Exact rationals stand in for doubles; the
final value depends only on rounding/clamping structure. -/
def readabilityScoreOf (content : Str) : ℤ :=
  let words := wordsOf content
  let validSentences := (sentencesOfA content).filter fun s => (trimStr s).length > 5
  let avgW : ℚ := (words.length : ℚ) / (max validSentences.length 1 : ℕ)
  let syll : ℕ := (words.map estimateSyllables).sum
  let avgS : ℚ := (syll : ℚ) / (max words.length 1 : ℕ)
  let base : ℚ := 206835 / 1000 - 1015 / 1000 * avgW - 846 / 10 * avgS
  let r1 : ℚ := if words.length < 100 then max base 40 else base
  let lens := validSentences.map fun s => (splitWsRaw s).length
  let variety : ℕ :=
    if lens.length > 1 then (lens.foldr max 0) - (lens.foldr min (lens.headD 0))
    else 0
  let r2 : ℚ := if 5 ≤ variety && variety ≤ 15 then r1 + 5 else r1
  let tCount : ℕ :=
    (transitionWords9.filter fun w => strContains (lowerStr content) w).length
  let r3 : ℚ := if 1 ≤ tCount then r2 + min (2 * tCount) 8 else r2
  max 0 (min 100 (roundQ r3))

/-- Append a term unless a case-insensitively equal one is present
(routes.ts:768). -/
def addUnique (acc : List Str) (t : Str) : List Str :=
  if acc.any fun k => lowerStr k = lowerStr t then acc else acc ++ [t]

/-- Stop words of the inner suggestion fallback (routes.ts:787). -/
def stopWordsFallback : List Str :=
  [str "the", str "a", str "an", str "and", str "or", str "but", str "in",
   str "on", str "at", str "to", str "for", str "of", str "with", str "by",
   str "is", str "are", str "was", str "were", str "be", str "been",
   str "being", str "have", str "has", str "had", str "do", str "does",
   str "did", str "will", str "would", str "could", str "should", str "may",
   str "might", str "can", str "this", str "that", str "these", str "those"]

/-- The top-frequency content words of the inner suggestion fallback
(routes.ts:786-799). -/
def topContentWords (content : Str) : List Str :=
  let m := (wordTokens content).foldl
    (fun m w =>
      if w.length > 4 && !stopWordsFallback.contains w then bump m w else m) []
  ((sortDesc m).map Prod.fst).take 5

/-- The suggested keyword terms of the normal analysis path
(routes.ts:744-827), with the enrichment keywords as an explicit input.
Random `volume`/`difficulty` fields are cosmetic and carry no term data. -/
def suggestedTerms (content : Str) (apiTerms : List Str) : List Str :=
  let t1 := (apiTerms.take 8).filter fun t => !(trimStr t).isEmpty
  let t2 := (extractCommonPhrases content).foldl addUnique t1
  if t2.isEmpty then
    let tw := topContentWords content
    if tw.isEmpty then
      [str "content optimization", str "SEO strategy", str "digital marketing"]
    else tw
  else t2

/-- `totalKeywordOccurrences` (routes.ts:856-859). -/
def totalOccurrences (content : Str) (apiTerms : List Str) : ℕ :=
  ((suggestedTerms content apiTerms).map fun t => countBoundary t content).sum

/-- Words excluded from the repeated-word quality count (routes.ts:864). -/
def repeatFilterWords : List Str :=
  [str "the", str "and", str "that", str "have", str "for", str "not",
   str "with", str "you", str "this", str "but", str "his", str "from",
   str "they", str "will", str "can", str "should", str "could", str "would"]

/-- Number of qualifying repeated words (routes.ts:862-873). -/
def repeatedWordCount (content : Str) : ℕ :=
  let important := (wordsOf content).filter fun w =>
    w.length > 4 && !repeatFilterWords.contains (lowerStr w)
  let m := important.foldl (fun m w => bump m (lowerStr w)) []
  (m.filter fun e => e.2 ≥ 2).length

/-- `keywordDensity` (routes.ts:876): percentage rounded to one decimal. -/
def keywordDensityOf (content : Str) (apiTerms : List Str) : ℚ :=
  (roundQ ((totalOccurrences content apiTerms : ℚ) /
    (max (wordsOf content).length 1 : ℕ) * 1000) : ℚ) / 10

/-- `/#{1,6}\s/` has a match iff some `'#'` is immediately followed by
whitespace. -/
def hashHeading : Str → Bool
  | c :: d :: rest => (c = '#' && isWsChar d) || hashHeading (d :: rest)
  | _ => false

/-- `/\d+\./` has a match iff some digit is immediately followed by `'.'`. -/
def digitDot : Str → Bool
  | c :: d :: rest => (c.isDigit && d = '.') || digitDot (d :: rest)
  | _ => false

/-- `content.match(/^.+$/gm)`: the non-empty lines (maximal runs of
non-line-terminator characters, ASCII terminators). -/
def linesOf (content : Str) : List Str :=
  runsBy (fun c => !(c = '\n' || c = '\r')) content

/-- The word-count component of the SEO score (routes.ts:832-843). -/
def lengthScoreOf (content : Str) : ℤ :=
  let w := (wordsOf content).length
  if 300 ≤ w && w ≤ 2000 then 25
  else if 150 ≤ w && w < 300 then 20
  else if 50 ≤ w && w < 150 then 15
  else if w < 50 then 5
  else 15

/-- Average paragraph word count (routes.ts:846-848). -/
def avgParaOf (content : Str) : ℚ :=
  ((paragraphsOf content).map fun p => (splitWsRaw p).length).sum /
    (max (paragraphsOf content).length 1 : ℕ)

/-- The paragraph-structure component (routes.ts:849-854). -/
def paraScoreOf (content : Str) : ℤ :=
  if (paragraphsOf content).length ≥ 2 && avgParaOf content ≤ 150 &&
      30 ≤ avgParaOf content then 20
  else if (paragraphsOf content).length ≥ 1 && avgParaOf content ≤ 200 then 15
  else 8

/-- The keyword-presence bonus `Math.min(occurrences * 3, 15)`
(routes.ts:879). -/
def presenceBonusOf (content : Str) (apiTerms : List Str) : ℤ :=
  min (3 * (totalOccurrences content apiTerms : ℤ)) 15

/-- The repeated-word quality bonus `Math.min(repeated * 2, 10)`
(routes.ts:880). -/
def qualityBonusOf (content : Str) : ℤ :=
  min (2 * (repeatedWordCount content : ℤ)) 10

/-- The density band component (routes.ts:882-894). -/
def keywordScoreOf (content : Str) (apiTerms : List Str) : ℤ :=
  let density := keywordDensityOf content apiTerms
  if 3 / 2 ≤ density && density ≤ 4 then 20
  else if 1 ≤ density && density < 3 / 2 then 15
  else if 1 / 2 ≤ density && density < 1 then 10
  else if 4 < density && density ≤ 6 then 12
  else if 6 < density then 5
  else 5

/-- The readability band component (routes.ts:897-906). -/
def readScoreOf (content : Str) : ℤ :=
  let rs := readabilityScoreOf content
  if 70 ≤ rs then 20
  else if 50 ≤ rs then 18
  else if 35 ≤ rs then 15
  else if 20 ≤ rs then 12
  else 8

/-- The balance bonus (routes.ts:908-910). -/
def balanceBonusOf (content : Str) (apiTerms : List Str) : ℤ :=
  if 2 ≤ totalOccurrences content apiTerms && 50 ≤ readabilityScoreOf content
  then 5 else 0

/-- The structure component (routes.ts:913-925). -/
def structScoreOf (content : Str) : ℤ :=
  let hasHeadings :=
    hashHeading content ||
    (linesOf content).any fun l => l.length < 60 && l.length > 5
  let hasLists :=
    strContains content (str "-") || strContains content (str "*") ||
    digitDot content
  let hasPunct := (sentencesOfA content).length > 1
  (if hasHeadings then 5 else 0) + (if hasLists then 5 else 0) +
  (if hasPunct then 5 else 0)

/-- The optimization bonus `Math.min(optimizationBonus, 10)`
(routes.ts:927-936). -/
def optBonusOf (content : Str) (apiTerms : List Str) : ℤ :=
  min ((if 3 ≤ totalOccurrences content apiTerms then 5 else 0) +
    (if 3 / 2 ≤ keywordDensityOf content apiTerms &&
        keywordDensityOf content apiTerms ≤ 7 / 2 then 5 else 0) +
    (if 2 ≤ repeatedWordCount content then 3 else 0)) 10

/-- The composite SEO score of the normal analysis path (routes.ts:829-939):
the component sum, capped at 100. -/
def seoScoreOf (content : Str) (apiTerms : List Str) : ℤ :=
  min 100 (lengthScoreOf content + paraScoreOf content +
    keywordScoreOf content apiTerms + presenceBonusOf content apiTerms +
    qualityBonusOf content + readScoreOf content +
    balanceBonusOf content apiTerms + structScoreOf content +
    optBonusOf content apiTerms)

/-- Fallback readability (routes.ts:1091):
`Math.max(60, Math.min(90, words.length * 0.1 + 50))` — no rounding.
`0.1·n` is modelled exactly as `n/10`; the double value differs from it by
strictly less than one ulp, so clamping bounds and (non-)integrality at the
inputs used here are unaffected. -/
def fallbackReadability (content : Str) : ℚ :=
  max 60 (min 90 ((wordsOf content).length / 10 + 50 : ℚ))

/-- Fallback SEO score (routes.ts:1092):
`Math.min(85, words.length > 200 ? 70 : 45)`. -/
def fallbackSeo (content : Str) : ℤ :=
  min 85 (if (wordsOf content).length > 200 then 70 else 45)

/-- A canonical keyword: one or more non-empty words of ASCII word
characters, separated by single spaces (no leading/trailing/double
whitespace, no punctuation). -/
def canonicalKW (K : Str) : Prop :=
  ((splitOnSpace K).all fun w => !w.isEmpty && w.all isWordChar) = true

instance (K : Str) : Decidable (canonicalKW K) := by
  unfold canonicalKW
  infer_instance

/-- A non-empty list of non-empty all-word-character words. -/
def GoodWordList (l : List Str) : Prop :=
  l ≠ [] ∧ ∀ w ∈ l, w ≠ [] ∧ ∀ c ∈ w, isWordChar c = true

/-- Case-insensitive word-boundary occurrence of `pat`: the subject splits
as `P ++ M ++ Q` with `M` equal to `pat` up to ASCII case and non-word
characters (or nothing) on both sides. -/
def BOcc (pat s : Str) : Prop :=
  ∃ P M Q, s = P ++ M ++ Q ∧ lowerStr M = lowerStr pat ∧
    (P = [] ∨ isWordChar (P.getLastD ' ') = false) ∧
    (Q = [] ∨ isWordChar (Q.headD ' ') = false)

/-- The occurrence notion of claim C1: a case-insensitive word-boundary
match for a single-word keyword, a case-insensitive substring match for a
multi-word keyword. -/
def keywordOccurs (K C : Str) : Prop :=
  (if K.contains ' ' then strContains (lowerStr C) (lowerStr (trimStr K))
   else testBoundary K C) = true

/-- Whitespace-normalized content: trimmed, with every internal whitespace
run a single space.  Equivalently, a fixed point of
`s.replace(/\s+/g, ' ').trim()`. -/
def wsNorm (C : Str) : Prop := trimStr (collapseWs C) = C

instance (C : Str) : Decidable (wsNorm C) := by
  unfold wsNorm
  infer_instance

/-- Prepend a string to the first piece of a split result. -/
def prepS (w : Str) : List Str → List Str
  | [] => [w]
  | p :: ps => (w ++ p) :: ps

/-- The previous-character state after scanning `w` from state `prev`. -/
def prevAfter (w : Str) (prev : Option Char) : Option Char :=
  match w.getLast? with
  | some c => some c
  | none => prev

/-- Word-ness test used when a word's last character decides a sentence
boundary. -/
def lastIsTerm (w : Str) : Bool :=
  match w.getLast? with
  | some c => isTermChar c
  | none => false

/-- Sentence grouping of a word list: a group ends after a word whose last
character is sentence-terminal punctuation (the split
`/(?<=[.!?])\s+/` on the single-spaced rejoined text). -/
def groupSent : List Str → List (List Str)
  | [] => []
  | [w] => [[w]]
  | w :: v :: ws =>
    if lastIsTerm w then [w] :: groupSent (v :: ws)
    else
      match groupSent (v :: ws) with
      | [] => [[w]]
      | g :: gs => (w :: g) :: gs

/-! ## String infrastructure lemmas -/

theorem wordChar_not_ws {c : Char} (h : isWordChar c = true) : isWsChar c = false := by
  by_contra hw
  simp only [Bool.not_eq_false, isWsChar, Bool.or_eq_true, decide_eq_true_eq] at hw
  rcases hw with ((((h1 | h1) | h1) | h1) | h1) | h1 <;> subst h1 <;> revert h <;> decide

theorem splitOnSpace_ne_nil (s : Str) : splitOnSpace s ≠ [] := by
  induction s with
  | nil => simp [splitOnSpace]
  | cons c cs ih =>
    simp only [splitOnSpace]
    split
    · simp
    · cases h : splitOnSpace cs with
      | nil => simp
      | cons p ps => simp

theorem joinSp_splitOnSpace (s : Str) : joinSp (splitOnSpace s) = s := by
  induction s with
  | nil => rfl
  | cons c cs ih =>
    simp only [splitOnSpace]
    split
    · rename_i hc
      subst hc
      cases h : splitOnSpace cs with
      | nil => exact absurd h (splitOnSpace_ne_nil cs)
      | cons p ps =>
        rw [h] at ih
        simp only [joinSp]
        cases ps with
        | nil => simp [joinSp] at ih ⊢; exact ih
        | cons q qs => simp [joinSp] at ih ⊢; exact ih
    · cases h : splitOnSpace cs with
      | nil => exact absurd h (splitOnSpace_ne_nil cs)
      | cons p ps =>
        rw [h] at ih
        cases ps with
        | nil => simpa [joinSp] using ih
        | cons q qs => simpa [joinSp] using ih

theorem joinSp_cons (w : Str) (l : List Str) (h : l ≠ []) :
    joinSp (w :: l) = w ++ ' ' :: joinSp l := by
  cases l with
  | nil => exact absurd rfl h
  | cons x xs => rfl

theorem joinSp_append (l1 l2 : List Str) (h1 : l1 ≠ []) (h2 : l2 ≠ []) :
    joinSp (l1 ++ l2) = joinSp l1 ++ ' ' :: joinSp l2 := by
  induction l1 with
  | nil => exact absurd rfl h1
  | cons w ws ih =>
    cases ws with
    | nil =>
      rw [List.singleton_append, joinSp_cons w l2 h2]
      simp [joinSp]
    | cons v vs =>
      rw [List.cons_append, joinSp_cons w ((v :: vs) ++ l2) (by simp),
        ih (by simp), joinSp_cons w (v :: vs) (by simp)]
      simp

theorem joinSp_length (l : List Str) (h : l ≠ []) :
    (joinSp l).length = (l.map List.length).sum + (l.length - 1) := by
  induction l with
  | nil => exact absurd rfl h
  | cons w ws ih =>
    cases ws with
    | nil => simp [joinSp]
    | cons v vs =>
      have := ih (by simp)
      simp only [joinSp, List.length_append, List.length_cons, this]
      simp only [List.map_cons, List.sum_cons, List.length_cons]
      omega

theorem runsBy_nil (p : Char → Bool) : runsBy p [] = [] := rfl

theorem runsBy_cons_neg (p : Char → Bool) (c : Char) (cs : Str) (h : p c = false) :
    runsBy p (c :: cs) = runsBy p cs := by
  cases cs <;> simp [runsBy, h]

theorem runsBy_singleton_pos (p : Char → Bool) (c : Char) (h : p c = true) :
    runsBy p [c] = [[c]] := by
  simp [runsBy, h]

theorem runsBy_cons_pos_neg (p : Char → Bool) (c d : Char) (ds : Str)
    (hc : p c = true) (hd : p d = false) :
    runsBy p (c :: d :: ds) = [c] :: runsBy p (d :: ds) := by
  conv_lhs => rw [runsBy]
  simp [hc, hd]

theorem runsBy_cons_pos_pos (p : Char → Bool) (c d : Char) (ds : Str)
    (hc : p c = true) (hd : p d = true) :
    runsBy p (c :: d :: ds) =
      match runsBy p (d :: ds) with
      | [] => [[c]]
      | t :: ts => (c :: t) :: ts := by
  conv_lhs => rw [runsBy]
  simp [hc, hd]

theorem runsBy_head (p : Char → Bool) (c : Char) (u : Str) (h : p c = true) :
    ∃ t ts, runsBy p (c :: u) = (c :: t) :: ts := by
  induction u generalizing c with
  | nil => exact ⟨[], [], runsBy_singleton_pos p c h⟩
  | cons d ds ih =>
    by_cases hd : p d = true
    · obtain ⟨t, ts, ht⟩ := ih d hd
      exact ⟨d :: t, ts, by rw [runsBy_cons_pos_pos p c d ds h hd, ht]⟩
    · exact ⟨[], runsBy p (d :: ds),
        runsBy_cons_pos_neg p c d ds h (by simpa using hd)⟩

theorem runsBy_mem (p : Char → Bool) (s : Str) :
    ∀ t ∈ runsBy p s, t ≠ [] ∧ ∀ c ∈ t, p c = true := by
  induction s with
  | nil => simp [runsBy_nil]
  | cons c cs ih =>
    by_cases hc : p c = true
    · cases cs with
      | nil =>
        rw [runsBy_singleton_pos p c hc]
        intro t ht
        simp only [List.mem_singleton] at ht
        subst ht
        exact ⟨by simp, by simp [hc]⟩
      | cons d ds =>
        by_cases hd : p d = true
        · rw [runsBy_cons_pos_pos p c d ds hc hd]
          obtain ⟨t0, ts0, ht⟩ := runsBy_head p d ds hd
          rw [ht]
          intro u hu
          have hmem := ih
          rw [ht] at hmem
          simp only [List.mem_cons] at hu
          rcases hu with hu | hu
          · subst hu
            have h1 := hmem (d :: t0) (by simp)
            refine ⟨by simp, ?_⟩
            intro x hx
            simp only [List.mem_cons] at hx
            rcases hx with hx | hx
            · subst hx; exact hc
            · exact h1.2 x (by simp [hx])
          · exact hmem u (by simp [hu])
        · rw [runsBy_cons_pos_neg p c d ds hc (by simpa using hd)]
          intro u hu
          simp only [List.mem_cons] at hu
          rcases hu with hu | hu
          · subst hu; exact ⟨by simp, by simp [hc]⟩
          · exact ih u hu
    · rw [runsBy_cons_neg p c cs (by simpa using hc)]
      exact ih

theorem runsBy_all_pos (p : Char → Bool) (w : Str) (hw : w ≠ [])
    (hall : ∀ c ∈ w, p c = true) : runsBy p w = [w] := by
  induction w with
  | nil => exact absurd rfl hw
  | cons c cs ih =>
    have hc : p c = true := hall c (by simp)
    cases cs with
    | nil => exact runsBy_singleton_pos p c hc
    | cons d ds =>
      have hd : p d = true := hall d (by simp)
      have := ih (by simp) (fun x hx => hall x (by simp [hx]))
      rw [runsBy_cons_pos_pos p c d ds hc hd, this]

theorem runsBy_skip_all (p : Char → Bool) (run rest : Str)
    (hrun : ∀ c ∈ run, p c = false) :
    runsBy p (run ++ rest) = runsBy p rest := by
  induction run with
  | nil => rfl
  | cons c cs ih =>
    rw [List.cons_append, runsBy_cons_neg p c _ (hrun c (by simp))]
    exact ih fun x hx => hrun x (by simp [hx])

theorem runsBy_word_append (p : Char → Bool) (w rest : Str) (hw : w ≠ [])
    (hall : ∀ c ∈ w, p c = true)
    (hrest : rest = [] ∨ ∃ d ds, rest = d :: ds ∧ p d = false) :
    runsBy p (w ++ rest) = w :: runsBy p rest := by
  induction w with
  | nil => exact absurd rfl hw
  | cons c cs ih =>
    have hc : p c = true := hall c (by simp)
    cases cs with
    | nil =>
      rcases hrest with h | ⟨d, ds, hd, hpd⟩
      · subst h; simpa using runsBy_singleton_pos p c hc
      · subst hd
        rw [List.singleton_append, runsBy_cons_pos_neg p c d ds hc hpd]
    | cons c2 cs2 =>
      have hc2 : p c2 = true := hall c2 (by simp)
      have hrec := ih (by simp) (fun x hx => hall x (by simp [hx]))
      simp only [List.cons_append] at hrec ⊢
      rw [runsBy_cons_pos_pos p c c2 (cs2 ++ rest) hc hc2, hrec]

theorem collapseWs_cons_neg (c : Char) (cs : Str) (h : isWsChar c = false) :
    collapseWs (c :: cs) = c :: collapseWs cs := by
  cases cs <;> simp [collapseWs, h]

theorem collapseWs_singleton_ws (c : Char) (h : isWsChar c = true) :
    collapseWs [c] = [' '] := by
  simp [collapseWs, h]

theorem collapseWs_cons_ws_ws (c d : Char) (ds : Str) (hc : isWsChar c = true)
    (hd : isWsChar d = true) :
    collapseWs (c :: d :: ds) = collapseWs (d :: ds) := by
  conv_lhs => rw [collapseWs]
  simp [hc, hd]

theorem collapseWs_cons_ws_neg (c d : Char) (ds : Str) (hc : isWsChar c = true)
    (hd : isWsChar d = false) :
    collapseWs (c :: d :: ds) = ' ' :: collapseWs (d :: ds) := by
  conv_lhs => rw [collapseWs]
  simp [hc, hd]

theorem collapseWs_word (w rest : Str) (hall : ∀ c ∈ w, isWsChar c = false) :
    collapseWs (w ++ rest) = w ++ collapseWs rest := by
  induction w with
  | nil => rfl
  | cons c cs ih =>
    rw [List.cons_append, collapseWs_cons_neg c _ (hall c (by simp))]
    rw [ih fun x hx => hall x (by simp [hx])]
    rfl

theorem collapseWs_all_ws (run : Str) (hne : run ≠ [])
    (hall : ∀ c ∈ run, isWsChar c = true) : collapseWs run = [' '] := by
  induction run with
  | nil => exact absurd rfl hne
  | cons c cs ih =>
    have hc := hall c (by simp)
    cases cs with
    | nil => exact collapseWs_singleton_ws c hc
    | cons d ds =>
      have hd := hall d (by simp)
      rw [collapseWs_cons_ws_ws c d ds hc hd]
      exact ih (by simp) fun x hx => hall x (by simp [hx])

theorem collapseWs_ws_run (run : Str) (d : Char) (ds : Str) (hne : run ≠ [])
    (hall : ∀ c ∈ run, isWsChar c = true) (hd : isWsChar d = false) :
    collapseWs (run ++ d :: ds) = ' ' :: collapseWs (d :: ds) := by
  induction run with
  | nil => exact absurd rfl hne
  | cons c cs ih =>
    have hc := hall c (by simp)
    cases cs with
    | nil =>
      rw [List.singleton_append, collapseWs_cons_ws_neg c d ds hc hd]
    | cons c2 cs2 =>
      have hc2 := hall c2 (by simp)
      have := ih (by simp) (fun x hx => hall x (by simp [hx]))
      simp only [List.cons_append] at this ⊢
      rw [collapseWs_cons_ws_ws c c2 (cs2 ++ d :: ds) hc hc2, this]

theorem dropWhile_all_append {p : Char → Bool} (u y : Str)
    (h : ∀ c ∈ u, p c = true) :
    List.dropWhile p (u ++ y) = List.dropWhile p y := by
  induction u with
  | nil => rfl
  | cons c cs ih =>
    rw [List.cons_append, List.dropWhile_cons_of_pos (h c (by simp))]
    exact ih fun x hx => h x (by simp [hx])

theorem dropWhile_append_of_ne {p : Char → Bool} (l1 l2 : Str)
    (h : List.dropWhile p l1 ≠ []) :
    List.dropWhile p (l1 ++ l2) = List.dropWhile p l1 ++ l2 := by
  induction l1 with
  | nil => simp at h
  | cons c cs ih =>
    by_cases hc : p c = true
    · rw [List.cons_append, List.dropWhile_cons_of_pos hc,
        List.dropWhile_cons_of_pos hc]
      rw [List.dropWhile_cons_of_pos hc] at h
      exact ih h
    · rw [List.cons_append, List.dropWhile_cons_of_neg (by simpa using hc),
        List.dropWhile_cons_of_neg (by simpa using hc)]
      simp

theorem dropWhile_of_all_neg {p : Char → Bool} (s : Str)
    (h : ∀ c ∈ s, p c = false) : List.dropWhile p s = s := by
  cases s with
  | nil => rfl
  | cons c cs =>
    rw [List.dropWhile_cons_of_neg (by simp [h c (by simp)])]

theorem trimStr_cons_ws (c : Char) (z : Str) (h : isWsChar c = true) :
    trimStr (c :: z) = trimStr z := by
  simp only [trimStr, List.dropWhile_cons_of_pos h]

theorem trimStr_all_nonws (s : Str) (h : ∀ c ∈ s, isWsChar c = false) :
    trimStr s = s := by
  simp only [trimStr]
  rw [dropWhile_of_all_neg s h, dropWhile_of_all_neg s.reverse
    (fun c hc => h c (List.mem_reverse.mp hc)), List.reverse_reverse]

theorem trimStr_append_ws (x run : Str) (h : ∀ c ∈ run, isWsChar c = true) :
    trimStr (x ++ run) = trimStr x := by
  simp only [trimStr]
  by_cases hx : List.dropWhile isWsChar x = []
  · have hxall : ∀ c ∈ x, isWsChar c = true := by
      intro c hc
      exact List.dropWhile_eq_nil_iff.mp hx c hc
    have hall2 : List.dropWhile isWsChar (x ++ run) = [] := by
      apply List.dropWhile_eq_nil_iff.mpr
      intro a ha
      rcases List.mem_append.mp ha with ha | ha
      · exact hxall a ha
      · exact h a ha
    rw [hall2, hx]
  · rw [dropWhile_append_of_ne x run hx, List.reverse_append]
    rw [dropWhile_all_append run.reverse _
      (fun c hc => h c (List.mem_reverse.mp hc))]

theorem trimStr_word_sp (w z : Str) (hw : w ≠ [])
    (hwall : ∀ c ∈ w, isWsChar c = false) (hz : z ≠ [])
    (hzh : isWsChar (z.headD ' ') = false) :
    trimStr (w ++ ' ' :: z) = w ++ ' ' :: trimStr z := by
  obtain ⟨d, z', rfl⟩ : ∃ d z', z = d :: z' := by
    cases z with
    | nil => exact absurd rfl hz
    | cons d z' => exact ⟨d, z', rfl⟩
  simp only [List.headD_cons] at hzh
  have hdz : List.dropWhile isWsChar ((d :: z').reverse) ≠ [] := by
    intro hcon
    have := List.dropWhile_eq_nil_iff.mp hcon
    have hd := this d (by simp)
    simp [hzh] at hd
  simp only [trimStr]
  obtain ⟨c, w', rfl⟩ : ∃ c w', w = c :: w' := by
    cases w with
    | nil => exact absurd rfl hw
    | cons c w' => exact ⟨c, w', rfl⟩
  rw [List.cons_append, List.dropWhile_cons_of_neg
    (by simp [hwall c (by simp)])]
  rw [List.dropWhile_cons_of_neg (by simp [hzh])]
  rw [show (c :: (w' ++ ' ' :: d :: z')).reverse =
    (d :: z').reverse ++ (' ' :: (c :: w').reverse) by simp]
  rw [dropWhile_append_of_ne _ _ hdz, List.reverse_append]
  simp

theorem dropWhile_head_false {p : Char → Bool} (l : Str) (d : Char) (ds : Str)
    (h : List.dropWhile p l = d :: ds) : p d = false := by
  induction l with
  | nil => simp at h
  | cons c cs ih =>
    by_cases hc : p c = true
    · rw [List.dropWhile_cons_of_pos hc] at h
      exact ih h
    · rw [List.dropWhile_cons_of_neg (by simpa using hc)] at h
      cases h
      simpa using hc

theorem runsBy_eq_nil (p : Char → Bool) (s : Str) (h : runsBy p s = []) :
    ∀ c ∈ s, p c = false := by
  induction s with
  | nil => simp
  | cons c cs ih =>
    by_cases hc : p c = true
    · obtain ⟨t, ts, ht⟩ := runsBy_head p c cs hc
      rw [ht] at h
      simp at h
    · rw [runsBy_cons_neg p c cs (by simpa using hc)] at h
      intro x hx
      simp only [List.mem_cons] at hx
      rcases hx with hx | hx
      · subst hx; simpa using hc
      · exact ih h x hx

theorem wsTokens_def (s : Str) :
    wsTokens s = runsBy (fun c => !isWsChar c) s := rfl

theorem trimCollapse (s : Str) : trimStr (collapseWs s) = joinSp (wsTokens s) := by
  have H : ∀ n (s : Str), s.length ≤ n →
      trimStr (collapseWs s) = joinSp (wsTokens s) := by
    intro n
    induction n with
    | zero =>
      intro s hs
      have : s = [] := by
        cases s with
        | nil => rfl
        | cons c cs => simp at hs
      subst this
      rfl
    | succ n ih =>
      intro s hs
      cases s with
      | nil => rfl
      | cons c cs =>
        by_cases hc : isWsChar c = true
        · -- leading whitespace run
          set run := List.takeWhile isWsChar (c :: cs) with hrun
          set rest := List.dropWhile isWsChar (c :: cs) with hrest
          have hsplit : run ++ rest = c :: cs := by
            rw [hrun, hrest]
            exact List.takeWhile_append_dropWhile _ _
          have hrunne : run ≠ [] := by
            rw [hrun, List.takeWhile_cons_of_pos hc]
            simp
          have hrunall : ∀ x ∈ run, isWsChar x = true := by
            intro x hx
            exact List.mem_takeWhile_imp hx
          have hrestlen : rest.length ≤ n := by
            have h1 : run.length + rest.length = (c :: cs).length := by
              rw [← List.length_append, hsplit]
            have h2 : 0 < run.length := List.length_pos.mpr hrunne
            simp only [List.length_cons] at h1 hs
            omega
          have htok : wsTokens (c :: cs) = wsTokens rest := by
            rw [← hsplit, wsTokens_def, wsTokens_def, runsBy_skip_all _ run rest
              (by intro x hx; simp [hrunall x hx])]
          rw [htok, ← hsplit]
          cases hrestc : rest with
          | nil =>
            rw [List.append_nil, collapseWs_all_ws run hrunne hrunall]
            rfl
          | cons d ds =>
            have hd : isWsChar d = false :=
              dropWhile_head_false (c :: cs) d ds (by rw [← hrest, hrestc])
            rw [collapseWs_ws_run run d ds hrunne hrunall hd]
            rw [collapseWs_cons_neg d ds hd, trimStr_cons_ws ' ' _ (by decide)]
            rw [← collapseWs_cons_neg d ds hd, ← hrestc]
            exact ih rest hrestlen
        · -- leading word
          have hc' : isWsChar c = false := by simpa using hc
          set w := List.takeWhile (fun x => !isWsChar x) (c :: cs) with hw
          set rest := List.dropWhile (fun x => !isWsChar x) (c :: cs) with hrest
          have hsplit : w ++ rest = c :: cs := by
            rw [hw, hrest]
            exact List.takeWhile_append_dropWhile _ _
          have hwne : w ≠ [] := by
            rw [hw, List.takeWhile_cons_of_pos (by simp [hc'])]
            simp
          have hwall : ∀ x ∈ w, isWsChar x = false := by
            intro x hx
            have := List.mem_takeWhile_imp hx
            simpa using this
          have hrestlen : rest.length ≤ n := by
            have h1 : w.length + rest.length = (c :: cs).length := by
              rw [← List.length_append, hsplit]
            have h2 : 0 < w.length := List.length_pos.mpr hwne
            simp only [List.length_cons] at h1 hs
            omega
          have hresthead : rest = [] ∨ ∃ d ds, rest = d :: ds ∧ isWsChar d = true := by
            cases hrc : rest with
            | nil => exact Or.inl rfl
            | cons d ds =>
              refine Or.inr ⟨d, ds, rfl, ?_⟩
              have := dropWhile_head_false (c :: cs) d ds (by rw [← hrest, hrc])
              simpa using this
          have htok : wsTokens (c :: cs) = w :: wsTokens rest := by
            rw [← hsplit, wsTokens_def, wsTokens_def, runsBy_word_append _ w rest hwne
              (by intro x hx; simp [hwall x hx]) ?_]
            rcases hresthead with h | ⟨d, ds, hd, hpd⟩
            · exact Or.inl h
            · exact Or.inr ⟨d, ds, hd, by simp [hpd]⟩
          rw [htok, ← hsplit, collapseWs_word w rest hwall]
          rcases hresthead with hre | ⟨r, rs, hrc, hpr⟩
          · rw [hre, show collapseWs [] = [] from rfl, List.append_nil,
              trimStr_all_nonws w hwall]
            rfl
          · cases htr : wsTokens rest with
            | nil =>
              have hallws : ∀ x ∈ rest, isWsChar x = true := by
                intro x hx
                have := runsBy_eq_nil _ rest htr x hx
                simpa using this
              rw [collapseWs_all_ws rest (by rw [hrc]; simp) hallws]
              rw [trimStr_append_ws w [' ']
                (by intro x hx; simp only [List.mem_singleton] at hx; subst hx; decide)]
              rw [trimStr_all_nonws w hwall]
              rfl
            | cons t ts =>
              set run2 := List.takeWhile isWsChar rest with hrun2
              set rest' := List.dropWhile isWsChar rest with hrest'
              have hsplit2 : run2 ++ rest' = rest := by
                rw [hrun2, hrest']
                exact List.takeWhile_append_dropWhile _ _
              have hrun2ne : run2 ≠ [] := by
                rw [hrun2, hrc, List.takeWhile_cons_of_pos hpr]
                simp
              have hrun2all : ∀ x ∈ run2, isWsChar x = true := by
                intro x hx
                exact List.mem_takeWhile_imp hx
              have hrest'ne : rest' ≠ [] := by
                intro hcon
                have hre : rest = run2 ++ ([] : Str) := by
                  rw [hcon] at hsplit2
                  exact hsplit2.symm
                have hx : wsTokens rest = [] := by
                  rw [hre, wsTokens_def, runsBy_skip_all _ run2 []
                    (by intro x hx; simp [hrun2all x hx])]
                  rfl
                rw [htr] at hx
                simp at hx
              obtain ⟨d2, ds2, hrest'c⟩ := List.exists_cons_of_ne_nil hrest'ne
              have hd2 : isWsChar d2 = false :=
                dropWhile_head_false rest d2 ds2 (by rw [← hrest', hrest'c])
              have hrest'len : rest'.length ≤ n := by
                have : rest'.length ≤ rest.length := by
                  rw [hrest']
                  exact (List.dropWhile_sublist _).length_le
                omega
              have htok' : wsTokens rest' = wsTokens rest := by
                have hskip : wsTokens (run2 ++ rest') = wsTokens rest' := by
                  rw [wsTokens_def, wsTokens_def, runsBy_skip_all _ run2 rest'
                    (by intro x hx; simp [hrun2all x hx])]
                rw [← hsplit2, hskip]
              have hcoll : collapseWs rest = ' ' :: collapseWs rest' := by
                conv_lhs => rw [← hsplit2, hrest'c]
                rw [collapseWs_ws_run run2 d2 ds2 hrun2ne hrun2all hd2, ← hrest'c]
              rw [hcoll]
              have hcoll' : collapseWs rest' = d2 :: collapseWs ds2 := by
                rw [hrest'c, collapseWs_cons_neg d2 ds2 hd2]
              rw [trimStr_word_sp w (collapseWs rest') hwne hwall
                (by rw [hcoll']; simp) (by rw [hcoll']; simpa using hd2)]
              rw [ih rest' hrest'len, htok', htr, joinSp_cons w (t :: ts) (by simp)]
  exact H s.length s le_rfl

theorem toNat_ofNat_ascii (n : Nat) (h1 : 65 ≤ n) (h2 : n ≤ 122) :
    (Char.ofNat n).toNat = n := by
  have hv : n.isValidChar := Or.inl (by omega)
  simp only [Char.ofNat, hv, dite_true, Char.ofNatAux, Char.toNat]
  simp [UInt32.toNat, BitVec.toNat_ofNatLt]

theorem char_le_iff_toNat {a b : Char} : a ≤ b ↔ a.toNat ≤ b.toNat := by
  simp only [Char.le_def, UInt32.le_def, BitVec.le_def]
  exact Iff.rfl

theorem toLowerChar_toUpperChar (c : Char) :
    toLowerChar (toUpperChar c) = toLowerChar c := by
  by_cases h : ('a' ≤ c && c ≤ 'z') = true
  · have h1 : 97 ≤ c.toNat := by
      have := (Bool.and_eq_true _ _).mp h |>.1
      simpa [char_le_iff_toNat] using (decide_eq_true_eq.mp this)
    have h2 : c.toNat ≤ 122 := by
      have := (Bool.and_eq_true _ _).mp h |>.2
      simpa [char_le_iff_toNat] using (decide_eq_true_eq.mp this)
    have hu : (Char.ofNat (c.toNat - 32)).toNat = c.toNat - 32 :=
      toNat_ofNat_ascii _ (by omega) (by omega)
    have hcondU : ('A' ≤ Char.ofNat (c.toNat - 32) &&
        Char.ofNat (c.toNat - 32) ≤ 'Z') = true := by
      apply Bool.and_eq_true_iff.mpr
      constructor
      · exact decide_eq_true (char_le_iff_toNat.mpr (by rw [hu]; change 65 ≤ _; omega))
      · exact decide_eq_true (char_le_iff_toNat.mpr (by rw [hu]; change _ ≤ 90; omega))
    have hcondC : ('A' ≤ c && c ≤ 'Z') = false := by
      apply Bool.and_eq_false_iff.mpr
      right
      apply decide_eq_false
      intro hle
      have := char_le_iff_toNat.mp hle
      change c.toNat ≤ 90 at this
      omega
    simp only [toUpperChar, h, if_true, toLowerChar, hcondU, hcondC, if_true,
      Bool.false_eq_true, if_false]
    rw [hu, show c.toNat - 32 + 32 = c.toNat by omega, Char.ofNat_toNat]
  · simp only [toUpperChar, h, Bool.false_eq_true, if_false]

theorem isWordChar_toUpperChar (c : Char) :
    isWordChar (toUpperChar c) = isWordChar c := by
  by_cases h : ('a' ≤ c && c ≤ 'z') = true
  · have h1 : 97 ≤ c.toNat := by
      have := (Bool.and_eq_true _ _).mp h |>.1
      simpa [char_le_iff_toNat] using (decide_eq_true_eq.mp this)
    have h2 : c.toNat ≤ 122 := by
      have := (Bool.and_eq_true _ _).mp h |>.2
      simpa [char_le_iff_toNat] using (decide_eq_true_eq.mp this)
    have hu : (Char.ofNat (c.toNat - 32)).toNat = c.toNat - 32 :=
      toNat_ofNat_ascii _ (by omega) (by omega)
    have hcu : isWordChar (Char.ofNat (c.toNat - 32)) = true := by
      unfold isWordChar
      apply Bool.or_eq_true_iff.mpr
      left
      apply Bool.or_eq_true_iff.mpr
      left
      apply Bool.or_eq_true_iff.mpr
      right
      apply Bool.and_eq_true_iff.mpr
      refine ⟨decide_eq_true ?_, decide_eq_true ?_⟩
      · exact char_le_iff_toNat.mpr (by rw [hu]; change 65 ≤ _; omega)
      · exact char_le_iff_toNat.mpr (by rw [hu]; change _ ≤ 90; omega)
    have hcc : isWordChar c = true := by
      unfold isWordChar
      apply Bool.or_eq_true_iff.mpr
      left
      apply Bool.or_eq_true_iff.mpr
      left
      apply Bool.or_eq_true_iff.mpr
      left
      exact h
    simp only [toUpperChar, h, if_true, hcu, hcc]
  · simp only [toUpperChar, h, Bool.false_eq_true, if_false]

theorem lowerStr_capWord (w : Str) : lowerStr (capWord w) = lowerStr w := by
  cases w with
  | nil => rfl
  | cons c cs => simp [capWord, lowerStr, toLowerChar_toUpperChar]

theorem lowerStr_append (a b : Str) : lowerStr (a ++ b) = lowerStr a ++ lowerStr b := by
  simp [lowerStr]

theorem lowerStr_joinSp (l : List Str) :
    lowerStr (joinSp l) = joinSp (l.map lowerStr) := by
  induction l with
  | nil => rfl
  | cons w ws ih =>
    cases ws with
    | nil => rfl
    | cons v vs =>
      rw [joinSp_cons w (v :: vs) (by simp), lowerStr_append]
      have hsp : lowerStr (' ' :: joinSp (v :: vs)) =
          ' ' :: lowerStr (joinSp (v :: vs)) := by
        simp [lowerStr, show toLowerChar ' ' = ' ' from by decide]
      rw [hsp, ih]
      rw [show List.map lowerStr (w :: v :: vs) =
        lowerStr w :: List.map lowerStr (v :: vs) from rfl]
      rw [joinSp_cons (lowerStr w) (List.map lowerStr (v :: vs)) (by simp)]

theorem strContains_iff (hay pat : Str) :
    strContains hay pat = true ↔ pat <:+: hay := by
  induction hay with
  | nil =>
    simp only [strContains, List.isEmpty_iff]
    constructor
    · intro h; subst h; exact List.infix_rfl
    · intro h
      exact List.eq_nil_of_infix_nil h
  | cons c cs ih =>
    simp only [strContains, Bool.or_eq_true]
    rw [List.infix_cons_iff, ih]
    constructor
    · rintro (h | h)
      · exact Or.inl (List.isPrefixOf_iff_prefix.mp h)
      · exact Or.inr h
    · rintro (h | h)
      · exact Or.inl (List.isPrefixOf_iff_prefix.mpr h)
      · exact Or.inr h

theorem runsBy_sep_append (p : Char → Bool) (sep : Char) (hsep : p sep = false) :
    ∀ (X Y : Str), runsBy p (X ++ sep :: Y) = runsBy p X ++ runsBy p Y := by
  intro X Y
  induction X with
  | nil =>
    rw [List.nil_append, runsBy_cons_neg p sep Y hsep, runsBy_nil, List.nil_append]
  | cons c X' ih =>
    by_cases hc : p c = true
    · cases X' with
      | nil =>
        rw [List.singleton_append, runsBy_cons_pos_neg p c sep Y hc hsep,
          runsBy_cons_neg p sep Y hsep, runsBy_singleton_pos p c hc,
          List.singleton_append]
      | cons d X'' =>
        by_cases hd : p d = true
        · obtain ⟨t0, ts0, ht⟩ := runsBy_head p d X'' hd
          simp only [List.cons_append] at ih ⊢
          rw [runsBy_cons_pos_pos p c d (X'' ++ sep :: Y) hc hd, ih,
            runsBy_cons_pos_pos p c d X'' hc hd, ht]
          simp
        · simp only [List.cons_append] at ih ⊢
          rw [runsBy_cons_pos_neg p c d (X'' ++ sep :: Y) hc (by simpa using hd),
            ih, runsBy_cons_pos_neg p c d X'' hc (by simpa using hd)]
          simp
    · simp only [List.cons_append] at ih ⊢
      rw [runsBy_cons_neg p c _ (by simpa using hc), ih,
        runsBy_cons_neg p c _ (by simpa using hc)]

theorem wsTokens_joinSp (l : List Str)
    (h : ∀ w ∈ l, w ≠ [] ∧ ∀ c ∈ w, isWsChar c = false) :
    wsTokens (joinSp l) = l := by
  induction l with
  | nil => rfl
  | cons w ws ih =>
    cases ws with
    | nil =>
      show wsTokens (joinSp [w]) = [w]
      have hw := h w (by simp)
      exact runsBy_all_pos _ w hw.1 (by intro c hc; simp [hw.2 c hc])
    | cons v vs =>
      rw [joinSp_cons w (v :: vs) (by simp), wsTokens_def,
        runsBy_sep_append _ ' ' (by decide) w (joinSp (v :: vs))]
      have hw := h w (by simp)
      rw [runsBy_all_pos _ w hw.1 (by intro c hc; simp [hw.2 c hc])]
      rw [← wsTokens_def, ih (fun x hx => h x (by simp [hx]))]
      rfl

/-! ## Word-boundary occurrence machinery -/

theorem lowerStr_length (s : Str) : (lowerStr s).length = s.length := by
  simp [lowerStr]

theorem litMatchCI_of_lower (pat : Str) :
    ∀ (M rest : Str), lowerStr M = lowerStr pat →
      litMatchCI pat (M ++ rest) = true := by
  induction pat with
  | nil => intro M rest h; rfl
  | cons p ps ih =>
    intro M rest h
    cases M with
    | nil => simp [lowerStr] at h
    | cons m ms =>
      simp only [lowerStr, List.map_cons, List.cons.injEq] at h
      simp only [List.cons_append, litMatchCI, Bool.and_eq_true,
        decide_eq_true_eq]
      exact ⟨h.1.symm, ih ms rest (by simpa [lowerStr] using h.2)⟩

theorem getLastD_switch (l : Str) (a b : Char) (h : l ≠ []) :
    l.getLastD a = l.getLastD b := by
  cases l with
  | nil => exact absurd rfl h
  | cons c cs => simp [List.getLastD]

theorem getLastD_cons_ne (c : Char) (l : Str) (a : Char) (h : l ≠ []) :
    (c :: l).getLastD a = l.getLastD a := by
  cases l with
  | nil => exact absurd rfl h
  | cons d ds => simp [List.getLastD]

theorem bMatchAt_of_parts (pat M Q : Str) (prev : Option Char)
    (hne : pat ≠ []) (hhead : isWordChar (pat.headD ' ') = true)
    (hlast : isWordChar (pat.getLastD ' ') = true)
    (hM : lowerStr M = lowerStr pat) (hprev : optIsWord prev = false)
    (hQ : Q = [] ∨ isWordChar (Q.headD ' ') = false) :
    bMatchAt pat prev (M ++ Q) = true := by
  cases pat with
  | nil => exact absurd rfl hne
  | cons p ps =>
    have hlen : M.length = (p :: ps).length := by
      have := congrArg List.length hM
      simpa [lowerStr_length] using this
    have hdrop : (M ++ Q).drop (p :: ps).length = Q := by
      rw [← hlen]
      exact List.drop_left M Q
    have hq : optIsWord ((M ++ Q).drop (p :: ps).length).head? = false := by
      rw [hdrop]
      rcases hQ with h | h
      · subst h; rfl
      · cases Q with
        | nil => rfl
        | cons q qs => simpa [optIsWord] using h
    simp only [bMatchAt, hq, litMatchCI_of_lower (p :: ps) M Q hM,
      Bool.true_and]
    simp only [List.headD] at hhead
    rw [List.getLastD_eq_getLast?] at hlast
    simp [hhead, hprev, hlast]

theorem countBGo_zero_cons (pat : Str) (prev : Option Char) (c : Char)
    (cs : Str) :
    countBGo pat 0 prev (c :: cs) =
      if bMatchAt pat prev (c :: cs) then
        Nat.succ (countBGo pat (pat.length - 1) (some c) cs)
      else countBGo pat 0 (some c) cs := rfl

theorem countBGo_complete (pat : Str) (hne : pat ≠ [])
    (hhead : isWordChar (pat.headD ' ') = true)
    (hlast : isWordChar (pat.getLastD ' ') = true) :
    ∀ (P M Q : Str) (prev : Option Char),
      lowerStr M = lowerStr pat →
      (P = [] → optIsWord prev = false) →
      (P ≠ [] → isWordChar (P.getLastD ' ') = false) →
      (Q = [] ∨ isWordChar (Q.headD ' ') = false) →
      countBGo pat 0 prev (P ++ M ++ Q) ≠ 0 := by
  intro P
  induction P with
  | nil =>
    intro M Q prev hM hP0 hP1 hQ
    have hMne : M ≠ [] := by
      intro h
      subst h
      cases pat with
      | nil => exact hne rfl
      | cons p ps => simp [lowerStr] at hM
    obtain ⟨m, ms, hm⟩ := List.exists_cons_of_ne_nil hMne
    subst hm
    simp only [List.nil_append, List.cons_append]
    rw [countBGo_zero_cons, if_pos]
    · exact Nat.succ_ne_zero _
    · have := bMatchAt_of_parts pat (m :: ms) Q prev hne hhead hlast hM
        (hP0 rfl) hQ
      simpa [List.cons_append] using this
  | cons c P' ih =>
    intro M Q prev hM hP0 hP1 hQ
    simp only [List.cons_append]
    rw [countBGo_zero_cons]
    by_cases hb : bMatchAt pat prev (c :: (P' ++ M ++ Q)) = true
    · rw [if_pos hb]
      exact Nat.succ_ne_zero _
    · rw [if_neg hb]
      apply ih M Q (some c) hM
      · intro hP'
        subst hP'
        have := hP1 (by simp)
        simpa [optIsWord, List.getLastD] using this
      · intro hP'ne
        have := hP1 (by simp)
        rwa [getLastD_cons_ne c P' ' ' hP'ne] at this
      · exact hQ

theorem testBoundary_of_occ (pat s : Str) (hne : pat ≠ [])
    (hhead : isWordChar (pat.headD ' ') = true)
    (hlast : isWordChar (pat.getLastD ' ') = true)
    (hocc : BOcc pat s) : testBoundary pat s = true := by
  obtain ⟨P, M, Q, hs, hM, hP, hQ⟩ := hocc
  subst hs
  have hc : countBGo pat 0 none (P ++ M ++ Q) ≠ 0 := by
    apply countBGo_complete pat hne hhead hlast P M Q none hM
    · intro _; rfl
    · intro hPne
      rcases hP with h | h
      · exact absurd h hPne
      · exact h
    · exact hQ
  simp only [testBoundary, countBoundary, List.append_assoc] at *
  simpa [bne_iff_ne] using hc

/-! ## Canonical keywords -/

theorem canonical_words (K : Str) (hK : canonicalKW K) :
    ∀ w ∈ splitOnSpace K, w ≠ [] ∧ ∀ c ∈ w, isWordChar c = true := by
  intro w hw
  unfold canonicalKW at hK
  rw [List.all_eq_true] at hK
  have := hK w hw
  rw [Bool.and_eq_true, Bool.not_eq_true', List.all_eq_true] at this
  refine ⟨?_, this.2⟩
  intro hcon
  subst hcon
  simpa using this.1

theorem canonical_good (K : Str) (hK : canonicalKW K) :
    GoodWordList (splitOnSpace K) :=
  ⟨splitOnSpace_ne_nil K, canonical_words K hK⟩

theorem joinSp_head_word (w : Str) (ws : List Str) (hw : w ≠ []) :
    ∃ t, joinSp (w :: ws) = w ++ t := by
  cases ws with
  | nil => exact ⟨[], by simp [joinSp]⟩
  | cons v vs => exact ⟨' ' :: joinSp (v :: vs), joinSp_cons w (v :: vs) (by simp)⟩

theorem joinSp_last_word (l : List Str) (w : Str) :
    ∃ t, joinSp (l ++ [w]) = t ++ w := by
  cases l with
  | nil => exact ⟨[], by simp [joinSp]⟩
  | cons v vs =>
    refine ⟨joinSp (v :: vs) ++ [' '], ?_⟩
    rw [joinSp_append (v :: vs) [w] (by simp) (by simp)]
    simp [joinSp]

theorem trimStr_no_edge (s : Str)
    (hh : ∀ c, s.head? = some c → isWsChar c = false)
    (hl : ∀ c, s.getLast? = some c → isWsChar c = false) : trimStr s = s := by
  cases s with
  | nil => rfl
  | cons c cs =>
    unfold trimStr
    rw [List.dropWhile_cons_of_neg (by simp [hh c rfl])]
    have hrne : (c :: cs).reverse ≠ [] := by simp
    obtain ⟨d, ds, hd⟩ := List.exists_cons_of_ne_nil hrne
    have hdlast : (c :: cs).getLast? = some d := by
      rw [← List.head?_reverse, hd]
      rfl
    rw [hd, List.dropWhile_cons_of_neg (by simp [hl d hdlast]), ← hd,
      List.reverse_reverse]

theorem canonical_shape (K : Str) (hK : canonicalKW K) :
    K ≠ [] ∧ isWordChar (K.headD ' ') = true ∧
      isWordChar (K.getLastD ' ') = true ∧ trimStr K = K := by
  have hgood := canonical_good K hK
  have hjoin : joinSp (splitOnSpace K) = K := joinSp_splitOnSpace K
  obtain ⟨hne, hwords⟩ := hgood
  obtain ⟨w, ws, hw⟩ := List.exists_cons_of_ne_nil hne
  have hwgood := hwords w (by rw [hw]; simp)
  obtain ⟨a, as, ha⟩ := List.exists_cons_of_ne_nil hwgood.1
  have hhead : ∃ t, K = a :: (as ++ t) := by
    obtain ⟨t, ht⟩ := joinSp_head_word w ws hwgood.1
    rw [hw] at hjoin
    exact ⟨t, by rw [← hjoin, ht, ha]; simp⟩
  rcases List.eq_nil_or_concat (splitOnSpace K) with h | ⟨L, b, hLb⟩
  · exact absurd h (splitOnSpace_ne_nil K)
  rw [List.concat_eq_append] at hLb
  have hbgood := hwords b (by rw [hLb]; simp)
  rcases List.eq_nil_or_concat b with h | ⟨bs, z, hbz⟩
  · exact absurd h hbgood.1
  rw [List.concat_eq_append] at hbz
  have hlastK : ∃ u, K = u ++ (bs ++ [z]) := by
    obtain ⟨u, hu⟩ := joinSp_last_word L b
    refine ⟨u, ?_⟩
    rw [← hjoin, hLb, hu, hbz]
  obtain ⟨t1, ht1⟩ := hhead
  obtain ⟨t2, ht2⟩ := hlastK
  have hKne : K ≠ [] := by rw [ht1]; simp
  have hheadw : isWordChar (K.headD ' ') = true := by
    rw [ht1]
    exact hwgood.2 a (by rw [ha]; simp)
  have hzword : isWordChar z = true := by
    apply hbgood.2
    rw [hbz]
    simp
  have hlastw : isWordChar (K.getLastD ' ') = true := by
    rw [ht2]
    have : (t2 ++ (bs ++ [z])).getLastD ' ' = z := by
      simp [List.getLastD_eq_getLast?]
    rw [this]
    exact hzword
  refine ⟨hKne, hheadw, hlastw, ?_⟩
  apply trimStr_no_edge
  · intro c hc
    rw [ht1] at hc
    simp only [List.head?_cons, Option.some.injEq] at hc
    subst hc
    exact wordChar_not_ws (by rw [ht1] at hheadw; simpa using hheadw)
  · intro c hc
    have : K.getLastD ' ' = c := by
      rw [List.getLastD_eq_getLast?, hc]
      rfl
    rw [this] at hlastw
    exact wordChar_not_ws hlastw

theorem splitOnSpace_no_space (K : Str) (h : ' ' ∉ K) :
    splitOnSpace K = [K] := by
  induction K with
  | nil => rfl
  | cons c cs ih =>
    have hc : c ≠ ' ' := by
      intro hcon
      exact h (by rw [hcon]; simp)
    simp only [splitOnSpace, if_neg hc]
    rw [ih (by intro hcon; exact h (by simp [hcon]))]

theorem contains_space_iff (K : Str) : K.contains ' ' = true ↔ ' ' ∈ K := by
  simp [List.contains]

/-! ## Splice-block shape -/

theorem capFirstList_map_lower (l : List Str) :
    (capFirstList l).map lowerStr = l.map lowerStr := by
  cases l with
  | nil => rfl
  | cons w ws => simp [capFirstList, lowerStr_capWord]

theorem capWord_good (w : Str) (h : w ≠ [] ∧ ∀ c ∈ w, isWordChar c = true) :
    capWord w ≠ [] ∧ ∀ c ∈ capWord w, isWordChar c = true := by
  cases w with
  | nil => exact absurd rfl h.1
  | cons c cs =>
    refine ⟨by simp [capWord], ?_⟩
    intro x hx
    simp only [capWord, List.mem_cons] at hx
    rcases hx with hx | hx
    · subst hx
      rw [isWordChar_toUpperChar]
      exact h.2 c (by simp)
    · exact h.2 x (by simp [hx])

theorem capFirstList_good (l : List Str) (h : GoodWordList l) :
    GoodWordList (capFirstList l) := by
  obtain ⟨hne, hw⟩ := h
  obtain ⟨w, ws, hcons⟩ := List.exists_cons_of_ne_nil hne
  subst hcons
  refine ⟨by simp [capFirstList], ?_⟩
  intro x hx
  simp only [capFirstList, List.mem_cons] at hx
  rcases hx with hx | hx
  · subst hx
    exact capWord_good w (hw w (by simp))
  · exact hw x (by simp [hx])

theorem spliceCore_cases (words : List Str) (K : Str) (pos : Nat)
    (coin : Bool) :
    spliceCore words K pos coin = splitOnSpace K ∨
    spliceCore words K pos coin = str "and" :: splitOnSpace K ∨
    spliceCore words K pos coin = capFirstList (splitOnSpace K) := by
  unfold spliceCore
  split_ifs <;>
    first
      | exact Or.inl rfl
      | exact Or.inr (Or.inl rfl)
      | exact Or.inr (Or.inr rfl)

theorem good_cons_and (l : List Str) (h : GoodWordList l) :
    GoodWordList (str "and" :: l) := by
  refine ⟨by simp, ?_⟩
  intro w hw
  simp only [List.mem_cons] at hw
  rcases hw with hw | hw
  · subst hw
    exact ⟨by decide, by decide⟩
  · exact h.2 w hw

theorem spliceBlock_shape (words : List Str) (K : Str) (pos : Nat)
    (coin : Bool) (hK : GoodWordList (splitOnSpace K)) :
    ∃ Pre Core, spliceBlock words K pos coin = Pre ++ Core ∧
      Core.map lowerStr = (splitOnSpace K).map lowerStr ∧
      GoodWordList (Pre ++ Core) := by
  have hshape : ∀ ins, GoodWordList ins →
      (∃ Pre Core, ins = Pre ++ Core ∧
        Core.map lowerStr = (splitOnSpace K).map lowerStr ∧
        GoodWordList (Pre ++ Core)) →
      ∃ Pre Core, capFirstList ins = Pre ++ Core ∧
        Core.map lowerStr = (splitOnSpace K).map lowerStr ∧
        GoodWordList (Pre ++ Core) := by
    intro ins hgood hex
    obtain ⟨Pre, Core, hsplit, hmap, hgoodPC⟩ := hex
    cases Pre with
    | nil =>
      refine ⟨[], capFirstList Core, by rw [hsplit]; simp, ?_, ?_⟩
      · rw [capFirstList_map_lower, hmap]
      · simp only [List.nil_append] at hgoodPC ⊢
        exact capFirstList_good Core hgoodPC
    | cons p ps =>
      refine ⟨capWord p :: ps, Core, ?_, hmap, ?_⟩
      · rw [hsplit]
        simp [capFirstList]
      · rw [hsplit] at hgood
        simp only [List.cons_append] at hgood ⊢
        obtain ⟨_, hws⟩ := hgood
        refine ⟨by simp, ?_⟩
        intro w hw
        simp only [List.mem_cons] at hw
        rcases hw with hw | hw
        · subst hw
          exact capWord_good p (hws p (by simp))
        · exact hws w (by simp [hw])
  have hcore : ∃ Pre Core, spliceCore words K pos coin = Pre ++ Core ∧
      Core.map lowerStr = (splitOnSpace K).map lowerStr ∧
      GoodWordList (Pre ++ Core) := by
    rcases spliceCore_cases words K pos coin with h | h | h
    · exact ⟨[], splitOnSpace K, by rw [h]; rfl, rfl, by simpa using hK⟩
    · refine ⟨[str "and"], splitOnSpace K, by rw [h]; rfl, rfl, ?_⟩
      simpa using good_cons_and _ hK
    · refine ⟨[], capFirstList (splitOnSpace K), by rw [h]; rfl, ?_, ?_⟩
      · exact capFirstList_map_lower _
      · simpa using capFirstList_good _ hK
  have hcoregood : GoodWordList (spliceCore words K pos coin) := by
    obtain ⟨Pre, Core, hsplit, _, hgoodPC⟩ := hcore
    rw [hsplit]
    exact hgoodPC
  unfold spliceBlock
  split_ifs with h
  · exact hshape _ hcoregood hcore
  · exact hcore

/-! ## Insertion-position bounds -/

theorem mem_enumFrom_lt {α : Type} (l : List α) :
    ∀ (k : Nat) (p : Nat × α), p ∈ l.enumFrom k → p.1 < k + l.length := by
  induction l with
  | nil => intro k p h; simp [List.enumFrom] at h
  | cons x xs ih =>
    intro k p h
    simp only [List.enumFrom, List.mem_cons] at h
    rcases h with h | h
    · subst h; simp
    · have := ih (k + 1) p h
      simp only [List.length_cons]
      omega

theorem foldl_best_lt (l : List (Nat × Str)) (scf : Nat × Str → Int)
    (n : Nat) :
    ∀ (init : Int × Nat), init.2 < n → (∀ p ∈ l, p.1 < n) →
      (l.foldl (fun best p => if scf p > best.1 then (scf p, p.1) else best)
        init).2 < n := by
  induction l with
  | nil => intro init hinit _; exact hinit
  | cons x xs ih =>
    intro init hinit hl
    simp only [List.foldl_cons]
    apply ih
    · by_cases h : scf x > init.1
      · simpa [h] using hl x (by simp)
      · simpa [h] using hinit
    · intro p hp
      exact hl p (by simp [hp])

theorem foldl_scan_fst_lt (l : List Nat) (Lf : Nat → Nat) (n : Nat) :
    ∀ (init : Nat × Nat), init.1 < n → (∀ i ∈ l, i < n) →
      (l.foldl (fun acc i => if Lf i > acc.2 && Lf i > 6 then (i, Lf i) else acc)
        init).1 < n := by
  induction l with
  | nil => intro init hinit _; exact hinit
  | cons x xs ih =>
    intro init hinit hl
    simp only [List.foldl_cons]
    apply ih
    · by_cases h : (Lf x > init.2 && Lf x > 6) = true
      · simpa [h] using hl x (by simp)
      · simpa [h] using hinit
    · intro p hp
      exact hl p (by simp [hp])

theorem findOptimal_lt (sentences : List Str) (K C : Str)
    (h : sentences ≠ []) :
    findOptimalInsertionPosition sentences K C < sentences.length := by
  have hn : 0 < sentences.length := List.length_pos.mpr h
  simp only [findOptimalInsertionPosition]
  split_ifs with hb
  · apply foldl_scan_fst_lt _ _ sentences.length
    · exact Nat.div_lt_self hn (by norm_num)
    · intro i hi
      rw [List.mem_range'_1] at hi
      have h45 : 4 * sentences.length / 5 < sentences.length := by
        rw [Nat.div_lt_iff_lt_mul (by norm_num)]
        omega
      have h5 : sentences.length / 5 < sentences.length :=
        Nat.div_lt_self hn (by norm_num)
      omega
  · apply foldl_best_lt _ _ sentences.length
    · exact hn
    · intro p hp
      have := mem_enumFrom_lt sentences 0 p hp
      simpa using this

/-! ## Splice decomposition -/

theorem joinSp_decomp (A : List Str) (b : Str) (B : List Str) :
    joinSp (A ++ b :: B) =
      (if A = [] then [] else joinSp A ++ [' ']) ++ b ++
      (if B = [] then [] else ' ' :: joinSp B) := by
  cases A with
  | nil =>
    cases B with
    | nil => simp [joinSp]
    | cons v vs =>
      rw [List.nil_append, joinSp_cons b (v :: vs) (by simp)]
      simp
  | cons a as =>
    cases B with
    | nil =>
      rw [show (a :: as) ++ [b] = (a :: as) ++ [b] from rfl,
        joinSp_append (a :: as) [b] (by simp) (by simp)]
      simp [joinSp]
    | cons v vs =>
      rw [show (a :: as) ++ b :: v :: vs = (a :: as) ++ (b :: v :: vs) from rfl,
        joinSp_append (a :: as) (b :: v :: vs) (by simp) (by simp),
        joinSp_cons b (v :: vs) (by simp)]
      simp

theorem set_eq_take_cons_drop {α : Type} (l : List α) :
    ∀ (i : Nat) (x : α), i < l.length →
      l.set i x = l.take i ++ x :: l.drop (i + 1) := by
  induction l with
  | nil => intro i x h; simp at h
  | cons c cs ih =>
    intro i x h
    cases i with
    | zero => simp
    | succ j =>
      simp only [List.set, List.take, List.drop, List.cons_append,
        List.cons.injEq, true_and]
      exact ih j x (by simpa using h)

theorem good_no_ws (B : List Str) (h : GoodWordList B) :
    ∀ w ∈ B, w ≠ [] ∧ ∀ c ∈ w, isWsChar c = false := fun w hw =>
  ⟨(h.2 w hw).1, fun c hc => wordChar_not_ws ((h.2 w hw).2 c hc)⟩

theorem wsTokens_sep (u v : Str) :
    wsTokens (u ++ ' ' :: v) = wsTokens u ++ wsTokens v := by
  rw [wsTokens_def, wsTokens_def, wsTokens_def,
    runsBy_sep_append _ ' ' (by decide) u v]

theorem wsTokens_join_mid (A B Cc : List Str)
    (hB : ∀ w ∈ B, w ≠ [] ∧ ∀ c ∈ w, isWsChar c = false) (hBne : B ≠ []) :
    wsTokens (joinSp (A ++ B ++ Cc)) =
      wsTokens (joinSp A) ++ B ++ wsTokens (joinSp Cc) := by
  cases A with
  | nil =>
    cases Cc with
    | nil =>
      simp only [List.nil_append, List.append_nil]
      rw [wsTokens_joinSp B hB, show wsTokens (joinSp ([] : List Str)) = []
        from rfl]
      simp
    | cons c cs =>
      rw [List.nil_append, joinSp_append B (c :: cs) hBne (by simp),
        wsTokens_sep, wsTokens_joinSp B hB, show wsTokens (joinSp ([] : List Str)) = []
        from rfl]
      simp
  | cons a as =>
    cases Cc with
    | nil =>
      rw [List.append_nil, joinSp_append (a :: as) B (by simp) hBne,
        wsTokens_sep, wsTokens_joinSp B hB, show wsTokens (joinSp ([] : List Str)) = []
        from rfl]
      simp
    | cons c cs =>
      rw [List.append_assoc, joinSp_append (a :: as) (B ++ c :: cs) (by simp)
        (by simp), wsTokens_sep,
        joinSp_append B (c :: cs) hBne (by simp), wsTokens_sep,
        wsTokens_joinSp B hB]
      simp

theorem headD_append_left (u v : Str) (d : Char) (h : u ≠ []) :
    (u ++ v).headD d = u.headD d := by
  cases u with
  | nil => exact absurd rfl h
  | cons c cs => rfl

theorem getLastD_append_right (u v : Str) (d : Char) (h : v ≠ []) :
    (u ++ v).getLastD d = v.getLastD d := by
  obtain ⟨vs, z, hz⟩ : ∃ vs z, v = vs ++ [z] := by
    rcases List.eq_nil_or_concat v with hcon | ⟨vs, z, hvz⟩
    · exact absurd hcon h
    · exact ⟨vs, z, by rw [hvz]; simp⟩
  subst hz
  rw [List.getLastD_eq_getLast?, List.getLastD_eq_getLast?]
  simp

theorem joinSp_mid_block (P Core Q : List Str) (hc : Core ≠ []) :
    ∃ X Y, joinSp (P ++ Core ++ Q) = X ++ joinSp Core ++ Y ∧
      (X = [] ∨ isWordChar (X.getLastD ' ') = false) ∧
      (Y = [] ∨ isWordChar (Y.headD ' ') = false) := by
  cases P with
  | nil =>
    cases Q with
    | nil => exact ⟨[], [], by simp, Or.inl rfl, Or.inl rfl⟩
    | cons q qs =>
      refine ⟨[], ' ' :: joinSp (q :: qs), ?_, Or.inl rfl, Or.inr ?_⟩
      · rw [List.nil_append, joinSp_append Core (q :: qs) hc (by simp)]
        simp
      · exact show isWordChar ' ' = false by decide
  | cons p ps =>
    cases Q with
    | nil =>
      refine ⟨joinSp (p :: ps) ++ [' '], [], ?_, Or.inr ?_, Or.inl rfl⟩
      · rw [List.append_nil, joinSp_append (p :: ps) Core (by simp) hc]
        simp
      · rw [getLastD_append_right _ [' '] ' ' (by simp)]
        decide
    | cons q qs =>
      refine ⟨joinSp (p :: ps) ++ [' '], ' ' :: joinSp (q :: qs), ?_,
        Or.inr ?_, Or.inr ?_⟩
      · rw [List.append_assoc, joinSp_append (p :: ps) (Core ++ q :: qs)
          (by simp) (by simp), joinSp_append Core (q :: qs) hc (by simp)]
        simp
      · rw [getLastD_append_right _ [' '] ' ' (by simp)]
        decide
      · exact show isWordChar ' ' = false by decide

/-- lowered phrase of the core block equals the lowered keyword. -/
theorem core_lower_eq (K : Str) (Core : List Str)
    (hmap : Core.map lowerStr = (splitOnSpace K).map lowerStr) :
    lowerStr (joinSp Core) = lowerStr K := by
  rw [lowerStr_joinSp, hmap, ← lowerStr_joinSp, joinSp_splitOnSpace]

theorem core_ne_nil (K : Str) (Core : List Str)
    (hmap : Core.map lowerStr = (splitOnSpace K).map lowerStr) :
    Core ≠ [] := by
  intro h
  subst h
  have := congrArg List.length hmap
  simp only [List.map_nil, List.length_nil, List.length_map] at this
  exact splitOnSpace_ne_nil K (List.length_eq_zero.mp this.symm)

/-- The shape of a non-skipped single insertion: the result contains a
case-insensitive copy of the keyword delimited by non-word characters (or
the content edges). -/
theorem insert_shape (C K : Str) (coin : Bool) (hK : canonicalKW K)
    (hg : gateSkip C K = false) :
    BOcc K (insertKeywordIntelligently C K none coin) := by
  have hmain : insertKeywordIntelligently C K none coin =
      if (sentSplit C).isEmpty then K ++ '.' :: ' ' :: C
      else insertAuto (sentSplit C) K C coin := by
    unfold insertKeywordIntelligently
    rw [if_neg (by simp [hg])]
  rw [hmain]
  by_cases hemp : (sentSplit C).isEmpty = true
  · rw [if_pos hemp]
    exact ⟨[], K, '.' :: ' ' :: C, by simp, rfl, Or.inl rfl,
      Or.inr (show isWordChar '.' = false by decide)⟩
  · rw [if_neg hemp]
    have hsne : sentSplit C ≠ [] := by
      intro hcon
      rw [hcon] at hemp
      exact hemp rfl
    set sentences := sentSplit C with hsent
    set idx := findOptimalInsertionPosition sentences K C with hidx
    have hlt : idx < sentences.length := findOptimal_lt sentences K C hsne
    set words := splitOnSpace (sentences.getD idx []) with hwords
    set pos := findBestWordPosition words K with hpos
    obtain ⟨Pre, Core, hsplit, hmap, hgoodPC⟩ :=
      spliceBlock_shape words K pos coin (canonical_good K hK)
    have hCne := core_ne_nil K Core hmap
    have hnew : createNaturalInsertion words K pos coin =
        joinSp (wsTokens (joinSp (words.take pos ++ (Pre ++ Core) ++
          words.drop pos))) := by
      rw [createNaturalInsertion, trimCollapse, hsplit]
    rw [wsTokens_join_mid _ _ _ (good_no_ws _ hgoodPC) hgoodPC.1] at hnew
    set TA := wsTokens (joinSp (words.take pos)) with hTA
    set TD := wsTokens (joinSp (words.drop pos)) with hTD
    have hnew2 : createNaturalInsertion words K pos coin =
        joinSp ((TA ++ Pre) ++ Core ++ TD) := by
      rw [hnew]
      simp
    obtain ⟨X1, Y1, hmid, hX1, hY1⟩ := joinSp_mid_block (TA ++ Pre) Core TD hCne
    set new := createNaturalInsertion words K pos coin with hnewdef
    have hset : sentences.set idx new =
        sentences.take idx ++ [new] ++ sentences.drop (idx + 1) := by
      rw [set_eq_take_cons_drop sentences idx new hlt]
      simp
    have hauto : insertAuto sentences K C coin =
        joinSp (sentences.set idx new) := rfl
    obtain ⟨X0, Y0, hmid0, hX0, hY0⟩ :=
      joinSp_mid_block (sentences.take idx) [new] (sentences.drop (idx + 1))
        (by simp)
    rw [hauto, hset, hmid0]
    have hnewm : joinSp [new] = new := rfl
    rw [hnewm, hnew2, hmid]
    refine ⟨X0 ++ X1, joinSp Core, Y1 ++ Y0, by simp, core_lower_eq K Core hmap,
      ?_, ?_⟩
    · by_cases hX1e : X1 = []
      · subst hX1e
        rcases hX0 with h0 | h0
        · left; rw [h0]; rfl
        · right
          rwa [List.append_nil]
      · rcases hX1 with h1 | h1
        · exact absurd h1 hX1e
        · right
          rw [getLastD_append_right X0 X1 ' ' hX1e]
          exact h1
    · by_cases hY1e : Y1 = []
      · subst hY1e
        rcases hY0 with h0 | h0
        · left; rw [h0]; rfl
        · right
          rwa [List.nil_append]
      · rcases hY1 with h1 | h1
        · exact absurd h1 hY1e
        · right
          rw [headD_append_left Y1 Y0 ' ' hY1e]
          exact h1

/-! ## Sentence-split reconstruction on normalized content -/

theorem consHead_ne_nil (c : Char) (l : List Str) : consHead c l ≠ [] := by
  cases l <;> simp [consHead]

theorem sentGo_true_eq (prev : Option Char) (c : Char) (cs : Str) :
    sentSplitGo true prev (c :: cs) =
      if isWsChar c then sentSplitGo true (some c) cs
      else consHead c (sentSplitGo false (some c) cs) := rfl

theorem sentGo_false_eq (prev : Option Char) (c : Char) (cs : Str) :
    sentSplitGo false prev (c :: cs) =
      if isWsChar c &&
          (match prev with | some p => isTermChar p | none => false) then
        [] :: sentSplitGo true (some c) cs
      else consHead c (sentSplitGo false (some c) cs) := rfl

theorem sentSplitGo_ne_nil (s : Str) :
    ∀ (f : Bool) (p : Option Char), sentSplitGo f p s ≠ [] := by
  induction s with
  | nil => intro f p; cases f <;> simp [sentSplitGo]
  | cons c cs ih =>
    intro f p
    cases f with
    | true =>
      rw [sentGo_true_eq]
      split_ifs
      · exact ih true (some c)
      · exact consHead_ne_nil _ _
    | false =>
      rw [sentGo_false_eq]
      split_ifs
      · simp
      · exact consHead_ne_nil _ _

theorem consHead_prepS (c : Char) (w : Str) (l : List Str) :
    consHead c (prepS w l) = prepS (c :: w) l := by
  cases l <;> simp [consHead, prepS]

theorem prepS_nil_id (l : List Str) (h : l ≠ []) : prepS [] l = l := by
  cases l with
  | nil => exact absurd rfl h
  | cons p ps => simp [prepS]

theorem prevAfter_nil (prev : Option Char) : prevAfter [] prev = prev := rfl

theorem prevAfter_cons (c : Char) (w : Str) (prev : Option Char) :
    prevAfter (c :: w) prev = prevAfter w (some c) := by
  cases w with
  | nil => rfl
  | cons d ds =>
    obtain ⟨l, z, hz⟩ : ∃ l z, d :: ds = l ++ [z] := by
      rcases List.eq_nil_or_concat (d :: ds) with h | ⟨l, z, h⟩
      · simp at h
      · exact ⟨l, z, by rw [h]; simp⟩
    unfold prevAfter
    rw [show (c :: d :: ds).getLast? = (d :: ds).getLast? from
      List.getLast?_cons_cons, hz]
    simp

theorem sentGo_word (w : Str) (hw : ∀ c ∈ w, isWsChar c = false) :
    ∀ (prev : Option Char) (rest : Str),
      sentSplitGo false prev (w ++ rest) =
        prepS w (sentSplitGo false (prevAfter w prev) rest) := by
  induction w with
  | nil =>
    intro prev rest
    rw [prevAfter_nil, List.nil_append,
      prepS_nil_id _ (sentSplitGo_ne_nil rest false prev)]
  | cons c w' ih =>
    intro prev rest
    have hc : isWsChar c = false := hw c (by simp)
    rw [List.cons_append, sentGo_false_eq, if_neg (by simp [hc]),
      ih (fun x hx => hw x (by simp [hx])) (some c) rest,
      consHead_prepS, prevAfter_cons]

theorem groupSent_ne_nil (W : List Str) (h : W ≠ []) : groupSent W ≠ [] := by
  cases W with
  | nil => exact absurd rfl h
  | cons w ws =>
    cases ws with
    | nil => simp [groupSent]
    | cons v vs =>
      simp only [groupSent]
      split_ifs
      · simp
      · cases h2 : groupSent (v :: vs) <;> simp

theorem groupSent_join (W : List Str) : (groupSent W).flatten = W := by
  induction W with
  | nil => rfl
  | cons w ws ih =>
    cases ws with
    | nil => simp [groupSent]
    | cons v vs =>
      simp only [groupSent]
      split_ifs
      · simpa using ih
      · cases h2 : groupSent (v :: vs) with
        | nil => exact absurd h2 (groupSent_ne_nil _ (by simp))
        | cons g gs =>
          rw [h2] at ih
          simp only [List.flatten_cons] at ih ⊢
          simp [ih]

theorem groupSent_mem (W : List Str) :
    ∀ g ∈ groupSent W, g ≠ [] ∧ ∀ w ∈ g, w ∈ W := by
  induction W with
  | nil => simp [groupSent]
  | cons w ws ih =>
    cases ws with
    | nil =>
      intro g hg
      simp only [groupSent, List.mem_singleton] at hg
      subst hg
      exact ⟨by simp, by simp⟩
    | cons v vs =>
      intro g hg
      simp only [groupSent] at hg
      split_ifs at hg
      · simp only [List.mem_cons] at hg
        rcases hg with hg | hg
        · subst hg; exact ⟨by simp, by simp⟩
        · obtain ⟨h1, h2⟩ := ih g hg
          exact ⟨h1, fun x hx => by simp [h2 x hx]⟩
      · cases h2 : groupSent (v :: vs) with
        | nil =>
          rw [h2] at hg
          simp only [List.mem_singleton] at hg
          subst hg
          exact ⟨by simp, by simp⟩
        | cons g0 gs0 =>
          rw [h2] at hg
          simp only [List.mem_cons] at hg
          rcases hg with hg | hg
          · subst hg
            obtain ⟨h1, hmem⟩ := ih g0 (by rw [h2]; simp)
            refine ⟨by simp, ?_⟩
            intro x hx
            simp only [List.mem_cons] at hx
            rcases hx with hx | hx
            · simp [hx]
            · simp [hmem x hx]
          · obtain ⟨h1, hmem⟩ := ih g (by rw [h2]; simp [hg])
            exact ⟨h1, fun x hx => by simp [hmem x hx]⟩

theorem sentGo_joinSp :
    ∀ (W : List Str),
      (∀ w ∈ W, w ≠ [] ∧ ∀ c ∈ w, isWsChar c = false) → W ≠ [] →
      ∀ (prev : Option Char),
        sentSplitGo false prev (joinSp W) = (groupSent W).map joinSp := by
  intro W
  induction W with
  | nil => intro _ h; exact absurd rfl h
  | cons w ws ih =>
    intro hW _ prev
    have hw := hW w (by simp)
    cases ws with
    | nil =>
      show sentSplitGo false prev w = [w]
      have h1 : sentSplitGo false prev (w ++ []) =
          prepS w (sentSplitGo false (prevAfter w prev) []) :=
        sentGo_word w hw.2 prev []
      simp only [List.append_nil] at h1
      rw [h1]
      simp [prepS, sentSplitGo]
    | cons v vs =>
      obtain ⟨ws', lc, hwz⟩ : ∃ ws' lc, w = ws' ++ [lc] := by
        rcases List.eq_nil_or_concat w with h | ⟨ws', lc, h⟩
        · exact absurd h hw.1
        · exact ⟨ws', lc, by rw [h]; simp⟩
      have hgl : w.getLast? = some lc := by rw [hwz]; simp
      have hpa : prevAfter w prev = some lc := by
        unfold prevAfter
        rw [hgl]
      have hjoin : joinSp (w :: v :: vs) = w ++ ' ' :: joinSp (v :: vs) :=
        joinSp_cons _ _ (by simp)
      rw [hjoin, sentGo_word w hw.2 prev _, hpa]
      have hv := hW v (by simp)
      obtain ⟨a, as, ha⟩ := List.exists_cons_of_ne_nil hv.1
      obtain ⟨t0, ht0⟩ : ∃ t0, joinSp (v :: vs) = a :: t0 := by
        obtain ⟨t, ht⟩ := joinSp_head_word v vs hv.1
        exact ⟨as ++ t, by rw [ht, ha]; simp⟩
      have hans : isWsChar a = false := hv.2 a (by rw [ha]; simp)
      have hWtail : ∀ x ∈ v :: vs, x ≠ [] ∧ ∀ c ∈ x, isWsChar c = false :=
        fun x hx => hW x (by simp [hx])
      by_cases hterm : isTermChar lc = true
      · have hsplit : sentSplitGo false (some lc) (' ' :: joinSp (v :: vs)) =
            [] :: sentSplitGo true (some ' ') (joinSp (v :: vs)) := by
          rw [sentGo_false_eq,
            if_pos (by simp [hterm, show isWsChar ' ' = true by decide])]
        have hexit : sentSplitGo true (some ' ') (joinSp (v :: vs)) =
            sentSplitGo false (some ' ') (joinSp (v :: vs)) := by
          rw [ht0, sentGo_true_eq, if_neg (by simp [hans]), sentGo_false_eq,
            if_neg (by simp [hans])]
        rw [hsplit, hexit, ih hWtail (by simp) (some ' ')]
        have hgrp : groupSent (w :: v :: vs) = [w] :: groupSent (v :: vs) := by
          conv_lhs => rw [groupSent]
          rw [if_pos (show lastIsTerm w = true by
            unfold lastIsTerm; rw [hgl]; exact hterm)]
        rw [hgrp]
        simp [prepS, joinSp]
      · have hnosplit : sentSplitGo false (some lc) (' ' :: joinSp (v :: vs)) =
            consHead ' ' (sentSplitGo false (some ' ') (joinSp (v :: vs))) := by
          rw [sentGo_false_eq, if_neg (by simp [hterm])]
        rw [hnosplit, ih hWtail (by simp) (some ' ')]
        obtain ⟨g0, gs0, hg0⟩ :=
          List.exists_cons_of_ne_nil (groupSent_ne_nil (v :: vs) (by simp))
        have hgrp : groupSent (w :: v :: vs) = (w :: g0) :: gs0 := by
          conv_lhs => rw [groupSent]
          rw [if_neg (show ¬ lastIsTerm w = true by
            unfold lastIsTerm; rw [hgl]; simp [hterm]), hg0]
        have hg0ne : g0 ≠ [] := (groupSent_mem (v :: vs) g0 (by rw [hg0]; simp)).1
        rw [hg0, hgrp]
        simp [prepS, consHead, joinSp_cons w g0 hg0ne]

theorem good_joinSp_edges (g : List Str)
    (hg : ∀ w ∈ g, w ≠ [] ∧ ∀ c ∈ w, isWsChar c = false) (hne : g ≠ []) :
    joinSp g ≠ [] ∧ trimStr (joinSp g) = joinSp g := by
  obtain ⟨w, ws, rfl⟩ := List.exists_cons_of_ne_nil hne
  have hw := hg w (by simp)
  obtain ⟨a, as, ha⟩ := List.exists_cons_of_ne_nil hw.1
  obtain ⟨t, ht⟩ := joinSp_head_word w ws hw.1
  have hhead : ∃ t0, joinSp (w :: ws) = a :: t0 :=
    ⟨as ++ t, by rw [ht, ha]; simp⟩
  obtain ⟨t0, ht0⟩ := hhead
  rcases List.eq_nil_or_concat (w :: ws) with h | ⟨L, z, hLz⟩
  · simp at h
  rw [List.concat_eq_append] at hLz
  have hz := hg z (by rw [hLz]; simp)
  obtain ⟨zs, zc, hzz⟩ : ∃ zs zc, z = zs ++ [zc] := by
    rcases List.eq_nil_or_concat z with h | ⟨zs, zc, h⟩
    · exact absurd h hz.1
    · exact ⟨zs, zc, by rw [h]; simp⟩
  obtain ⟨t2, ht2⟩ := joinSp_last_word L z
  have hlast : (joinSp (w :: ws)).getLast? = some zc := by
    rw [hLz, ht2, hzz]
    simp
  refine ⟨by rw [ht0]; simp, ?_⟩
  apply trimStr_no_edge
  · intro c hc
    rw [ht0] at hc
    simp only [List.head?_cons, Option.some.injEq] at hc
    subst hc
    exact hg w (by simp) |>.2 a (by rw [ha]; simp)
  · intro c hc
    rw [hlast] at hc
    cases hc
    exact hz.2 zc (by rw [hzz]; simp)

theorem joinSp_map_joinSp (G : List (List Str)) (h : ∀ g ∈ G, g ≠ []) :
    joinSp (G.map joinSp) = joinSp G.flatten := by
  induction G with
  | nil => rfl
  | cons g gs ih =>
    cases gs with
    | nil => simp [joinSp]
    | cons g2 gs2 =>
      have hg2ne : g2 ≠ [] := h g2 (by simp)
      have hjoinne : (g2 :: gs2).flatten ≠ [] := by
        obtain ⟨x, xs, hx⟩ := List.exists_cons_of_ne_nil hg2ne
        simp [hx]
      rw [List.map_cons, joinSp_cons (joinSp g) _ (by simp),
        ih (fun x hx => h x (by simp [hx]))]
      conv_rhs => rw [List.flatten_cons]
      rw [joinSp_append g _ (h g (by simp)) hjoinne]

theorem wsNorm_tokens (C : Str) (hC : wsNorm C) :
    joinSp (wsTokens C) = C := by
  rw [← trimCollapse]
  exact hC

theorem wsTokens_good (C : Str) :
    ∀ w ∈ wsTokens C, w ≠ [] ∧ ∀ c ∈ w, isWsChar c = false := by
  intro w hw
  have := runsBy_mem _ C w hw
  exact ⟨this.1, fun c hc => by simpa using this.2 c hc⟩

theorem sentSplit_wsNorm_pieces (C : Str) (hC : wsNorm C) (hne : C ≠ []) :
    sentSplit C = (groupSent (wsTokens C)).map joinSp := by
  have hCt := wsNorm_tokens C hC
  have hWne : wsTokens C ≠ [] := by
    intro h
    rw [h] at hCt
    exact hne hCt.symm
  unfold sentSplit
  conv_lhs => rw [← hCt]
  rw [sentGo_joinSp (wsTokens C) (wsTokens_good C) hWne none]
  apply List.filter_eq_self.mpr
  intro p hp
  simp only [List.mem_map] at hp
  obtain ⟨g, hgmem, rfl⟩ := hp
  have hgne := (groupSent_mem _ g hgmem).1
  have hgood : ∀ w ∈ g, w ≠ [] ∧ ∀ c ∈ w, isWsChar c = false :=
    fun w hw => wsTokens_good C w ((groupSent_mem _ g hgmem).2 w hw)
  obtain ⟨hjne, hjtrim⟩ := good_joinSp_edges g hgood hgne
  rw [hjtrim]
  simpa using hjne

theorem joinSp_sentSplit (C : Str) (hC : wsNorm C) (hne : C ≠ []) :
    joinSp (sentSplit C) = C := by
  rw [sentSplit_wsNorm_pieces C hC hne,
    joinSp_map_joinSp _ (fun g hg => (groupSent_mem _ g hg).1),
    groupSent_join]
  exact wsNorm_tokens C hC

theorem splitOnSpace_word_append (w t : Str) (hw : ' ' ∉ w) :
    splitOnSpace (w ++ ' ' :: t) = w :: splitOnSpace t := by
  induction w with
  | nil => simp [splitOnSpace]
  | cons c cs ih =>
    have hc : c ≠ ' ' := fun h => hw (by simp [h])
    conv_lhs => rw [List.cons_append, splitOnSpace]
    rw [if_neg hc, ih (fun h => hw (by simp [h]))]

theorem splitOnSpace_joinSp (g : List Str) (hg : ∀ w ∈ g, ' ' ∉ w)
    (hne : g ≠ []) : splitOnSpace (joinSp g) = g := by
  induction g with
  | nil => exact absurd rfl hne
  | cons w ws ih =>
    cases ws with
    | nil =>
      show splitOnSpace w = [w]
      exact splitOnSpace_no_space w (hg w (by simp))
    | cons v vs =>
      rw [joinSp_cons w (v :: vs) (by simp),
        splitOnSpace_word_append w _ (hg w (by simp)),
        ih (fun x hx => hg x (by simp [hx])) (by simp)]

/-! ## Counterexamples -/

/-- C1 counterexample: insertion is not idempotent for every keyword.  The
keyword `"c++"` ends in non-word characters, so the duplicate gate's
`\bc\+\+\b` regex can never match (no word boundary after `'+'`), and a
second call inserts the keyword again. -/
theorem insert_not_idempotent_cpp :
    insertKeywordIntelligently
      (insertKeywordIntelligently (str "Walk the dog now please.") (str "c++")
        none false) (str "c++") none false ≠
    insertKeywordIntelligently (str "Walk the dog now please.") (str "c++")
      none false := by decide

/-- C2 counterexample: for the degenerate keyword `"wolf wolf"` the
insertion is not skipped (the result differs from the input), yet the
cleanup pass collapses the inserted duplicate pair, so the word-boundary
phrase search fails on the returned content. -/
theorem insert_phrase_lost_after_cleanup :
    insertKeywordHandler (str "Zebras running fast. Lions hunt at night.")
        (str "wolf wolf") false ≠
      str "Zebras running fast. Lions hunt at night." ∧
    testBoundary (str "wolf wolf")
      (insertKeywordHandler (str "Zebras running fast. Lions hunt at night.")
        (str "wolf wolf") false) = false := by
  constructor
  · decide
  · decide

/-- C3 counterexample: when the duplicate gate skips the keyword, the
endpoint still runs the cleanup pass, which can shrink content that already
contains a repetition; the returned length is strictly smaller. -/
theorem insert_length_can_shrink :
    (insertKeywordHandler (str "A foo foo cat.") (str "foo") false).length <
      (str "A foo foo cat.").length := by decide

/-- C4 counterexample: the partition guarantee does not hold for every
non-empty keyword list.  For the keyword `"c++"` the (escaped) duplicate
gate finds no match and the insertion grows the content, so the loop
reaches the repetition check — whose `RegExp` interpolates the first word
unescaped: `\bc++\s+c++\b` has a quantifier with nothing to repeat, the
constructor throws, and the endpoint answers 500 with no inserted/skipped
lists (`none`). -/
theorem bulk_errors_on_cpp :
    ([str "c++"] : List Str) ≠ [] ∧
    bulkInsertE (str "Walk the dog now please.") [str "c++"]
      (fun _ => false) = none := by
  constructor
  · decide
  · decide

/-- C5 counterexample: for punctuation-free non-whitespace content the
sentence split yields the one-element list `[content]`, not the empty list,
and insertion splices into that sentence instead of returning
`"{keyword}. {content}"`. -/
theorem punctuation_free_split_not_empty :
    sentSplit (str "Walk the dog now") = [str "Walk the dog now"] ∧
    insertKeywordIntelligently (str "Walk the dog now") (str "zebra") none
        false ≠
      str "zebra" ++ '.' :: ' ' :: str "Walk the dog now" := by
  constructor
  · decide
  · decide

/-- C6 counterexample: the splice step consumes a random draw
(`Math.random() > 0.7`, routes.ts:1654), so two runs of single-keyword
insertion on identical string inputs can differ. -/
theorem insert_depends_on_random_draw :
    insertKeywordIntelligently (str "Zebras running fast. Lions hunt at night.")
        (str "wolf wolf") none true ≠
      insertKeywordIntelligently
        (str "Zebras running fast. Lions hunt at night.") (str "wolf wolf")
        none false := by decide

/-- C7 counterexample: on the enrichment-unavailable fallback path the
readability score is not rounded; at 123 words it equals `62.3`, which is
not an integer. -/
theorem fallback_readability_not_integer :
    ¬ ∃ z : ℤ, fallbackReadability (joinSp (List.replicate 123 (str "hi"))) =
      (z : ℚ) := by
  rintro ⟨z, hz⟩
  have hw : (wordsOf (joinSp (List.replicate 123 (str "hi")))).length = 123 := by
    decide
  rw [fallbackReadability, hw] at hz
  have h10 : ((123 : ℕ) : ℚ) / 10 + 50 = 623 / 10 := by norm_num
  rw [h10] at hz
  have hlt : (60 : ℚ) ≤ 623 / 10 := by norm_num
  have hgt : (623 : ℚ) / 10 ≤ 90 := by norm_num
  rw [min_eq_right hgt, max_eq_right hlt] at hz
  rw [div_eq_iff (by norm_num : (10 : ℚ) ≠ 0)] at hz
  have : (623 : ℤ) = z * 10 := by exact_mod_cast hz
  omega

/-- C8 counterexample: for `"miaou"` the single maximal vowel run `iaou`
has length 4, but the `[aeiouy]{1,2}` chunk scan counts it as 2, not 1. -/
theorem syllables_not_run_count :
    estimateSyllables (str "miaou") = 2 ∧
    vowelRunLens (stripLeadY (stripSilent (lowerStr (str "miaou")))) = [4] := by
  constructor
  · decide
  · decide

/-- C9 counterexample: the extractor returns no suggestion for the
non-empty content `"cat"`, and the contextual augmentation can duplicate an
already-extracted phrase (`"digital solutions"` appears twice below). -/
theorem extractor_empty_and_duplicate :
    (str "cat" ≠ [] ∧ extractCommonPhrases (str "cat") = []) ∧
    ¬ (extractCommonPhrases
        (str "Digital solutions help. Digital solutions win.")).Nodup := by
  refine ⟨⟨by decide, by decide⟩, by decide⟩

/-! ## Cleanup length bounds -/

theorem takeWord_append (s : Str) : (takeWord s).1 ++ (takeWord s).2 = s := by
  induction s with
  | nil => rfl
  | cons c cs ih =>
    by_cases hc : isWordChar c = true
    · simp only [takeWord, hc, if_true]
      simpa using ih
    · simp only [takeWord, hc, Bool.false_eq_true, if_false]
      simp

theorem takeWs_append (s : Str) : (takeWs s).1 ++ (takeWs s).2 = s := by
  induction s with
  | nil => rfl
  | cons c cs ih =>
    by_cases hc : isWsChar c = true
    · simp only [takeWs, hc, if_true]
      simpa using ih
    · simp only [takeWs, hc, Bool.false_eq_true, if_false]
      simp

theorem takeCommas_append (s : Str) :
    (takeCommas s).1 ++ (takeCommas s).2 = s := by
  induction s with
  | nil => rfl
  | cons c cs ih =>
    by_cases hc : c = ','
    · simp only [takeCommas, hc, if_true]
      simpa using ih
    · simp only [takeCommas, hc, if_false]
      simp

theorem takeWord_len (s w r : Str) (h : takeWord s = (w, r)) :
    s.length = w.length + r.length := by
  have h2 := takeWord_append s
  rw [h] at h2
  have h3 := congrArg List.length h2
  simpa [List.length_append] using h3.symm

theorem takeWs_len (s w r : Str) (h : takeWs s = (w, r)) :
    s.length = w.length + r.length := by
  have h2 := takeWs_append s
  rw [h] at h2
  have h3 := congrArg List.length h2
  simpa [List.length_append] using h3.symm

theorem takeCommas_len (s w r : Str) (h : takeCommas s = (w, r)) :
    s.length = w.length + r.length := by
  have h2 := takeCommas_append s
  rw [h] at h2
  have h3 := congrArg List.length h2
  simpa [List.length_append] using h3.symm

theorem litCIRest_length (pat : Str) :
    ∀ (s r : Str), litCIRest pat s = some r →
      s.length = pat.length + r.length := by
  induction pat with
  | nil =>
    intro s r h
    simp only [litCIRest, Option.some.injEq] at h
    subst h
    simp
  | cons p ps ih =>
    intro s r h
    cases s with
    | nil => simp [litCIRest] at h
    | cons c cs =>
      simp only [litCIRest] at h
      split_ifs at h with hc
      have := ih cs r h
      simp only [List.length_cons]
      omega

theorem not_isEmpty_len (w : Str) (h : ¬ w.isEmpty = true) : 1 ≤ w.length := by
  cases w with
  | nil => simp at h
  | cons c cs => simp

theorem replGo_zero_cons (m : Matcher) (prev : Option Char) (c : Char)
    (cs : Str) :
    replGo m 0 prev (c :: cs) =
      match m prev (c :: cs) with
      | some (len, repl) => repl ++ replGo m (len - 1) (some c) cs
      | none => c :: replGo m 0 (some c) cs := rfl

theorem replGo_length (m : Matcher)
    (hm : ∀ prev s len repl, m prev s = some (len, repl) →
      1 ≤ len ∧ len ≤ s.length ∧ repl.length ≤ len) :
    ∀ (s : Str) (k : Nat) (prev : Option Char),
      (replGo m k prev s).length + min k s.length ≤ s.length := by
  intro s
  induction s with
  | nil => intro k prev; simp [replGo]
  | cons c cs ih =>
    intro k prev
    cases k with
    | succ j =>
      show (replGo m j (some c) cs).length +
        min (j + 1) (cs.length + 1) ≤ cs.length + 1
      have h1 := ih j (some c)
      have hmin : min (j + 1) (cs.length + 1) = min j cs.length + 1 :=
        Nat.succ_min_succ j cs.length
      omega
    | zero =>
      cases hm0 : m prev (c :: cs) with
      | none =>
        have he : replGo m 0 prev (c :: cs) = c :: replGo m 0 (some c) cs := by
          rw [replGo_zero_cons, hm0]
        have h1 := ih 0 (some c)
        rw [he]
        simp only [List.length_cons, Nat.zero_min] at h1 ⊢
        omega
      | some lr =>
        obtain ⟨len, repl⟩ := lr
        obtain ⟨hl1, hl2, hl3⟩ := hm prev (c :: cs) len repl hm0
        have he : replGo m 0 prev (c :: cs) =
            repl ++ replGo m (len - 1) (some c) cs := by
          rw [replGo_zero_cons, hm0]
        have h1 := ih (len - 1) (some c)
        simp only [List.length_cons] at hl2
        have hminf : min (len - 1) cs.length = len - 1 :=
          Nat.min_eq_left (by omega)
        rw [hminf] at h1
        rw [he]
        simp only [List.length_append, List.length_cons, Nat.zero_min]
        omega

theorem replAll_length (m : Matcher)
    (hm : ∀ prev s len repl, m prev s = some (len, repl) →
      1 ≤ len ∧ len ≤ s.length ∧ repl.length ≤ len) (s : Str) :
    (replAll m s).length ≤ s.length := by
  have := replGo_length m hm s 0 none
  simpa [replAll, Nat.zero_min] using this

theorem collapseWs_length (s : Str) : (collapseWs s).length ≤ s.length := by
  induction s with
  | nil => simp [collapseWs]
  | cons c cs ih =>
    by_cases hc : isWsChar c = true
    · cases cs with
      | nil => simp [collapseWs_singleton_ws c hc]
      | cons d ds =>
        by_cases hd : isWsChar d = true
        · rw [collapseWs_cons_ws_ws c d ds hc hd]
          simp only [List.length_cons] at ih ⊢
          omega
        · rw [collapseWs_cons_ws_neg c d ds hc (by simpa using hd)]
          simp only [List.length_cons] at ih ⊢
          omega
    · rw [collapseWs_cons_neg c cs (by simpa using hc)]
      simp only [List.length_cons]
      omega

theorem trimStr_length (s : Str) : (trimStr s).length ≤ s.length := by
  simp only [trimStr]
  have h1 : (List.dropWhile isWsChar s).length ≤ s.length :=
    (List.dropWhile_sublist _).length_le
  have h2 : (List.dropWhile isWsChar (List.dropWhile isWsChar s).reverse).length ≤
      (List.dropWhile isWsChar s).reverse.length :=
    (List.dropWhile_sublist _).length_le
  simp only [List.length_reverse] at h2 ⊢
  omega

theorem p1_ok : ∀ (prev : Option Char) (s : Str) (len : Nat) (repl : Str),
    p1Match prev s = some (len, repl) →
    1 ≤ len ∧ len ≤ s.length ∧ repl.length ≤ len := by
  intro prev s len repl h
  unfold p1Match at h
  by_cases hprev : optIsWord prev = true
  · rw [if_pos hprev] at h
    simp at h
  rw [if_neg hprev] at h
  rcases htw : takeWord s with ⟨w1, r1⟩
  rw [htw] at h
  dsimp only at h
  by_cases hw1 : w1.isEmpty = true
  · rw [if_pos hw1] at h
    simp at h
  rw [if_neg hw1] at h
  rcases hws : takeWs r1 with ⟨ws1, r2⟩
  rw [hws] at h
  dsimp only at h
  by_cases hws1 : ws1.isEmpty = true
  · rw [if_pos hws1] at h
    simp at h
  rw [if_neg hws1] at h
  cases hlit : litCIRest w1 r2 with
  | none =>
    rw [hlit] at h
    simp at h
  | some r3 =>
    rw [hlit] at h
    dsimp only at h
    by_cases hr3 : optIsWord r3.head? = true
    · rw [if_pos hr3] at h
      simp at h
    rw [if_neg hr3] at h
    have hinj : w1.length + ws1.length + w1.length = len ∧ w1 = repl := by
      simpa using h
    obtain ⟨hlen, hrepl⟩ := hinj
    have e1 := takeWord_len s w1 r1 htw
    have e2 := takeWs_len r1 ws1 r2 hws
    have e3 := litCIRest_length w1 r2 r3 hlit
    have e4 := not_isEmpty_len w1 hw1
    have e5 := not_isEmpty_len ws1 hws1
    subst hlen
    subst hrepl
    refine ⟨by omega, by omega, by omega⟩

theorem p2_ok : ∀ (prev : Option Char) (s : Str) (len : Nat) (repl : Str),
    p2Match prev s = some (len, repl) →
    1 ≤ len ∧ len ≤ s.length ∧ repl.length ≤ len := by
  intro prev s len repl h
  unfold p2Match at h
  by_cases hprev : optIsWord prev = true
  · rw [if_pos hprev] at h
    simp at h
  rw [if_neg hprev] at h
  rcases htw : takeWord s with ⟨w1, r1⟩
  rw [htw] at h
  dsimp only at h
  by_cases hw1 : w1.isEmpty = true
  · rw [if_pos hw1] at h
    simp at h
  rw [if_neg hw1] at h
  rcases hws : takeWs r1 with ⟨ws1, r2⟩
  rw [hws] at h
  dsimp only at h
  by_cases hws1 : ws1.isEmpty = true
  · rw [if_pos hws1] at h
    simp at h
  rw [if_neg hws1] at h
  rcases htw2 : takeWord r2 with ⟨w2, r3⟩
  rw [htw2] at h
  dsimp only at h
  by_cases hw2 : w2.isEmpty = true
  · rw [if_pos hw2] at h
    simp at h
  rw [if_neg hw2] at h
  rcases hws2 : takeWs r3 with ⟨ws2, r4⟩
  rw [hws2] at h
  dsimp only at h
  by_cases hws2e : ws2.isEmpty = true
  · rw [if_pos hws2e] at h
    simp at h
  rw [if_neg hws2e] at h
  cases hlit : litCIRest (w1 ++ ws1 ++ w2) r4 with
  | none =>
    rw [hlit] at h
    simp at h
  | some r5 =>
    rw [hlit] at h
    dsimp only at h
    by_cases hr5 : optIsWord r5.head? = true
    · rw [if_pos hr5] at h
      simp at h
    rw [if_neg hr5] at h
    have hinj : (w1 ++ ws1 ++ w2).length + ws2.length +
        (w1 ++ ws1 ++ w2).length = len ∧ w1 ++ ws1 ++ w2 = repl := by
      simpa using h
    obtain ⟨hlen, hrepl⟩ := hinj
    have e1 := takeWord_len s w1 r1 htw
    have e2 := takeWs_len r1 ws1 r2 hws
    have e3 := takeWord_len r2 w2 r3 htw2
    have e4 := takeWs_len r3 ws2 r4 hws2
    have e5 := litCIRest_length (w1 ++ ws1 ++ w2) r4 r5 hlit
    have e6 := not_isEmpty_len w1 hw1
    have hg : (w1 ++ ws1 ++ w2).length =
        w1.length + ws1.length + w2.length := by
      simp only [List.length_append]
    subst hlen
    subst hrepl
    refine ⟨by omega, by omega, by omega⟩

theorem p3_ok : ∀ (prev : Option Char) (s : Str) (len : Nat) (repl : Str),
    p3Match prev s = some (len, repl) →
    1 ≤ len ∧ len ≤ s.length ∧ repl.length ≤ len := by
  intro prev s len repl h
  unfold p3Match at h
  by_cases hprev : optIsWord prev = true
  · rw [if_pos hprev] at h
    simp at h
  rw [if_neg hprev] at h
  rcases htw : takeWord s with ⟨w1, r1⟩
  rw [htw] at h
  dsimp only at h
  by_cases hw1 : w1.isEmpty = true
  · rw [if_pos hw1] at h
    simp at h
  rw [if_neg hw1] at h
  rcases hws : takeWs r1 with ⟨ws1, r2⟩
  rw [hws] at h
  dsimp only at h
  by_cases hws1 : ws1.isEmpty = true
  · rw [if_pos hws1] at h
    simp at h
  rw [if_neg hws1] at h
  cases hlit : litCIRest w1 r2 with
  | none =>
    rw [hlit] at h
    simp at h
  | some r3 =>
    rw [hlit] at h
    dsimp only at h
    rcases hws2 : takeWs r3 with ⟨ws2, r4⟩
    rw [hws2] at h
    dsimp only at h
    by_cases hws2e : ws2.isEmpty = true
    · rw [if_pos hws2e] at h
      simp at h
    rw [if_neg hws2e] at h
    cases hlit2 : litCIRest w1 r4 with
    | none =>
      rw [hlit2] at h
      simp at h
    | some r5 =>
      rw [hlit2] at h
      dsimp only at h
      by_cases hr5 : optIsWord r5.head? = true
      · rw [if_pos hr5] at h
        simp at h
      rw [if_neg hr5] at h
      have hinj : 3 * w1.length + ws1.length + ws2.length = len ∧
          w1 = repl := by
        simpa using h
      obtain ⟨hlen, hrepl⟩ := hinj
      have e1 := takeWord_len s w1 r1 htw
      have e2 := takeWs_len r1 ws1 r2 hws
      have e3 := litCIRest_length w1 r2 r3 hlit
      have e4 := takeWs_len r3 ws2 r4 hws2
      have e5 := litCIRest_length w1 r4 r5 hlit2
      have e6 := not_isEmpty_len w1 hw1
      subst hlen
      subst hrepl
      refine ⟨by omega, by omega, by omega⟩

theorem p5_ok : ∀ (prev : Option Char) (s : Str) (len : Nat) (repl : Str),
    p5Match prev s = some (len, repl) →
    1 ≤ len ∧ len ≤ s.length ∧ repl.length ≤ len := by
  intro prev s len repl h
  unfold p5Match at h
  by_cases hprev : optIsWord prev = true
  · rw [if_pos hprev] at h
    simp at h
  rw [if_neg hprev] at h
  cases hfind : markerWords.find? fun m => (litCIRest m s).isSome with
  | none =>
    rw [hfind] at h
    simp at h
  | some m =>
    rw [hfind] at h
    dsimp only at h
    have hmlen : 1 ≤ m.length := by
      have hmem := List.mem_of_find?_eq_some hfind
      have hall : ∀ x ∈ markerWords, 1 ≤ x.length := by decide
      exact hall m hmem
    cases hlit : litCIRest m s with
    | none =>
      rw [hlit] at h
      simp at h
    | some r1 =>
      rw [hlit] at h
      dsimp only at h
      rcases hws : takeWs r1 with ⟨ws1, r2⟩
      rw [hws] at h
      dsimp only at h
      by_cases hws1 : ws1.isEmpty = true
      · rw [if_pos hws1] at h
        simp at h
      rw [if_neg hws1] at h
      cases hlit2 : litCIRest m r2 with
      | none =>
        rw [hlit2] at h
        simp at h
      | some r3 =>
        rw [hlit2] at h
        dsimp only at h
        by_cases hr3 : optIsWord r3.head? = true
        · rw [if_pos hr3] at h
          simp at h
        rw [if_neg hr3] at h
        have hinj : 2 * m.length + ws1.length = len ∧
            s.take m.length = repl := by
          simpa using h
        obtain ⟨hlen, hrepl⟩ := hinj
        have e1 := litCIRest_length m s r1 hlit
        have e2 := takeWs_len r1 ws1 r2 hws
        have e3 := litCIRest_length m r2 r3 hlit2
        have e4 : (s.take m.length).length ≤ m.length := by
          simp [List.length_take]
        subst hlen
        subst hrepl
        refine ⟨by omega, by omega, by omega⟩

theorem commaMatch_ok :
    ∀ (prev : Option Char) (s : Str) (len : Nat) (repl : Str),
      commaMatch prev s = some (len, repl) →
      1 ≤ len ∧ len ≤ s.length ∧ repl.length ≤ len := by
  intro prev s len repl h
  unfold commaMatch at h
  split at h
  · rename_i r1
    rcases hws : takeWs r1 with ⟨ws, r2⟩
    rw [hws] at h
    dsimp only at h
    rcases hcr : takeCommas r2 with ⟨cr, r3⟩
    rw [hcr] at h
    dsimp only at h
    by_cases hcre : cr.isEmpty = true
    · rw [if_pos hcre] at h
      simp at h
    rw [if_neg hcre] at h
    have hinj : 1 + ws.length + cr.length = len ∧ [','] = repl := by
      simpa using h
    obtain ⟨hlen, hrepl⟩ := hinj
    have e1 := takeWs_len r1 ws r2 hws
    have e2 := takeCommas_len r2 cr r3 hcr
    have e3 := not_isEmpty_len cr hcre
    subst hlen
    subst hrepl
    refine ⟨by omega, ?_, by simp; omega⟩
    simp only [List.length_cons]
    omega
  · simp at h

theorem p4_ok : ∀ (prev : Option Char) (s : Str) (len : Nat) (repl : Str),
    p4Match prev s = some (len, repl) →
    1 ≤ len ∧ len ≤ s.length ∧ repl.length ≤ len := by
  intro prev s len repl h
  unfold p4Match at h
  by_cases hprev : optIsWord prev = true
  · rw [if_pos hprev] at h
    simp at h
  rw [if_neg hprev] at h
  rcases htw : takeWord s with ⟨w1, r1⟩
  rw [htw] at h
  dsimp only at h
  by_cases hw1 : w1.isEmpty = true
  · rw [if_pos hw1] at h
    simp at h
  rw [if_neg hw1] at h
  split at h
  · rename_i r1'
    rcases hws0 : takeWs r1' with ⟨ws0, r2⟩
    rw [hws0] at h
    dsimp only at h
    cases hlitA : litCIRest w1 r2 with
    | none =>
      rw [hlitA] at h
      simp at h
    | some r3 =>
      rw [hlitA] at h
      dsimp only at h
      rcases hws1 : takeWs r3 with ⟨ws1, r4⟩
      rw [hws1] at h
      dsimp only at h
      by_cases hws1e : ws1.isEmpty = true
      · rw [if_pos hws1e] at h
        simp at h
      rw [if_neg hws1e] at h
      rcases htw2 : takeWord r4 with ⟨w2, r5⟩
      rw [htw2] at h
      dsimp only at h
      by_cases hw2 : w2.isEmpty = true
      · rw [if_pos hw2] at h
        simp at h
      rw [if_neg hw2] at h
      rcases hws2 : takeWs r5 with ⟨ws2, r6⟩
      rw [hws2] at h
      dsimp only at h
      by_cases hws2e : ws2.isEmpty = true
      · rw [if_pos hws2e] at h
        simp at h
      rw [if_neg hws2e] at h
      cases hlitB : litCIRest (str "after") r6 with
      | none =>
        rw [hlitB] at h
        simp at h
      | some r7 =>
        rw [hlitB] at h
        dsimp only at h
        rcases hws3 : takeWs r7 with ⟨ws3, r8⟩
        rw [hws3] at h
        dsimp only at h
        by_cases hws3e : ws3.isEmpty = true
        · rw [if_pos hws3e] at h
          simp at h
        rw [if_neg hws3e] at h
        cases hlitC : litCIRest w1 r8 with
        | none =>
          rw [hlitC] at h
          simp at h
        | some r9 =>
          rw [hlitC] at h
          dsimp only at h
          rcases hws4 : takeWs r9 with ⟨ws4, r10⟩
          rw [hws4] at h
          dsimp only at h
          by_cases hws4e : ws4.isEmpty = true
          · rw [if_pos hws4e] at h
            simp at h
          rw [if_neg hws4e] at h
          cases hlitD : litCIRest w2 r10 with
          | none =>
            rw [hlitD] at h
            simp at h
          | some r11 =>
            rw [hlitD] at h
            dsimp only at h
            rcases hws5 : takeWs r11 with ⟨ws5, r12⟩
            rw [hws5] at h
            dsimp only at h
            by_cases hws5e : ws5.isEmpty = true
            · rw [if_pos hws5e] at h
              simp at h
            rw [if_neg hws5e] at h
            cases hlitE : litCIRest w2 r12 with
            | none =>
              rw [hlitE] at h
              simp at h
            | some r13 =>
              rw [hlitE] at h
              dsimp only at h
              by_cases hr13 : optIsWord r13.head? = true
              · rw [if_pos hr13] at h
                simp at h
              rw [if_neg hr13] at h
              have hinj : 3 * w1.length + 3 * w2.length + 1 +
                  ws0.length + ws1.length + ws2.length + 5 +
                  ws3.length + ws4.length + ws5.length = len ∧
                  w1 ++ ' ' :: w2 = repl := by
                simpa using h
              obtain ⟨hlen, hrepl⟩ := hinj
              have e1 := takeWord_len s w1 _ htw
              simp only [List.length_cons] at e1
              have e2 := takeWs_len r1' ws0 r2 hws0
              have e3 := litCIRest_length w1 r2 r3 hlitA
              have e4 := takeWs_len r3 ws1 r4 hws1
              have e5 := takeWord_len r4 w2 r5 htw2
              have e6 := takeWs_len r5 ws2 r6 hws2
              have e7 := litCIRest_length (str "after") r6 r7 hlitB
              have e7b : (str "after").length = 5 := by decide
              have e8 := takeWs_len r7 ws3 r8 hws3
              have e9 := litCIRest_length w1 r8 r9 hlitC
              have e10 := takeWs_len r9 ws4 r10 hws4
              have e11 := litCIRest_length w2 r10 r11 hlitD
              have e12 := takeWs_len r11 ws5 r12 hws5
              have e13 := litCIRest_length w2 r12 r13 hlitE
              have e14 := not_isEmpty_len w1 hw1
              have e15 := not_isEmpty_len w2 hw2
              have hrlen : (w1 ++ ' ' :: w2).length =
                  w1.length + 1 + w2.length := by
                simp [List.length_append]
                omega
              subst hlen
              subst hrepl
              refine ⟨by omega, by omega, by omega⟩
  · simp at h

theorem p7_ok : ∀ (prev : Option Char) (s : Str) (len : Nat) (repl : Str),
    p7Match prev s = some (len, repl) →
    1 ≤ len ∧ len ≤ s.length ∧ repl.length ≤ len := by
  intro prev s len repl h
  unfold p7Match at h
  by_cases hprev : optIsWord prev = true
  · rw [if_pos hprev] at h
    simp at h
  rw [if_neg hprev] at h
  rcases htw : takeWord s with ⟨w1, r1⟩
  rw [htw] at h
  dsimp only at h
  by_cases hw1 : w1.isEmpty = true
  · rw [if_pos hw1] at h
    simp at h
  rw [if_neg hw1] at h
  split at h
  · rename_i r1'
    rcases hws0 : takeWs r1' with ⟨ws0, r2⟩
    rw [hws0] at h
    dsimp only at h
    cases hlitA : litCIRest w1 r2 with
    | none =>
      rw [hlitA] at h
      simp at h
    | some r3 =>
      rw [hlitA] at h
      dsimp only at h
      rcases hws1 : takeWs r3 with ⟨ws1, r4⟩
      rw [hws1] at h
      dsimp only at h
      by_cases hws1e : ws1.isEmpty = true
      · rw [if_pos hws1e] at h
        simp at h
      rw [if_neg hws1e] at h
      rcases htw2 : takeWord r4 with ⟨w2, r5⟩
      rw [htw2] at h
      dsimp only at h
      by_cases hw2 : w2.isEmpty = true
      · rw [if_pos hw2] at h
        simp at h
      rw [if_neg hw2] at h
      rcases hws2 : takeWs r5 with ⟨ws2, r6⟩
      rw [hws2] at h
      dsimp only at h
      by_cases hws2e : ws2.isEmpty = true
      · rw [if_pos hws2e] at h
        simp at h
      rw [if_neg hws2e] at h
      cases hlitB : litCIRest (str "after") r6 with
      | none =>
        rw [hlitB] at h
        simp at h
      | some r7 =>
        rw [hlitB] at h
        dsimp only at h
        rcases hws3 : takeWs r7 with ⟨ws3, r8⟩
        rw [hws3] at h
        dsimp only at h
        by_cases hws3e : ws3.isEmpty = true
        · rw [if_pos hws3e] at h
          simp at h
        rw [if_neg hws3e] at h
        cases hlitC : litCIRest w1 r8 with
        | none =>
          rw [hlitC] at h
          simp at h
        | some r9 =>
          rw [hlitC] at h
          dsimp only at h
          rcases hws4 : takeWs r9 with ⟨ws4, r10⟩
          rw [hws4] at h
          dsimp only at h
          by_cases hws4e : ws4.isEmpty = true
          · rw [if_pos hws4e] at h
            simp at h
          rw [if_neg hws4e] at h
          cases hlitD : litCIRest w2 r10 with
          | none =>
            rw [hlitD] at h
            simp at h
          | some r11 =>
            rw [hlitD] at h
            dsimp only at h
            have hinj : 3 * w1.length + 2 * w2.length + 1 +
                ws0.length + ws1.length + ws2.length + 5 +
                ws3.length + ws4.length = len ∧
                w1 ++ ' ' :: w2 = repl := by
              simpa using h
            obtain ⟨hlen, hrepl⟩ := hinj
            have e1 := takeWord_len s w1 _ htw
            simp only [List.length_cons] at e1
            have e2 := takeWs_len r1' ws0 r2 hws0
            have e3 := litCIRest_length w1 r2 r3 hlitA
            have e4 := takeWs_len r3 ws1 r4 hws1
            have e5 := takeWord_len r4 w2 r5 htw2
            have e6 := takeWs_len r5 ws2 r6 hws2
            have e7 := litCIRest_length (str "after") r6 r7 hlitB
            have e7b : (str "after").length = 5 := by decide
            have e8 := takeWs_len r7 ws3 r8 hws3
            have e9 := litCIRest_length w1 r8 r9 hlitC
            have e10 := takeWs_len r9 ws4 r10 hws4
            have e11 := litCIRest_length w2 r10 r11 hlitD
            have e14 := not_isEmpty_len w1 hw1
            have e15 := not_isEmpty_len w2 hw2
            have hrlen : (w1 ++ ' ' :: w2).length =
                w1.length + 1 + w2.length := by
              simp [List.length_append]
              omega
            subst hlen
            subst hrepl
            refine ⟨by omega, by omega, by omega⟩
  · simp at h

/-! ## Extractor duplicate-freedom -/

theorem toLowerChar_idem (c : Char) :
    toLowerChar (toLowerChar c) = toLowerChar c := by
  by_cases h : ('A' ≤ c && c ≤ 'Z') = true
  · have h1 : 65 ≤ c.toNat := by
      have := (Bool.and_eq_true _ _).mp h |>.1
      simpa [char_le_iff_toNat] using (decide_eq_true_eq.mp this)
    have h2 : c.toNat ≤ 90 := by
      have := (Bool.and_eq_true _ _).mp h |>.2
      simpa [char_le_iff_toNat] using (decide_eq_true_eq.mp this)
    have hu : (Char.ofNat (c.toNat + 32)).toNat = c.toNat + 32 :=
      toNat_ofNat_ascii _ (by omega) (by omega)
    have hcond2 : ('A' ≤ Char.ofNat (c.toNat + 32) &&
        Char.ofNat (c.toNat + 32) ≤ 'Z') = false := by
      apply Bool.and_eq_false_iff.mpr
      right
      apply decide_eq_false
      intro hle
      have := char_le_iff_toNat.mp hle
      rw [hu] at this
      change c.toNat + 32 ≤ 90 at this
      omega
    simp only [toLowerChar, h, if_true, hcond2, Bool.false_eq_true, if_false]
  · simp only [toLowerChar, h, Bool.false_eq_true, if_false]

theorem lowerStr_fix : ∀ (t : Str), (∀ c ∈ t, toLowerChar c = c) →
    lowerStr t = t := by
  intro t
  induction t with
  | nil => intro _; rfl
  | cons c cs ih =>
    intro h
    show toLowerChar c :: lowerStr cs = c :: cs
    rw [h c (by simp), ih (fun x hx => h x (by simp [hx]))]

theorem runsBy_chars_mem (p : Char → Bool) :
    ∀ (s : Str), ∀ t ∈ runsBy p s, ∀ c ∈ t, c ∈ s := by
  intro s
  induction s with
  | nil => simp [runsBy_nil]
  | cons c cs ih =>
    by_cases hc : p c = true
    · cases cs with
      | nil =>
        rw [runsBy_singleton_pos p c hc]
        intro t ht x hx
        simp only [List.mem_singleton] at ht
        subst ht
        simpa using hx
      | cons d ds =>
        by_cases hd : p d = true
        · rw [runsBy_cons_pos_pos p c d ds hc hd]
          obtain ⟨t0, ts0, ht⟩ := runsBy_head p d ds hd
          rw [ht]
          intro t htm x hx
          have ihm := ih
          rw [ht] at ihm
          simp only [List.mem_cons] at htm
          rcases htm with htm | htm
          · subst htm
            simp only [List.mem_cons] at hx
            rcases hx with hx | hx
            · simp [hx]
            · have := ihm (d :: t0) (by simp) x (List.mem_cons.mpr hx)
              simp [this]
          · have := ihm t (by simp [htm]) x hx
            simp [this]
        · rw [runsBy_cons_pos_neg p c d ds hc (by simpa using hd)]
          intro t htm x hx
          simp only [List.mem_cons] at htm
          rcases htm with htm | htm
          · subst htm
            simp only [List.mem_singleton] at hx
            simp [hx]
          · have := ih t htm x hx
            simp [this]
    · rw [runsBy_cons_neg p c cs (by simpa using hc)]
      intro t htm x hx
      have := ih t htm x hx
      simp [this]

theorem wordTokens_lower_fix (C : Str) :
    ∀ t ∈ wordTokens C, ∀ c ∈ t, toLowerChar c = c := by
  intro t ht c hc
  have hmem : c ∈ lowerStr C := runsBy_chars_mem isWordChar (lowerStr C) t ht c hc
  simp only [lowerStr, List.mem_map] at hmem
  obtain ⟨c0, _, hc0⟩ := hmem
  rw [← hc0]
  exact toLowerChar_idem c0

theorem bump_keys (k : Str) :
    ∀ (m : List (Str × Nat)),
      (bump m k).map Prod.fst =
        if k ∈ m.map Prod.fst then m.map Prod.fst
        else m.map Prod.fst ++ [k] := by
  intro m
  induction m with
  | nil => simp [bump]
  | cons e rest ih =>
    obtain ⟨k', n⟩ := e
    by_cases h : k' = k
    · subst h
      simp [bump]
    · simp only [bump, if_neg h, List.map_cons, ih]
      by_cases hm : k ∈ rest.map Prod.fst
      · rw [if_pos hm, if_pos (by simp [hm])]
      · rw [if_neg hm, if_neg (by simp [hm, Ne.symm h])]
        simp

theorem bump_keys_nodup (m : List (Str × Nat)) (k : Str)
    (h : (m.map Prod.fst).Nodup) : ((bump m k).map Prod.fst).Nodup := by
  rw [bump_keys]
  split_ifs with hc
  · exact h
  · refine List.Nodup.append h (List.nodup_singleton k) ?_
    intro a ha hb
    simp only [List.mem_singleton] at hb
    subst hb
    exact hc ha

theorem bump_keys_sub (m : List (Str × Nat)) (k : Str) :
    ∀ x ∈ (bump m k).map Prod.fst, x ∈ m.map Prod.fst ∨ x = k := by
  intro x hx
  rw [bump_keys] at hx
  split_ifs at hx with hc
  · exact Or.inl hx
  · simp only [List.mem_append, List.mem_singleton] at hx
    exact hx

theorem insDesc_perm (x : Str × Nat) :
    ∀ (l : List (Str × Nat)), (insDesc x l).Perm (x :: l) := by
  intro l
  induction l with
  | nil => simp [insDesc]
  | cons y ys ih =>
    simp only [insDesc]
    split_ifs
    · exact (ih.cons y).trans (List.Perm.swap x y ys)
    · exact List.Perm.refl _

theorem sortDesc_perm : ∀ (l : List (Str × Nat)), (sortDesc l).Perm l := by
  intro l
  induction l with
  | nil => simp [sortDesc]
  | cons x xs ih =>
    simp only [sortDesc]
    exact (insDesc_perm x (sortDesc xs)).trans (ih.cons x)

theorem singleWordCounts_nodup (ws : List Str) :
    ((singleWordCounts ws).map Prod.fst).Nodup := by
  unfold singleWordCounts
  have H : ∀ (l : List Str) (m : List (Str × Nat)),
      (m.map Prod.fst).Nodup →
      ((l.foldl (fun m w => if w.length > 3 && !isStop w then bump m w else m)
        m).map Prod.fst).Nodup := by
    intro l
    induction l with
    | nil => intro m h; exact h
    | cons w l' ih =>
      intro m h
      simp only [List.foldl_cons]
      by_cases hc : (w.length > 3 && !isStop w) = true
      · rw [if_pos hc]
        exact ih _ (bump_keys_nodup m w h)
      · rw [if_neg hc]
        exact ih _ h
  exact H ws [] (by simp)

theorem singleWordCounts_keys (ws : List Str) :
    ∀ x ∈ (singleWordCounts ws).map Prod.fst, x ∈ ws := by
  unfold singleWordCounts
  have H : ∀ (l : List Str) (m : List (Str × Nat)),
      ∀ x ∈ ((l.foldl
          (fun m w => if w.length > 3 && !isStop w then bump m w else m)
        m).map Prod.fst), x ∈ m.map Prod.fst ∨ x ∈ l := by
    intro l
    induction l with
    | nil => intro m x hx; exact Or.inl hx
    | cons w l' ih =>
      intro m x hx
      simp only [List.foldl_cons] at hx
      by_cases hc : (w.length > 3 && !isStop w) = true
      · rw [if_pos hc] at hx
        rcases ih _ x hx with h | h
        · rcases bump_keys_sub m w x h with h2 | h2
          · exact Or.inl h2
          · exact Or.inr (by simp [h2])
        · exact Or.inr (by simp [h])
      · rw [if_neg hc] at hx
        rcases ih _ x hx with h | h
        · exact Or.inl h
        · exact Or.inr (by simp [h])
  intro x hx
  rcases H ws [] x hx with h | h
  · simp at h
  · exact h

theorem phraseLoop_cons2 (w1 w2 : Str) (rest : List Str)
    (m : List (Str × Nat)) :
    phraseLoop (w1 :: w2 :: rest) m =
      phraseLoop (w2 :: rest)
        (let m1 := if phrase2OK w1 w2 then bump m (w1 ++ ' ' :: w2) else m
         match rest with
         | w3 :: _ =>
           if phrase3OK w1 w2 w3 then bump m1 (w1 ++ ' ' :: w2 ++ ' ' :: w3)
           else m1
         | [] => m1) := rfl

theorem phraseLoop_nodup :
    ∀ (ws : List Str) (m : List (Str × Nat)),
      (m.map Prod.fst).Nodup → ((phraseLoop ws m).map Prod.fst).Nodup := by
  intro ws
  induction ws with
  | nil => intro m h; exact h
  | cons w1 tail ih =>
    intro m h
    cases tail with
    | nil => exact h
    | cons w2 rest =>
      rw [phraseLoop_cons2]
      apply ih
      have h1 : ((if phrase2OK w1 w2 then bump m (w1 ++ ' ' :: w2)
          else m).map Prod.fst).Nodup := by
        split_ifs
        · exact bump_keys_nodup m _ h
        · exact h
      cases rest with
      | nil => exact h1
      | cons w3 rest' =>
        dsimp only
        set m1 := if phrase2OK w1 w2 then bump m (w1 ++ ' ' :: w2) else m
          with hm1
        split_ifs
        · exact bump_keys_nodup _ _ h1
        · exact h1

theorem phraseLoop_keys :
    ∀ (ws : List Str) (m : List (Str × Nat)),
      ∀ x ∈ (phraseLoop ws m).map Prod.fst,
        x ∈ m.map Prod.fst ∨ ' ' ∈ x := by
  intro ws
  induction ws with
  | nil => intro m x hx; exact Or.inl hx
  | cons w1 tail ih =>
    intro m x hx
    cases tail with
    | nil => exact Or.inl hx
    | cons w2 rest =>
      rw [phraseLoop_cons2] at hx
      rcases ih _ x hx with h | h
      · have h1 : ∀ z ∈ ((if phrase2OK w1 w2 then bump m (w1 ++ ' ' :: w2)
            else m).map Prod.fst), z ∈ m.map Prod.fst ∨ ' ' ∈ z := by
          intro z hz
          split_ifs at hz
          · rcases bump_keys_sub m _ z hz with h2 | h2
            · exact Or.inl h2
            · right
              rw [h2]
              simp
          · exact Or.inl hz
        cases rest with
        | nil => exact h1 x h
        | cons w3 rest' =>
          dsimp only at h
          set m1 := if phrase2OK w1 w2 then bump m (w1 ++ ' ' :: w2) else m
            with hm1
          split_ifs at h
          · rcases bump_keys_sub _ _ x h with h2 | h2
            · exact h1 x h2
            · right
              rw [h2]
              simp
          · exact h1 x h
      · exact Or.inr h

theorem phraseSuggestions_nodup (C : Str) :
    (phraseSuggestions C).Nodup := by
  unfold phraseSuggestions
  apply List.Nodup.sublist (List.take_sublist _ _)
  have hperm := (sortDesc_perm ((phraseLoop (wordTokens C) []).filter
    fun e => e.1.length > 8 && e.1.length < 35)).map Prod.fst
  apply hperm.nodup_iff.mpr
  apply List.Nodup.sublist ((List.filter_sublist _).map Prod.fst)
  exact phraseLoop_nodup (wordTokens C) [] (by simp)

theorem phraseSuggestions_space (C : Str) :
    ∀ x ∈ phraseSuggestions C, ' ' ∈ x := by
  unfold phraseSuggestions
  intro x hx
  have hx2 := List.mem_of_mem_take hx
  simp only [List.mem_map] at hx2
  obtain ⟨e, he, hex⟩ := hx2
  have hperm := sortDesc_perm ((phraseLoop (wordTokens C) []).filter
    fun e => e.1.length > 8 && e.1.length < 35)
  have he2 := hperm.mem_iff.mp he
  have he3 := List.mem_of_mem_filter he2
  have : e.1 ∈ (phraseLoop (wordTokens C) []).map Prod.fst := by
    simp only [List.mem_map]
    exact ⟨e, he3, rfl⟩
  rcases phraseLoop_keys (wordTokens C) [] e.1 this with h | h
  · simp at h
  · rw [← hex]
    exact h

theorem wordSuggestions_nodup (C : Str) : (wordSuggestions C).Nodup := by
  unfold wordSuggestions
  apply List.Nodup.sublist (List.take_sublist _ _)
  have hperm := (sortDesc_perm ((singleWordCounts (wordTokens C)).filter
    fun e => e.2 ≥ 1 && e.1.length > 5 && e.1.length < 15)).map Prod.fst
  apply hperm.nodup_iff.mpr
  apply List.Nodup.sublist ((List.filter_sublist _).map Prod.fst)
  exact singleWordCounts_nodup (wordTokens C)

theorem wordSuggestions_token (C : Str) :
    ∀ x ∈ wordSuggestions C, x ∈ wordTokens C := by
  unfold wordSuggestions
  intro x hx
  have hx2 := List.mem_of_mem_take hx
  simp only [List.mem_map] at hx2
  obtain ⟨e, he, hex⟩ := hx2
  have hperm := sortDesc_perm ((singleWordCounts (wordTokens C)).filter
    fun e => e.2 ≥ 1 && e.1.length > 5 && e.1.length < 15)
  have he2 := hperm.mem_iff.mp he
  have he3 := List.mem_of_mem_filter he2
  have : e.1 ∈ (singleWordCounts (wordTokens C)).map Prod.fst := by
    simp only [List.mem_map]
    exact ⟨e, he3, rfl⟩
  rw [← hex]
  exact singleWordCounts_keys (wordTokens C) e.1 this

theorem wordSuggestions_no_space (C : Str) :
    ∀ x ∈ wordSuggestions C, ' ' ∉ x := by
  intro x hx hsp
  have htok := wordSuggestions_token C x hx
  have := (runsBy_mem isWordChar (lowerStr C) x htok).2 ' ' hsp
  exact absurd this (by decide)

theorem map_id_of_fix {α : Type} (f : α → α) :
    ∀ (l : List α), (∀ x ∈ l, f x = x) → l.map f = l := by
  intro l
  induction l with
  | nil => intro _; rfl
  | cons a l' ih =>
    intro h
    simp only [List.map_cons]
    rw [h a (by simp), ih (fun x hx => h x (by simp [hx]))]

theorem phraseLoop_keys_chars :
    ∀ (ws : List Str) (m : List (Str × Nat)),
      (∀ w ∈ ws, ∀ c ∈ w, toLowerChar c = c) →
      (∀ x ∈ m.map Prod.fst, ∀ c ∈ x, toLowerChar c = c) →
      ∀ x ∈ (phraseLoop ws m).map Prod.fst, ∀ c ∈ x, toLowerChar c = c := by
  intro ws
  induction ws with
  | nil => intro m _ hm x hx; exact hm x hx
  | cons w1 tail ih =>
    intro m hws hm x hx
    cases tail with
    | nil => exact hm x hx
    | cons w2 rest =>
      rw [phraseLoop_cons2] at hx
      refine ih _ (fun w hw => hws w (List.mem_cons_of_mem w1 hw)) ?_ x hx
      intro y hy c hc
      have h1 : ∀ z ∈ ((if phrase2OK w1 w2 then bump m (w1 ++ ' ' :: w2)
          else m).map Prod.fst), ∀ c ∈ z, toLowerChar c = c := by
        intro z hz c hc
        split_ifs at hz
        · rcases bump_keys_sub m _ z hz with h2 | h2
          · exact hm z h2 c hc
          · rw [h2] at hc
            simp only [List.mem_append, List.mem_cons] at hc
            rcases hc with hc | hc | hc
            · exact hws w1 (by simp) c hc
            · rw [hc]; decide
            · exact hws w2 (by simp) c hc
        · exact hm z hz c hc
      cases rest with
      | nil => exact h1 y hy c hc
      | cons w3 rest' =>
        dsimp only at hy
        set m1 := if phrase2OK w1 w2 then bump m (w1 ++ ' ' :: w2) else m
          with hm1
        split_ifs at hy
        · rcases bump_keys_sub _ _ y hy with h2 | h2
          · exact h1 y h2 c hc
          · rw [h2] at hc
            simp only [List.mem_append, List.mem_cons] at hc
            rcases hc with (hc | hc | hc) | (hc | hc)
            · exact hws w1 (by simp) c hc
            · rw [hc]; decide
            · exact hws w2 (by simp) c hc
            · rw [hc]; decide
            · exact hws w3 (by simp) c hc
        · exact h1 y hy c hc

theorem freqSuggestions_lower_fix (C : Str) :
    ∀ x ∈ freqSuggestions C, lowerStr x = x := by
  intro x hx
  unfold freqSuggestions at hx
  rcases List.mem_append.mp hx with h | h
  · apply lowerStr_fix
    unfold phraseSuggestions at h
    have hx2 := List.mem_of_mem_take h
    simp only [List.mem_map] at hx2
    obtain ⟨e, he, hex⟩ := hx2
    have hperm := sortDesc_perm ((phraseLoop (wordTokens C) []).filter
      fun e => e.1.length > 8 && e.1.length < 35)
    have he2 := hperm.mem_iff.mp he
    have he3 := List.mem_of_mem_filter he2
    have hkey : e.1 ∈ (phraseLoop (wordTokens C) []).map Prod.fst := by
      simp only [List.mem_map]
      exact ⟨e, he3, rfl⟩
    rw [← hex]
    exact phraseLoop_keys_chars (wordTokens C) []
      (fun w hw => wordTokens_lower_fix C w hw) (by simp) e.1 hkey
  · apply lowerStr_fix
    exact wordTokens_lower_fix C x (wordSuggestions_token C x h)

/-- **C9** (amended): the spec promises the extractor never returns two
case-insensitively equal terms and always returns at least one suggestion;
the full extractor `extractCommonPhrases` violates both (see the
counterexample).  The amended guarantee that does hold: within the
frequency-derived portion of the output (the top phrase suggestions
followed by the top single-word suggestions, before the contextual
augmentation), no two terms are equal case-insensitively — lowercasing
every suggestion yields a duplicate-free list. -/
theorem freq_suggestions_nodup (C : Str) :
    ((freqSuggestions C).map lowerStr).Nodup := by
  rw [map_id_of_fix lowerStr (freqSuggestions C) (freqSuggestions_lower_fix C)]
  unfold freqSuggestions
  refine List.Nodup.append (phraseSuggestions_nodup C)
    (wordSuggestions_nodup C) ?_
  intro a ha hb
  exact wordSuggestions_no_space C a hb (phraseSuggestions_space C a ha)

/-! ## Score bounds -/

theorem lengthScoreOf_bounds (C : Str) :
    5 ≤ lengthScoreOf C ∧ lengthScoreOf C ≤ 25 := by
  unfold lengthScoreOf
  dsimp only
  split_ifs <;> norm_num

theorem paraScoreOf_bounds (C : Str) :
    8 ≤ paraScoreOf C ∧ paraScoreOf C ≤ 20 := by
  unfold paraScoreOf
  split_ifs <;> norm_num

theorem keywordScoreOf_bounds (C : Str) (api : List Str) :
    5 ≤ keywordScoreOf C api ∧ keywordScoreOf C api ≤ 20 := by
  unfold keywordScoreOf
  dsimp only
  split_ifs <;> norm_num

theorem presenceBonusOf_bounds (C : Str) (api : List Str) :
    0 ≤ presenceBonusOf C api ∧ presenceBonusOf C api ≤ 15 := by
  unfold presenceBonusOf
  constructor
  · exact le_min (by positivity) (by norm_num)
  · exact min_le_right _ _

theorem qualityBonusOf_bounds (C : Str) :
    0 ≤ qualityBonusOf C ∧ qualityBonusOf C ≤ 10 := by
  unfold qualityBonusOf
  constructor
  · exact le_min (by positivity) (by norm_num)
  · exact min_le_right _ _

theorem readScoreOf_bounds (C : Str) :
    8 ≤ readScoreOf C ∧ readScoreOf C ≤ 20 := by
  unfold readScoreOf
  dsimp only
  split_ifs <;> norm_num

theorem balanceBonusOf_bounds (C : Str) (api : List Str) :
    0 ≤ balanceBonusOf C api ∧ balanceBonusOf C api ≤ 5 := by
  unfold balanceBonusOf
  split_ifs <;> norm_num

theorem structScoreOf_bounds (C : Str) :
    0 ≤ structScoreOf C ∧ structScoreOf C ≤ 15 := by
  unfold structScoreOf
  dsimp only
  split_ifs <;> norm_num

theorem optBonusOf_bounds (C : Str) (api : List Str) :
    0 ≤ optBonusOf C api ∧ optBonusOf C api ≤ 10 := by
  unfold optBonusOf
  constructor
  · exact le_min (by split_ifs <;> norm_num) (by norm_num)
  · exact min_le_right _ _

theorem readabilityScoreOf_bounds (C : Str) :
    0 ≤ readabilityScoreOf C ∧ readabilityScoreOf C ≤ 100 := by
  unfold readabilityScoreOf
  exact ⟨le_max_left 0 _, max_le (by norm_num) (min_le_left _ _)⟩

theorem seoScoreOf_bounds (C : Str) (api : List Str) :
    0 ≤ seoScoreOf C api ∧ seoScoreOf C api ≤ 100 := by
  unfold seoScoreOf
  constructor
  · apply le_min (by norm_num)
    have h1 := lengthScoreOf_bounds C
    have h2 := paraScoreOf_bounds C
    have h3 := keywordScoreOf_bounds C api
    have h4 := presenceBonusOf_bounds C api
    have h5 := qualityBonusOf_bounds C
    have h6 := readScoreOf_bounds C
    have h7 := balanceBonusOf_bounds C api
    have h8 := structScoreOf_bounds C
    have h9 := optBonusOf_bounds C api
    omega
  · exact min_le_left _ _

/-! ## Claim theorems -/

theorem gate_of_keywordOccurs (C K : Str) (h : keywordOccurs K C) :
    gateSkip C K = true := by
  unfold keywordOccurs at h
  simp only [gateSkip]
  by_cases hsp : K.contains ' ' = true
  · rw [if_pos hsp] at h
    rw [if_pos hsp, h]
    simp
  · rw [if_neg hsp] at h
    rw [if_neg hsp]
    exact h

theorem gate_of_BOcc (C K : Str) (hK : canonicalKW K) (h : BOcc K C) :
    gateSkip C K = true := by
  simp only [gateSkip]
  by_cases hsp : K.contains ' ' = true
  · rw [if_pos hsp]
    apply Bool.or_eq_true_iff.mpr
    left
    rw [(canonical_shape K hK).2.2.2]
    obtain ⟨P, M, Q, hD, hM, _, _⟩ := h
    rw [hD, strContains_iff]
    exact ⟨lowerStr P, lowerStr Q, by
      rw [← hM]
      simp [lowerStr_append]⟩
  · rw [if_neg hsp]
    obtain ⟨hKne, hhead, hlast, _⟩ := canonical_shape K hK
    exact testBoundary_of_occ K C hKne hhead hlast h

theorem insert_of_gate (C K : Str) (b : Bool) (h : gateSkip C K = true) :
    insertKeywordIntelligently C K none b = C := by
  unfold insertKeywordIntelligently
  exact if_pos h

/-- C1 (amended): for a canonical keyword `K` (non-empty words of word
characters joined by single spaces), if `K` already occurs in `C` in the
claim's sense (`keywordOccurs`: case-insensitive word-boundary match when
single-word, case-insensitive substring match when multi-word), the single
insertion returns `C` unchanged; and insertion is idempotent — a second
call on the output is a no-op regardless of either call's random draw.
The original unconditional claim fails for non-word keywords such as
`"c++"` (see the counterexample). -/
theorem insert_gate_and_idempotent (C K : Str) (c1 c2 : Bool)
    (hK : canonicalKW K) :
    (keywordOccurs K C → insertKeywordIntelligently C K none c1 = C) ∧
    insertKeywordIntelligently (insertKeywordIntelligently C K none c1) K
        none c2 =
      insertKeywordIntelligently C K none c1 := by
  constructor
  · intro hocc
    exact insert_of_gate C K c1 (gate_of_keywordOccurs C K hocc)
  · by_cases hg : gateSkip C K = true
    · rw [insert_of_gate C K c1 hg, insert_of_gate C K c2 hg]
    · have hg' : gateSkip C K = false := by
        cases hb : gateSkip C K with
        | false => rfl
        | true => exact absurd hb hg
      have hB := insert_shape C K c1 hK hg'
      exact insert_of_gate _ K c2 (gate_of_BOcc _ K hK hB)

/-- Witness for C1 at a concrete canonical keyword and content. -/
theorem insert_gate_and_idempotent_witness :
    canonicalKW (str "wolf pack") ∧
    ((keywordOccurs (str "wolf pack")
        (str "Zebras running fast. Lions hunt at night.") →
      insertKeywordIntelligently
        (str "Zebras running fast. Lions hunt at night.") (str "wolf pack")
        none false =
        str "Zebras running fast. Lions hunt at night.") ∧
    insertKeywordIntelligently
        (insertKeywordIntelligently
          (str "Zebras running fast. Lions hunt at night.")
          (str "wolf pack") none false) (str "wolf pack") none true =
      insertKeywordIntelligently
        (str "Zebras running fast. Lions hunt at night.") (str "wolf pack")
        none false) :=
  ⟨by decide, insert_gate_and_idempotent
    (str "Zebras running fast. Lions hunt at night.") (str "wolf pack")
    false true (by decide)⟩

/-- C2 (amended): for a canonical keyword `K`, whenever the single
insertion is not skipped (its output differs from the input), a
case-insensitive word-boundary search for `K`'s full phrase succeeds
against the *insertion output* — before the repetition-cleanup pass.  The
original claim, which asserts this of the endpoint's returned content
after cleanup, fails (see the counterexample). -/
theorem insert_boundary_before_cleanup (C K : Str) (coin : Bool)
    (hK : canonicalKW K)
    (hne : insertKeywordIntelligently C K none coin ≠ C) :
    testBoundary K (insertKeywordIntelligently C K none coin) = true := by
  have hg : gateSkip C K = false := by
    cases hb : gateSkip C K with
    | false => rfl
    | true => exact absurd (insert_of_gate C K coin hb) hne
  obtain ⟨hKne, hhead, hlast, _⟩ := canonical_shape K hK
  exact testBoundary_of_occ K _ hKne hhead hlast
    (insert_shape C K coin hK hg)

theorem getD_eq_getElem {α : Type} (l : List α) :
    ∀ (i : Nat) (d : α) (hi : i < l.length), l.getD i d = l.get ⟨i, hi⟩ := by
  induction l with
  | nil => intro i d hi; simp at hi
  | cons a as ih =>
    intro i d hi
    cases i with
    | zero => rfl
    | succ j => exact ih j d (by simpa using hi)

/-- C3 (amended): for whitespace-normalized content and a canonical
keyword, the *insertion step itself* (before the endpoint's repetition
cleanup) never decreases length, strictly increasing it when it is not a
no-op.  The original claim, which includes the cleanup pass, fails: the
cleanup can shrink content (see the counterexample). -/
theorem insert_length_monotone (C K : Str) (coin : Bool) (hC : wsNorm C)
    (hK : canonicalKW K) :
    C.length ≤ (insertKeywordIntelligently C K none coin).length ∧
    (insertKeywordIntelligently C K none coin ≠ C →
      C.length < (insertKeywordIntelligently C K none coin).length) := by
  by_cases hg : gateSkip C K = true
  · rw [insert_of_gate C K coin hg]
    exact ⟨le_rfl, fun h => absurd rfl h⟩
  · have hg' : gateSkip C K = false := by
      cases hb : gateSkip C K with
      | false => rfl
      | true => exact absurd hb hg
    have hmain : insertKeywordIntelligently C K none coin =
        if (sentSplit C).isEmpty then K ++ '.' :: ' ' :: C
        else insertAuto (sentSplit C) K C coin := by
      unfold insertKeywordIntelligently
      rw [if_neg (by simp [hg'])]
    by_cases hCnil : C = []
    · subst hCnil
      rw [hmain, if_pos (by decide)]
      constructor
      · simp
      · intro _
        have hlen : (K ++ '.' :: ' ' :: ([] : Str)).length = K.length + 2 := by
          simp
        simp only [List.length_nil, hlen]
        omega
    · have hCt := wsNorm_tokens C hC
      have hWne : wsTokens C ≠ [] := by
        intro h
        rw [h] at hCt
        exact hCnil hCt.symm
      have hpieces := sentSplit_wsNorm_pieces C hC hCnil
      have hGne : groupSent (wsTokens C) ≠ [] := groupSent_ne_nil _ hWne
      have hsne : sentSplit C ≠ [] := by
        rw [hpieces]
        intro h
        apply hGne
        simpa using h
      rw [hmain, if_neg (by rw [List.isEmpty_iff]; exact hsne)]
      set sentences := sentSplit C with hsent
      set idx := findOptimalInsertionPosition sentences K C with hidx
      have hlt : idx < sentences.length := findOptimal_lt _ K C hsne
      set G := groupSent (wsTokens C) with hG
      have hsent2 : sentences = G.map joinSp := hpieces
      have hidxG : idx < G.length := by
        have h2 := hlt
        rw [hsent2, List.length_map] at h2
        exact h2
      set g := G.get ⟨idx, hidxG⟩ with hgdef
      have hgmem : g ∈ G := by
        rw [hgdef]
        first
          | exact List.get_mem G ⟨idx, hidxG⟩
          | exact List.get_mem G idx hidxG
      have hggood : ∀ w ∈ g, w ≠ [] ∧ ∀ c ∈ w, isWsChar c = false :=
        fun w hw => wsTokens_good C w ((groupSent_mem _ g hgmem).2 w hw)
      have hgne : g ≠ [] := (groupSent_mem _ g hgmem).1
      have hs_idx : sentences.getD idx [] = joinSp g := by
        rw [getD_eq_getElem sentences idx [] hlt]
        simp only [List.get_eq_getElem]
        simp only [hsent2, List.getElem_map]
        rw [hgdef]
        rfl
      have hwords : splitOnSpace (sentences.getD idx []) = g := by
        rw [hs_idx]
        exact splitOnSpace_joinSp g
          (fun w hw hsp =>
            absurd ((hggood w hw).2 ' ' hsp) (by decide)) hgne
      set pos := findBestWordPosition g K with hpos
      obtain ⟨Pre, Core, hsplit, hmap, hgoodPC⟩ :=
        spliceBlock_shape g K pos coin (canonical_good K hK)
      set B := spliceBlock g K pos coin with hBdef
      have hBgood : GoodWordList B := by rw [hsplit]; exact hgoodPC
      have hlistgood : ∀ w ∈ (g.take pos ++ B ++ g.drop pos),
          w ≠ [] ∧ ∀ c ∈ w, isWsChar c = false := by
        intro w hw
        simp only [List.mem_append] at hw
        rcases hw with (hw | hw) | hw
        · exact hggood w (List.take_subset pos g hw)
        · exact good_no_ws B hBgood w hw
        · exact hggood w (List.drop_subset pos g hw)
      have hR : insertAuto sentences K C coin =
          joinSp (sentences.set idx (createNaturalInsertion g K pos coin)) := by
        unfold insertAuto insertKeywordInSentence
        rw [← hidx, hwords]
      set new := createNaturalInsertion g K pos coin with hnewdef
      have hnew : new = joinSp (g.take pos ++ B ++ g.drop pos) := by
        rw [hnewdef]
        unfold createNaturalInsertion
        rw [← hBdef, trimCollapse, wsTokens_joinSp _ hlistgood]
      have hBne : B ≠ [] := hBgood.1
      obtain ⟨b0, brest, hb0⟩ := List.exists_cons_of_ne_nil hBne
      have hb0ne : b0 ≠ [] := (hBgood.2 b0 (by rw [hb0]; simp)).1
      have hsB : 1 ≤ (B.map List.length).sum := by
        rw [hb0]
        simp only [List.map_cons, List.sum_cons]
        have : 0 < b0.length := List.length_pos.mpr hb0ne
        omega
      have hB1 : 1 ≤ B.length := by rw [hb0]; simp
      have htdsum : ((g.take pos).map List.length).sum +
          ((g.drop pos).map List.length).sum = (g.map List.length).sum := by
        have h2 := congrArg (fun l => (List.map List.length l).sum)
          (List.take_append_drop pos g)
        simp only [List.map_append, List.sum_append] at h2
        exact h2
      have htdlen : (g.take pos).length + (g.drop pos).length = g.length := by
        simp only [List.length_take, List.length_drop]
        omega
      have hfullne : g.take pos ++ B ++ g.drop pos ≠ [] := by
        rw [hb0]
        simp
      have hg1 : 1 ≤ g.length := by
        have := List.length_pos.mpr hgne
        omega
      have hlen_new : new.length =
          (joinSp g).length + ((B.map List.length).sum + B.length) := by
        rw [hnew, joinSp_length _ hfullne, joinSp_length g hgne]
        simp only [List.map_append, List.sum_append, List.length_append]
        omega
      have hgel : sentences.get ⟨idx, hlt⟩ = joinSp g := by
        simp only [List.get_eq_getElem]
        simp only [hsent2, List.getElem_map]
        rw [hgdef]
        rfl
      have hdropdec : sentences.drop idx =
          (joinSp g) :: sentences.drop (idx + 1) := by
        rw [← hgel]
        first
          | exact List.drop_eq_getElem_cons hlt
          | exact (List.get_cons_drop sentences ⟨idx, hlt⟩).symm
      have hsdec : sentences =
          sentences.take idx ++ (joinSp g) :: sentences.drop (idx + 1) := by
        conv_lhs => rw [← List.take_append_drop idx sentences]
        rw [hdropdec]
      have hsetdec : sentences.set idx new =
          sentences.take idx ++ new :: sentences.drop (idx + 1) :=
        set_eq_take_cons_drop sentences idx new hlt
      have hCjoin : joinSp sentences = C := by
        rw [hsent]
        exact joinSp_sentSplit C hC hCnil
      have e1 := congrArg List.length
        (joinSp_decomp (sentences.take idx) new (sentences.drop (idx + 1)))
      have e2 := congrArg List.length
        (joinSp_decomp (sentences.take idx) (joinSp g)
          (sentences.drop (idx + 1)))
      simp only [List.length_append] at e1 e2
      have hClen : (joinSp (sentences.take idx ++
          (joinSp g) :: sentences.drop (idx + 1))).length = C.length := by
        rw [← hsdec]
        exact congrArg List.length hCjoin
      have hfin : C.length + 2 ≤ (insertAuto sentences K C coin).length := by
        rw [hR, hsetdec]
        omega
      exact ⟨by omega, fun _ => by omega⟩

/-! ## Syllable chunk counting -/

theorem vowelChunks_cons_neg (c : Char) (cs : Str) (h : isVowelY c = false) :
    vowelChunks (c :: cs) = vowelChunks cs := by
  cases cs <;> simp [vowelChunks, h]

theorem vowelChunks_single (c : Char) (h : isVowelY c = true) :
    vowelChunks [c] = 1 := by
  simp [vowelChunks, h]

theorem vowelChunks_two (c d : Char) (ds : Str) (hc : isVowelY c = true)
    (hd : isVowelY d = true) :
    vowelChunks (c :: d :: ds) = 1 + vowelChunks ds := by
  conv_lhs => rw [vowelChunks]
  simp [hc, hd]
  omega

theorem vowelChunks_pos_neg (c d : Char) (ds : Str) (hc : isVowelY c = true)
    (hd : isVowelY d = false) :
    vowelChunks (c :: d :: ds) = 1 + vowelChunks (d :: ds) := by
  conv_lhs => rw [vowelChunks]
  simp [hc, hd]
  omega

theorem vowelChunks_run_append :
    ∀ (n : Nat) (w rest : Str), w.length ≤ n → w ≠ [] →
      (∀ c ∈ w, isVowelY c = true) →
      (rest = [] ∨ isVowelY (rest.headD 'b') = false) →
      vowelChunks (w ++ rest) = (w.length + 1) / 2 + vowelChunks rest := by
  intro n
  induction n with
  | zero =>
    intro w rest hlen hne _ _
    cases w with
    | nil => exact absurd rfl hne
    | cons c cs => simp at hlen
  | succ n ih =>
    intro w rest hlen hne hall hrest
    cases w with
    | nil => exact absurd rfl hne
    | cons c w' =>
      have hc : isVowelY c = true := hall c (by simp)
      cases w' with
      | nil =>
        cases rest with
        | nil =>
          rw [List.append_nil, vowelChunks_single c hc]
          norm_num [vowelChunks]
        | cons d ds =>
          have hd : isVowelY d = false := by
            rcases hrest with h | h
            · simp at h
            · simpa using h
          rw [List.singleton_append, vowelChunks_pos_neg c d ds hc hd]
          simp
      | cons d w'' =>
        have hd : isVowelY d = true := hall d (by simp)
        rw [show ((c :: d :: w'') ++ rest) = c :: d :: (w'' ++ rest) by simp,
          vowelChunks_two c d (w'' ++ rest) hc hd]
        cases hw'' : w'' with
        | nil =>
          simp only [List.nil_append, List.length_cons, List.length_nil]
        | cons f w3 =>
          have hw''ne : w'' ≠ [] := by rw [hw'']; simp
          rw [← hw'']
          have hrec := ih w'' rest (by
            simp only [List.length_cons] at hlen
            omega) hw''ne
            (fun x hx => hall x (by simp [hx])) hrest
          rw [hrec]
          simp only [List.length_cons]
          omega

theorem vowelChunks_runs (s : Str) :
    vowelChunks s =
      ((runsBy isVowelY s).map fun r => (r.length + 1) / 2).sum := by
  have H : ∀ (n : Nat) (s : Str), s.length ≤ n →
      vowelChunks s =
        ((runsBy isVowelY s).map fun r => (r.length + 1) / 2).sum := by
    intro n
    induction n with
    | zero =>
      intro s hs
      cases s with
      | nil => rfl
      | cons c cs => simp at hs
    | succ n ih =>
      intro s hs
      cases s with
      | nil => rfl
      | cons c cs =>
        by_cases hc : isVowelY c = true
        · set w := List.takeWhile isVowelY (c :: cs) with hw
          set rest := List.dropWhile isVowelY (c :: cs) with hrest
          have hsplit : w ++ rest = c :: cs := by
            rw [hw, hrest]
            exact List.takeWhile_append_dropWhile _ _
          have hwne : w ≠ [] := by
            rw [hw, List.takeWhile_cons_of_pos hc]
            simp
          have hwall : ∀ x ∈ w, isVowelY x = true := by
            intro x hx
            exact List.mem_takeWhile_imp hx
          have hrestlen : rest.length ≤ n := by
            have h1 : w.length + rest.length = (c :: cs).length := by
              rw [← List.length_append, hsplit]
            have h2 : 0 < w.length := List.length_pos.mpr hwne
            simp only [List.length_cons] at h1 hs
            omega
          have hresthead : rest = [] ∨ isVowelY (rest.headD 'b') = false := by
            cases hrc : rest with
            | nil => exact Or.inl rfl
            | cons d ds =>
              right
              have := dropWhile_head_false (c :: cs) d ds
                (by rw [← hrest, hrc])
              simpa using this
          rw [← hsplit, vowelChunks_run_append w.length w rest le_rfl hwne
            hwall hresthead,
            runsBy_word_append _ w rest hwne hwall ?_]
          · rw [List.map_cons, List.sum_cons, ih rest hrestlen]
          · rcases hresthead with h | h
            · exact Or.inl h
            · cases hrc : rest with
              | nil => exact Or.inl rfl
              | cons d ds =>
                rw [hrc] at h
                exact Or.inr ⟨d, ds, rfl, by simpa using h⟩
        · have hc' : isVowelY c = false := by simpa using hc
          rw [vowelChunks_cons_neg c cs hc', runsBy_cons_neg _ c cs hc']
          exact ih cs (by simpa using hs)
  exact H s.length s le_rfl

/-- C7 (amended): on the normal analysis path both scores are integers (the
model's codomain is `ℤ`) within `[0, 100]`; on the enrichment-unavailable
fallback path the SEO score is an integer in `[0, 100]`, but the fallback
readability value is only clamped to `[60, 90]` and is *not* rounded to an
integer (see the counterexample at 123 words). -/
theorem score_bounds_all_paths (C : Str) (api : List Str) :
    (0 ≤ readabilityScoreOf C ∧ readabilityScoreOf C ≤ 100) ∧
    (0 ≤ seoScoreOf C api ∧ seoScoreOf C api ≤ 100) ∧
    (0 ≤ fallbackSeo C ∧ fallbackSeo C ≤ 100) ∧
    ((60 : ℚ) ≤ fallbackReadability C ∧ fallbackReadability C ≤ 90) := by
  refine ⟨readabilityScoreOf_bounds C, seoScoreOf_bounds C api, ?_, ?_⟩
  · unfold fallbackSeo
    split_ifs <;> norm_num
  · unfold fallbackReadability
    exact ⟨le_max_left 60 _, max_le (by norm_num) (min_le_left _ _)⟩

/-- C8 (amended): the syllable estimator is total and deterministic (it is
a function), always returns at least 1, returns 1 when the lowercased word
has at most 3 characters, and otherwise — after the silent-ending strip
and the leading-`y` strip — counts each maximal vowel run of length `L` as
`⌈L/2⌉` (the greedy `[aeiouy]{1,2}` chunk count), floored at 1.  The
spec's "each maximal run counts as exactly one syllable" is wrong for runs
longer than two vowels (see the counterexample). -/
theorem estimateSyllables_characterization (w : Str) :
    1 ≤ estimateSyllables w ∧
    estimateSyllables w =
      if (lowerStr w).length ≤ 3 then 1
      else syllableChunkSpec (stripLeadY (stripSilent (lowerStr w))) := by
  have hv := vowelChunks_runs (stripLeadY (stripSilent (lowerStr w)))
  constructor
  · simp only [estimateSyllables]
    split_ifs with h1 h2 <;> omega
  · simp only [estimateSyllables, syllableChunkSpec, vowelRunLens,
      List.map_map, Function.comp]
    rw [hv]
    have hfun : ((fun L => (L + 1) / 2) ∘ List.length :
        List Char → Nat) = fun r : List Char => (r.length + 1) / 2 := rfl
    rw [hfun]

/-- C10: the repetition-cleanup pass never increases length.  Each of the
seven global-replace passes substitutes text no longer than its match, the
whitespace collapse maps every run to a single space, and the final trim
only removes characters. -/
theorem cleanup_length_le (s : Str) :
    (cleanupRepetitions s).length ≤ s.length := by
  unfold cleanupRepetitions
  exact le_trans (trimStr_length _)
    (le_trans (replAll_length p7Match p7_ok _)
      (le_trans (collapseWs_length _)
        (le_trans (replAll_length commaMatch commaMatch_ok _)
          (le_trans (replAll_length p5Match p5_ok _)
            (le_trans (replAll_length p4Match p4_ok _)
              (le_trans (replAll_length p3Match p3_ok _)
                (le_trans (replAll_length p2Match p2_ok _)
                  (replAll_length p1Match p1_ok s))))))))

theorem bulkGo_cons_eq (coins : Nat → Bool) (i : Nat) (cur k : Str)
    (rest : List Str) :
    bulkGo coins i cur (k :: rest) =
      if bulkGateSkip cur k then
        ((bulkGo coins (i + 1) cur rest).1,
         (bulkGo coins (i + 1) cur rest).2.1,
         k :: (bulkGo coins (i + 1) cur rest).2.2)
      else if (insertKeywordIntelligently cur k none (coins i)).length >
          cur.length then
        if !hasImmediateRep ((splitOnSpace (lowerStr (trimStr k))).headD [])
            (insertKeywordIntelligently cur k none (coins i)) then
          ((bulkGo coins (i + 1)
              (insertKeywordIntelligently cur k none (coins i)) rest).1,
           k :: (bulkGo coins (i + 1)
              (insertKeywordIntelligently cur k none (coins i)) rest).2.1,
           (bulkGo coins (i + 1)
              (insertKeywordIntelligently cur k none (coins i)) rest).2.2)
        else
          ((bulkGo coins (i + 1) cur rest).1,
           (bulkGo coins (i + 1) cur rest).2.1,
           k :: (bulkGo coins (i + 1) cur rest).2.2)
      else
        ((bulkGo coins (i + 1) cur rest).1,
         (bulkGo coins (i + 1) cur rest).2.1,
         k :: (bulkGo coins (i + 1) cur rest).2.2) := rfl

theorem bulkGo_eq (coins : Nat → Bool) (i : Nat) (cur k : Str)
    (rest : List Str) :
    bulkGo coins i cur (k :: rest) =
      if bulkAccept cur k (coins i) then
        ((bulkGo coins (i + 1) (bulkNext cur k (coins i)) rest).1,
         k :: (bulkGo coins (i + 1) (bulkNext cur k (coins i)) rest).2.1,
         (bulkGo coins (i + 1) (bulkNext cur k (coins i)) rest).2.2)
      else
        ((bulkGo coins (i + 1) (bulkNext cur k (coins i)) rest).1,
         (bulkGo coins (i + 1) (bulkNext cur k (coins i)) rest).2.1,
         k :: (bulkGo coins (i + 1) (bulkNext cur k (coins i)) rest).2.2) := by
  by_cases h1 : bulkGateSkip cur k = true
  · have hacc : bulkAccept cur k (coins i) = false := by
      simp [bulkAccept, h1]
    have hnext : bulkNext cur k (coins i) = cur := by
      simp [bulkNext, hacc]
    rw [bulkGo_cons_eq, if_pos h1, hnext,
      if_neg (show ¬ bulkAccept cur k (coins i) = true by rw [hacc]; simp)]
  · have h1' : bulkGateSkip cur k = false := by
      cases hb : bulkGateSkip cur k with
      | false => rfl
      | true => exact absurd hb h1
    by_cases h2 : (insertKeywordIntelligently cur k none (coins i)).length >
        cur.length
    · by_cases h3 : hasImmediateRep
          ((splitOnSpace (lowerStr (trimStr k))).headD [])
          (insertKeywordIntelligently cur k none (coins i)) = true
      · have hacc : bulkAccept cur k (coins i) = false := by
          unfold bulkAccept
          rw [h3]
          simp
        have hnext : bulkNext cur k (coins i) = cur := by
          simp [bulkNext, hacc]
        rw [bulkGo_cons_eq, if_neg h1, if_pos h2,
          if_neg (show ¬ (!hasImmediateRep _ _) = true by rw [h3]; simp),
          hnext,
          if_neg (show ¬ bulkAccept cur k (coins i) = true by rw [hacc]; simp)]
      · have h3' : hasImmediateRep
            ((splitOnSpace (lowerStr (trimStr k))).headD [])
            (insertKeywordIntelligently cur k none (coins i)) = false := by
          cases hb : hasImmediateRep
            ((splitOnSpace (lowerStr (trimStr k))).headD [])
            (insertKeywordIntelligently cur k none (coins i)) with
          | false => rfl
          | true => exact absurd hb h3
        have hacc : bulkAccept cur k (coins i) = true := by
          unfold bulkAccept
          rw [h1', h3']
          simp [h2]
        have hnext : bulkNext cur k (coins i) =
            insertKeywordIntelligently cur k none (coins i) := by
          simp [bulkNext, hacc]
        rw [bulkGo_cons_eq, if_neg h1, if_pos h2,
          if_pos (show (!hasImmediateRep _ _) = true by rw [h3']; rfl),
          hnext, if_pos hacc]
    · have hacc : bulkAccept cur k (coins i) = false := by
        simp only [bulkAccept, Bool.and_eq_false_iff]
        right
        left
        simpa using h2
      have hnext : bulkNext cur k (coins i) = cur := by
        simp [bulkNext, hacc]
      rw [bulkGo_cons_eq, if_neg h1, if_neg h2, hnext,
        if_neg (show ¬ bulkAccept cur k (coins i) = true by rw [hacc]; simp)]

theorem bulkGo_partition (coins : Nat → Bool) :
    ∀ (ks : List Str) (i : Nat) (cur : Str),
      (bulkGo coins i cur ks).2.1.Sublist ks ∧
      (bulkGo coins i cur ks).2.2.Sublist ks ∧
      ∀ k, (bulkGo coins i cur ks).2.1.count k +
        (bulkGo coins i cur ks).2.2.count k = ks.count k := by
  intro ks
  induction ks with
  | nil =>
    intro i cur
    refine ⟨by simp [bulkGo], by simp [bulkGo], by simp [bulkGo]⟩
  | cons k rest ih =>
    intro i cur
    obtain ⟨hs1, hs2, hcnt⟩ := ih (i + 1) (bulkNext cur k (coins i))
    rw [bulkGo_eq]
    by_cases hacc : bulkAccept cur k (coins i) = true
    · rw [if_pos hacc]
      refine ⟨hs1.cons₂ k, hs2.cons k, ?_⟩
      intro x
      show ((k :: _).count x) + _ = (k :: rest).count x
      simp only [List.count_cons]
      have := hcnt x
      split_ifs <;> omega
    · rw [if_neg hacc]
      refine ⟨hs1.cons k, hs2.cons₂ k, ?_⟩
      intro x
      show _ + ((k :: _).count x) = (k :: rest).count x
      simp only [List.count_cons]
      have := hcnt x
      split_ifs <;> omega

theorem bulkGoE_cons_eq (coins : Nat → Bool) (i : Nat) (cur k : Str)
    (rest : List Str) :
    bulkGoE coins i cur (k :: rest) =
      if bulkGateSkip cur k then
        (bulkGoE coins (i + 1) cur rest).map fun r =>
          (r.1, r.2.1, k :: r.2.2)
      else if (insertKeywordIntelligently cur k none (coins i)).length >
          cur.length then
        if rxLiteralWord ((splitOnSpace (lowerStr (trimStr k))).headD []) then
          if !hasImmediateRep ((splitOnSpace (lowerStr (trimStr k))).headD [])
              (insertKeywordIntelligently cur k none (coins i)) then
            (bulkGoE coins (i + 1)
                (insertKeywordIntelligently cur k none (coins i)) rest).map
              fun r => (r.1, k :: r.2.1, r.2.2)
          else
            (bulkGoE coins (i + 1) cur rest).map fun r =>
              (r.1, r.2.1, k :: r.2.2)
        else none
      else
        (bulkGoE coins (i + 1) cur rest).map fun r =>
          (r.1, r.2.1, k :: r.2.2) := rfl

theorem bulkGoE_eq_of_safe (coins : Nat → Bool) :
    ∀ (ks : List Str) (i : Nat) (cur : Str),
      (∀ k ∈ ks,
        rxLiteralWord ((splitOnSpace (lowerStr (trimStr k))).headD []) =
          true) →
      bulkGoE coins i cur ks = some (bulkGo coins i cur ks) := by
  intro ks
  induction ks with
  | nil => intro i cur _; rfl
  | cons k rest ih =>
    intro i cur hsafe
    have hk : rxLiteralWord
        ((splitOnSpace (lowerStr (trimStr k))).headD []) = true :=
      hsafe k (by simp)
    have hrest : ∀ x ∈ rest,
        rxLiteralWord ((splitOnSpace (lowerStr (trimStr x))).headD []) =
          true :=
      fun x hx => hsafe x (List.mem_cons_of_mem k hx)
    rw [bulkGoE_cons_eq, bulkGo_cons_eq]
    by_cases hg : bulkGateSkip cur k = true
    · rw [if_pos hg, if_pos hg, ih (i + 1) cur hrest]
      rfl
    · rw [if_neg hg, if_neg hg]
      by_cases hlen :
          (insertKeywordIntelligently cur k none (coins i)).length >
            cur.length
      · rw [if_pos hlen, if_pos hlen, if_pos hk]
        by_cases hrep :
            (!hasImmediateRep
                ((splitOnSpace (lowerStr (trimStr k))).headD [])
                (insertKeywordIntelligently cur k none (coins i))) = true
        · rw [if_pos hrep, if_pos hrep, ih (i + 1) _ hrest]
          rfl
        · rw [if_neg hrep, if_neg hrep, ih (i + 1) cur hrest]
          rfl
      · rw [if_neg hlen, if_neg hlen, ih (i + 1) cur hrest]
        rfl

/-- C4 (amended): provided every keyword's lowercased trimmed first word
is non-empty and free of regex metacharacters — so the repetition check's
unescaped `RegExp` compiles and means the literal scan — the bulk endpoint
completes (its exception path is not taken) and processes the keywords
strictly in request order, re-evaluating the duplicate gate (inside
`bulkAccept`) against the current, already-mutated content, not the
original; the returned inserted/skipped lists partition the input
exhaustively: both are order-preserving sublists of the request list, and
every keyword's occurrence count splits exactly between the two.  The
original claim, asserted for *every* non-empty keyword list, fails: a
first word such as `"c++"` makes the `RegExp` constructor throw and the
endpoint answer 500 with no lists at all (see the counterexample). -/
theorem bulk_insert_partition (content : Str) (ks : List Str)
    (coins : Nat → Bool)
    (hsafe : ∀ k ∈ ks,
      rxLiteralWord ((splitOnSpace (lowerStr (trimStr k))).headD []) =
        true) :
    bulkInsertE content ks coins = some (bulkInsert content ks coins) ∧
    (∀ (i : Nat) (cur k : Str) (rest : List Str),
      bulkGo coins i cur (k :: rest) =
        if bulkAccept cur k (coins i) then
          ((bulkGo coins (i + 1) (bulkNext cur k (coins i)) rest).1,
           k :: (bulkGo coins (i + 1) (bulkNext cur k (coins i)) rest).2.1,
           (bulkGo coins (i + 1) (bulkNext cur k (coins i)) rest).2.2)
        else
          ((bulkGo coins (i + 1) (bulkNext cur k (coins i)) rest).1,
           (bulkGo coins (i + 1) (bulkNext cur k (coins i)) rest).2.1,
           k :: (bulkGo coins (i + 1) (bulkNext cur k (coins i)) rest).2.2)) ∧
    (bulkInsert content ks coins).2.1.Sublist ks ∧
    (bulkInsert content ks coins).2.2.Sublist ks ∧
    ∀ k, (bulkInsert content ks coins).2.1.count k +
      (bulkInsert content ks coins).2.2.count k = ks.count k := by
  obtain ⟨h1, h2, h3⟩ := bulkGo_partition coins ks 0 content
  refine ⟨?_, fun i cur k rest => bulkGo_eq coins i cur k rest, h1, h2, h3⟩
  unfold bulkInsertE bulkInsert
  rw [bulkGoE_eq_of_safe coins ks 0 content hsafe]
  rfl

/-- Witness for C4 at a concrete metacharacter-free keyword list. -/
theorem bulk_insert_partition_witness :
    (∀ k ∈ [str "wolf pack", str "lion"],
      rxLiteralWord ((splitOnSpace (lowerStr (trimStr k))).headD []) =
        true) ∧
    bulkInsertE (str "Zebras running fast. Lions hunt at night.")
        [str "wolf pack", str "lion"] (fun _ => false) =
      some (bulkInsert (str "Zebras running fast. Lions hunt at night.")
        [str "wolf pack", str "lion"] (fun _ => false)) :=
  ⟨by decide,
    (bulk_insert_partition (str "Zebras running fast. Lions hunt at night.")
      [str "wolf pack", str "lion"] (fun _ => false) (by decide)).1⟩

/-- Witness for C3 at a concrete normalized content and canonical keyword. -/
theorem insert_length_monotone_witness :
    wsNorm (str "Zebras running fast. Lions hunt at night.") ∧
    canonicalKW (str "wolf pack") ∧
    (str "Zebras running fast. Lions hunt at night.").length ≤
      (insertKeywordIntelligently
        (str "Zebras running fast. Lions hunt at night.") (str "wolf pack")
        none false).length :=
  ⟨by decide, by decide,
    (insert_length_monotone (str "Zebras running fast. Lions hunt at night.")
      (str "wolf pack") false (by decide) (by decide)).1⟩

/-- C6 (amended): scoring and cleanup are pure functions of their string
inputs (they are modelled as Lean functions), but single-keyword insertion
additionally consumes a `Math.random()` draw, so it is deterministic only
as a function of content, keyword, position *and* draw.  The draw is
irrelevant when the duplicate gate skips, and also whenever the connector
guard `randGuard` fails at the chosen splice position — the guard holds
iff the position is positive and the preceding word, lowercased with its
non-word characters removed, is non-empty and not one of
`and, or, but, so, the, a, an`; two runs on identical string inputs can
otherwise differ (see the counterexample). -/
theorem insertion_deterministic_given_draw (C K : Str) (p : Option Int)
    (c1 c2 : Bool) :
    (gateSkip C K = true →
      insertKeywordIntelligently C K p c1 =
        insertKeywordIntelligently C K p c2) ∧
    (∀ (words : List Str) (pos : Nat), randGuard words pos = false →
      createNaturalInsertion words K pos c1 =
        createNaturalInsertion words K pos c2) := by
  constructor
  · intro hg
    unfold insertKeywordIntelligently
    rw [if_pos hg, if_pos hg]
  · intro words pos hrg
    have hsc : spliceCore words K pos c1 = spliceCore words K pos c2 := by
      unfold spliceCore
      rw [hrg]
      simp
    unfold createNaturalInsertion spliceBlock
    rw [hsc]

/-- Witness for C6 at concrete inputs. -/
theorem insertion_deterministic_given_draw_witness :
    (gateSkip (str "The cat sat.") (str "cat") = true ∧
      insertKeywordIntelligently (str "The cat sat.") (str "cat") none true =
        insertKeywordIntelligently (str "The cat sat.") (str "cat") none
          false) ∧
    (randGuard (splitOnSpace (str "The big dog runs now.")) 0 = false ∧
      createNaturalInsertion (splitOnSpace (str "The big dog runs now."))
          (str "cat") 0 true =
        createNaturalInsertion (splitOnSpace (str "The big dog runs now."))
          (str "cat") 0 false) :=
  ⟨⟨by decide,
    (insertion_deterministic_given_draw (str "The cat sat.") (str "cat")
      none true false).1 (by decide)⟩,
   ⟨by decide,
    (insertion_deterministic_given_draw (str "The cat sat.") (str "cat")
      none true false).2
      (splitOnSpace (str "The big dog runs now.")) 0 (by decide)⟩⟩

theorem findOptimal_singleton (s K C : Str) :
    findOptimalInsertionPosition [s] K C = 0 := by
  simp only [findOptimalInsertionPosition, List.enum, List.enumFrom,
    List.foldl_cons, List.foldl_nil]
  split_ifs <;> first | rfl | simp

/-- C5 (amended): for non-whitespace content with no sentence-terminal
punctuation, the sentence split yields the singleton list `[C]` — not the
empty list — and a non-skipped insertion splices the keyword *into* that
single sentence at `findBestWordPosition` instead of returning the
`"{keyword}. {content}"` prefix form (see the counterexample).  The prefix
form only arises when the filtered sentence list is empty, i.e. for
whitespace-only content. -/
theorem punctfree_single_sentence (C K : Str) (coin : Bool)
    (hterm : ∀ c ∈ C, isTermChar c = false) (htrim : trimStr C ≠ [])
    (hg : gateSkip C K = false) :
    sentSplit C = [C] ∧
    insertKeywordIntelligently C K none coin =
      createNaturalInsertion (splitOnSpace C) K
        (findBestWordPosition (splitOnSpace C) K) coin := by
  have hgo : ∀ (s : Str) (prev : Option Char),
      (∀ c ∈ s, isTermChar c = false) →
      (prev = none ∨ ∃ p, prev = some p ∧ isTermChar p = false) →
      sentSplitGo false prev s = [s] := by
    intro s
    induction s with
    | nil => intro prev _ _; rfl
    | cons c cs ih =>
      intro prev hterm2 hprev
      rw [sentGo_false_eq, if_neg ?_]
      · rw [ih (some c) (fun x hx => hterm2 x (by simp [hx]))
          (Or.inr ⟨c, rfl, hterm2 c (by simp)⟩)]
        rfl
      · rcases hprev with h | ⟨p, hp, htp⟩
        · subst h; simp
        · subst hp; simp [htp]
  have hsplit : sentSplit C = [C] := by
    unfold sentSplit
    rw [hgo C none hterm (Or.inl rfl)]
    have hie : (trimStr C).isEmpty = false := by
      cases hc : trimStr C with
      | nil => exact absurd hc htrim
      | cons x xs => rfl
    simp [List.filter, hie]
  refine ⟨hsplit, ?_⟩
  have hmain : insertKeywordIntelligently C K none coin =
      if (sentSplit C).isEmpty then K ++ '.' :: ' ' :: C
      else insertAuto (sentSplit C) K C coin := by
    unfold insertKeywordIntelligently
    rw [if_neg (by simp [hg])]
  rw [hmain, hsplit]
  rw [show (([C] : List Str).isEmpty) = false from rfl]
  simp only [Bool.false_eq_true, if_false]
  unfold insertAuto insertKeywordInSentence
  rw [findOptimal_singleton]
  rfl

/-- Witness for C5 at concrete punctuation-free content. -/
theorem punctfree_single_sentence_witness :
    (∀ c ∈ str "Walk the dog now", isTermChar c = false) ∧
    trimStr (str "Walk the dog now") ≠ [] ∧
    gateSkip (str "Walk the dog now") (str "zebra") = false ∧
    (sentSplit (str "Walk the dog now") = [str "Walk the dog now"] ∧
     insertKeywordIntelligently (str "Walk the dog now") (str "zebra") none
         false =
       createNaturalInsertion (splitOnSpace (str "Walk the dog now"))
         (str "zebra")
         (findBestWordPosition (splitOnSpace (str "Walk the dog now"))
           (str "zebra")) false) :=
  ⟨by decide, by decide, by decide,
   punctfree_single_sentence (str "Walk the dog now") (str "zebra") false
     (by decide) (by decide) (by decide)⟩

/-- Witness for C2 at a concrete canonical keyword and content. -/
theorem insert_boundary_before_cleanup_witness :
    canonicalKW (str "gps tracker") ∧
    insertKeywordIntelligently (str "Walk the dog now please.")
        (str "gps tracker") none false ≠ str "Walk the dog now please." ∧
    testBoundary (str "gps tracker")
      (insertKeywordIntelligently (str "Walk the dog now please.")
        (str "gps tracker") none false) = true :=
  ⟨by decide, by decide,
    insert_boundary_before_cleanup (str "Walk the dog now please.")
      (str "gps tracker") false (by decide) (by decide)⟩

end Seo



